import Mathlib

/-!
# FileReader: a shallow embedding of `src/FileReader.cpp`

The file reader turns a finite multichannel recording into a looping stream.
This development embeds the engine state, the constructor and the methods
`setFile`, `setActiveRecording`, `setParameter`, `process`, `isReady`,
`updateSettings` and the time conversions, and proves or refutes statements of
the specification about them.

Conventions of the embedding.

* A `float` value is a rational (`ℚ`).  The three `float` expressions that end
  in an integer conversion of wide range, `samplesNeeded`,
  `samplesToMilliseconds` and `millisecondsToSamples`, round every operation
  (a conversion of an integer to `float`, a product, a quotient) to the nearest
  value with a 24-bit significand, ties to even (`f32`).  The exponent range of
  `float` is not bounded: a result beyond the largest finite `float` is also
  beyond the range of every integer conversion.  The quotient
  `getDefaultSampleRate () / samplesToRead` and the difference
  `getDefaultSampleRate () - iterationsPerSecond * samplesToRead` of the loop
  body are taken exactly: for a rate that is a `float` below `2 ^ 24` and a
  count below `2 ^ 24` the rounded operations give the same integers
  (`loop_body_float_exact`).
* A conversion of a `float` to an integer type truncates toward zero
  (`floatToInt`).  The conversions to `unsigned int` and to `int64` are
  undefined in the source when the truncated value does not fit the type; they
  are `none` there (`floatToUInt`, `floatToInt64`).  `int` and `int64`
  variables are `Int` without a width.
* Calls on the backend (`readData`, `seekTo`, `processChannelData`), the marker
  events (`addEvent`) and the time-base publication are recorded, in call
  order, as a list of `Effect`s.
* Undefined behaviour that the control flow can reach (a call through a null
  `input`, the integer modulus by zero in `process`) is a `Fault`.
* The `while` loop of `process` is iterated under an explicit budget of
  iterations; `Outcome.fuel` says the budget ran out while the loop condition
  still held.
* Calls into the editor (`populateRecordings`, `setTotalTime`,
  `setCurrentTime`) do not touch the engine state and are left out, together
  with the conversion of their argument.
-/

/-- Per-channel calibration as returned by `getChannelInfo`: a name and a scale. -/
structure RecordedChannelInfo where
  name : String
  bitVolts : ℚ
deriving DecidableEq, Repr

/-- Modelled from the spec: the backend capability interface of §6 (the
`FileSource` class and its subclasses are not in `src/`).  A value gives the
answers of one backend instance: whether `OpenFile` succeeds on a path, the
number of records, the active record index, and per record the channel count,
sample count, sample rate and per-channel calibration. -/
structure FileSource where
  opens : String → Bool
  fileName : String
  numRecords : Int
  activeRecord : Int
  numChannels : Int → Int
  numSamples : Int → Int
  sampleRate : Int → ℚ
  channelInfo : Int → Int → RecordedChannelInfo
  ready : Bool

namespace FileSource

/-- The call `OpenFile (file)`: the returned flag and the instance afterwards. -/
def OpenFile (src : FileSource) (file : String) : Bool × FileSource :=
  if src.opens file then (true, { src with fileName := file }) else (false, src)

/-- The call `getNumRecords ()`. -/
def getNumRecords (src : FileSource) : Int := src.numRecords

/-- The call `setActiveRecord (index)`. -/
def setActiveRecord (src : FileSource) (index : Int) : FileSource :=
  { src with activeRecord := index }

/-- The call `getActiveNumChannels ()`. -/
def getActiveNumChannels (src : FileSource) : Int := src.numChannels src.activeRecord

/-- The call `getActiveNumSamples ()`. -/
def getActiveNumSamples (src : FileSource) : Int := src.numSamples src.activeRecord

/-- The call `getActiveSampleRate ()`. -/
def getActiveSampleRate (src : FileSource) : ℚ := src.sampleRate src.activeRecord

/-- The call `getChannelInfo (i)` for the active record. -/
def getChannelInfo (src : FileSource) (i : Int) : RecordedChannelInfo :=
  src.channelInfo src.activeRecord i

/-- The call `isReady ()` of the backend. -/
def isReady (src : FileSource) : Bool := src.ready

end FileSource

/-- Modelled from the spec: one entry of the plugin manager's list of
registered backends (`Plugin::FileSourceInfo` is not in `src/`): its name, its
semicolon-delimited extension list and the instance `creator ()` returns. -/
structure FileSourceInfo where
  name : String
  extensions : String
  creator : FileSource

/-- Calls the engine makes on its collaborators, in the order they happen. -/
inductive Effect where
  | readData (offset : Int) (nSamples : Int)
  | seekTo (sample : Int)
  | addEvent (sampleNum : Int)
  | processChannelData (channel : Int) (nSamples : Int)
  | setTimestampAndSamples (timestamp : Int) (nSamples : Int)
  | sendStatusMessage (message : String)
deriving DecidableEq, Repr

/-- Undefined behaviour reachable from the control flow of the source. -/
inductive Fault where
  | nullInput
  | divisionByZero
deriving DecidableEq, Repr

/-- Result of running code that may loop: it returned, it hit a fault, or the
iteration budget ran out with the loop still running. -/
inductive Outcome (α : Type) where
  | returns (a : α)
  | fault (f : Fault)
  | fuel
deriving Repr

/-- Conversion of a `float` to an integer type: truncation toward zero. -/
def floatToInt (q : ℚ) : Int := Int.tdiv q.num q.den

/-- Division of `a` by `b` rounded to the nearest integer, a tie going to the
even neighbour. -/
def roundHalfEven (a b : Nat) : Nat :=
  let q := a / b
  let r := a % b
  if 2 * r < b then q else if b < 2 * r then q + 1 else if q % 2 = 0 then q else q + 1

/-- The position of the leading binary digit of `n`, found in at most `fuel`
halvings. -/
def log2Fuel : Nat → Nat → Nat
  | 0, _ => 0
  | fuel + 1, n => if n < 2 then 0 else log2Fuel fuel (n / 2) + 1

/-- The binary exponent of the positive quotient `a / b`: the integer `e` with
`2 ^ e <= a / b < 2 ^ (e + 1)`. -/
def exponent2 (a b : Nat) : Int :=
  let e0 : Int := (log2Fuel a a : Int) - (log2Fuel b b : Int)
  if b * 2 ^ e0.toNat ≤ a * 2 ^ (-e0).toNat then e0 else e0 - 1

/-- The value of a `float` operation: the exact result rounded to the nearest
number with a 24-bit significand, a tie going to the even significand
(IEEE 754 binary32, round to nearest even).  The exponent range is not bounded
here; a result beyond the largest finite `float` does not survive the integer
conversions below, which are undefined there. -/
def f32 (x : ℚ) : ℚ :=
  let a := x.num.natAbs
  let b := x.den
  let k := exponent2 a b - 23
  let m := roundHalfEven (a * 2 ^ (-k).toNat) (b * 2 ^ k.toNat)
  let v : ℚ := ((m * 2 ^ k.toNat : Nat) : ℚ) / ((2 ^ (-k).toNat : Nat) : ℚ)
  if x = 0 then 0 else if x < 0 then -v else v

/-- Conversion of a `float` to `unsigned int`: truncation toward zero when the
truncated value is one of `0 .. 2 ^ 32 - 1`; otherwise the conversion is
undefined in the source (`none`). -/
def floatToUInt (q : ℚ) : Option Nat :=
  if -1 < q ∧ q < 2 ^ 32 then some (floatToInt q).toNat else none

/-- Conversion of a `float` to `int64`: truncation toward zero when the
truncated value is one of `-2 ^ 63 .. 2 ^ 63 - 1`; otherwise the conversion is
undefined in the source (`none`). -/
def floatToInt64 (q : ℚ) : Option Int :=
  if -(2 ^ 63) - 1 < q ∧ q < 2 ^ 63 then some (floatToInt q) else none

/-- The member variables of `FileReader` that the embedded methods use.
`supportedExtensions` is the `HashMap<String, int>`; an absent key reads as
`0`. -/
structure FileReader where
  input : Option FileSource
  timestamp : Int
  currentSampleRate : ℚ
  currentNumChannels : Int
  currentSample : Int
  currentNumSamples : Int
  startSample : Int
  stopSample : Int
  count : Int
  channelInfo : List RecordedChannelInfo
  supportedExtensions : String → Int

/-- JUCE `String::lastIndexOfChar`: the index of the last occurrence, `-1`
when there is none. -/
def lastIndexOfChar (cs : List Char) (c : Char) : Int :=
  match (cs.reverse).indexOf? c with
  | some k => (cs.length : Int) - 1 - (k : Int)
  | none => -1

/-- JUCE `File::getFileExtension`: the text from the last dot on, when that dot
comes after the last path separator; empty otherwise. -/
def getFileExtension (fullPath : String) : String :=
  let cs := fullPath.toList
  let indexOfDot := lastIndexOfChar cs '.'
  if indexOfDot > lastIndexOfChar cs '/' then String.mk (cs.drop indexOfDot.toNat) else ""

/-- The expression `file.getFileExtension().toLowerCase().substring (1)`. -/
def lowerCaseExtension (fullPath : String) : String :=
  String.mk (((getFileExtension fullPath).toLower).toList.drop 1)

namespace FileReader

/-- The method `isReady`. -/
def isReady (s : FileReader) : Bool :=
  match s.input with
  | none => false
  | some input => input.isReady

/-- The method `getDefaultSampleRate`. -/
def getDefaultSampleRate (s : FileReader) : ℚ :=
  match s.input with
  | some _ => s.currentSampleRate
  | none => 44100

/-- The method `isFileExtensionSupported`. -/
def isFileExtensionSupported (s : FileReader) (ext : String) : Bool :=
  let index := s.supportedExtensions ext - 1
  decide (index ≥ 0)

/-- The method `samplesToMilliseconds`:
`(unsigned int) (1000.f * float (samples) / currentSampleRate)`, the conversion
of `samples`, the product and the quotient each rounded to `float`.  With a
zero rate the quotient is an infinity or a NaN, whose conversion is undefined
(`none`). -/
def samplesToMilliseconds (s : FileReader) (samples : Int) : Option Nat :=
  if s.currentSampleRate = 0 then none
  else floatToUInt (f32 (f32 (1000 * f32 (samples : ℚ)) / s.currentSampleRate))

/-- The method `millisecondsToSamples`:
`(int64) (currentSampleRate * float (ms) / 1000.f)`, the conversion of `ms`,
the product and the quotient each rounded to `float`. -/
def millisecondsToSamples (s : FileReader) (ms : Nat) : Option Int :=
  floatToInt64 (f32 (f32 (s.currentSampleRate * f32 (ms : ℚ)) / 1000))

/-- The loop `for (i = 0; i < currentNumChannels; ++i) channelInfo.add (...)`:
the entries it appends. -/
def channelInfoOf (input : FileSource) (numChannels : Int) : List RecordedChannelInfo :=
  (List.range numChannels.toNat).map (fun i => input.getChannelInfo (i : Int))

/-- The body of `setActiveRecording` on a non-null `input`. -/
def setActiveRecordingOn (s : FileReader) (input : FileSource) (index : Int) : FileReader :=
  let input := input.setActiveRecord index
  let currentNumChannels := input.getActiveNumChannels
  let currentNumSamples := input.getActiveNumSamples
  let currentSampleRate := input.getActiveSampleRate
  { s with
    input := some input
    currentNumChannels := currentNumChannels
    currentNumSamples := currentNumSamples
    currentSampleRate := currentSampleRate
    currentSample := 0
    startSample := 0
    stopSample := currentNumSamples
    channelInfo := s.channelInfo ++ channelInfoOf input currentNumChannels }

/-- The method `setActiveRecording`; `none` is the call through a null `input`. -/
def setActiveRecording (s : FileReader) (index : Int) : Option FileReader :=
  match s.input with
  | none => none
  | some input => some (setActiveRecordingOn s input index)

/-- The method `setFile`, given the plugin manager's `getFileSourceInfo`: the
returned flag, the status messages sent, and the engine afterwards. -/
def setFile (getFileSourceInfo : Int → FileSourceInfo) (s : FileReader) (fullpath : String) :
    Bool × List Effect × FileReader :=
  let ext := lowerCaseExtension fullpath
  let index := s.supportedExtensions ext - 1
  let isExtensionSupported := decide (index ≥ 0)
  if isExtensionSupported then
    let sourceInfo := getFileSourceInfo index
    let (opened, input) := (sourceInfo.creator).OpenFile fullpath
    if ! opened then
      (false, [Effect.sendStatusMessage "Invalid file"], { s with input := none })
    else
      let isEmptyFile := decide (input.getNumRecords ≤ 0)
      if isEmptyFile then
        (false, [Effect.sendStatusMessage "Empty file. Inoring open operation"],
          { s with input := none })
      else
        (true, [], setActiveRecordingOn s input 0)
  else
    (false, [Effect.sendStatusMessage "File type not supported"], s)

/-- The method `setParameter`; `none` is the call through a null `input`
(index 0) or an undefined conversion: of `newValue` to the `unsigned int`
argument of `millisecondsToSamples`, or inside `millisecondsToSamples`
(indices 1 and 2). -/
def setParameter (s : FileReader) (parameterIndex : Int) (newValue : ℚ) : Option FileReader :=
  if parameterIndex = 0 then
    setActiveRecording s (floatToInt newValue)
  else if parameterIndex = 1 then
    match floatToUInt newValue with
    | none => none
    | some ms =>
      match millisecondsToSamples s ms with
      | none => none
      | some startSample =>
        some { s with startSample := startSample, currentSample := startSample }
  else if parameterIndex = 2 then
    match floatToUInt newValue with
    | none => none
    | some ms =>
      match millisecondsToSamples s ms with
      | none => none
      | some stopSample =>
        some { s with stopSample := stopSample, currentSample := s.startSample }
  else
    some s

/-- The first statement of `process`, the number of source samples of one
pull: `int (float (numSamples) * (getDefaultSampleRate () / 44100.0f))`, the
conversion of `numSamples`, the quotient and the product each rounded to
`float`. -/
def samplesNeeded (s : FileReader) (numSamples : Int) : Int :=
  floatToInt (f32 (f32 (numSamples : ℚ) * f32 (getDefaultSampleRate s / 44100)))

/-- One iteration of the `while` loop of `process`: the engine afterwards, the
new value of `samplesRead`, and the calls made. -/
def processBody (s : FileReader) (samplesNeeded samplesRead : Int) :
    Except Fault (FileReader × Int × List Effect) :=
  let count := s.count + 1
  let samplesToRead := samplesNeeded - samplesRead
  let iterationsPerSecond := floatToInt (getDefaultSampleRate s / (samplesToRead : ℚ))
  let sample := floatToInt (getDefaultSampleRate s - ((iterationsPerSecond * samplesToRead : Int) : ℚ))
  match s.input with
  | none => .error Fault.nullInput
  | some _ =>
    let r : Int × Int × List Effect :=
      if s.currentSample + samplesToRead > s.stopSample then
        let samplesToRead := s.stopSample - s.currentSample
        (samplesToRead, s.startSample,
          (if samplesToRead > 0 then [Effect.readData samplesRead samplesToRead] else [])
            ++ [Effect.seekTo s.startSample])
      else
        (samplesToRead, s.currentSample + samplesToRead,
          [Effect.readData samplesRead samplesToRead])
    if iterationsPerSecond = 0 then .error Fault.divisionByZero
    else
      let marker := if Int.tmod count iterationsPerSecond = 0 then [Effect.addEvent sample] else []
      .ok ({ s with count := count, currentSample := r.2.1 }, samplesRead + r.1, r.2.2 ++ marker)

/-- The `while (samplesRead < samplesNeeded)` loop of `process`, run for at
most the given number of iterations; `out` collects the calls made so far. -/
def processLoop (samplesNeeded : Int) :
    Nat → FileReader → Int → List Effect → Outcome (FileReader × List Effect)
  | 0, s, samplesRead, out =>
    if samplesRead < samplesNeeded then Outcome.fuel else Outcome.returns (s, out)
  | n + 1, s, samplesRead, out =>
    if samplesRead < samplesNeeded then
      match processBody s samplesNeeded samplesRead with
      | .error f => Outcome.fault f
      | .ok (s', samplesRead', calls) => processLoop samplesNeeded n s' samplesRead' (out ++ calls)
    else Outcome.returns (s, out)

/-- The loop `for (i = 0; i < currentNumChannels; ++i) input->processChannelData (...)`. -/
def convertChannels (s : FileReader) (samplesNeeded : Int) : List Effect :=
  (List.range s.currentNumChannels.toNat).map
    (fun i => Effect.processChannelData (i : Int) samplesNeeded)

/-- The method `process` on a buffer of `numSamples` frames, the loop being
given a budget of iterations: the engine afterwards and the calls made. -/
def process (budget : Nat) (s : FileReader) (numSamples : Int) :
    Outcome (FileReader × List Effect) :=
  let samplesNeeded := samplesNeeded s numSamples
  match processLoop samplesNeeded budget s 0 [] with
  | Outcome.returns (s', calls) =>
    if s'.input.isNone ∧ 0 < s'.currentNumChannels then Outcome.fault Fault.nullInput
    else
      let timestamp := s'.timestamp + samplesNeeded
      Outcome.returns ({ s' with timestamp := timestamp },
        calls ++ convertChannels s' samplesNeeded
          ++ [Effect.setTimestampAndSamples timestamp samplesNeeded])
  | Outcome.fault f => Outcome.fault f
  | Outcome.fuel => Outcome.fuel

/-- Consecutive calls of `process`, one per block size of the list; the calls
of all pulls are concatenated. -/
def pulls (budget : Nat) : FileReader → List Int → Outcome (FileReader × List Effect)
  | s, [] => Outcome.returns (s, [])
  | s, b :: bs =>
    match process budget s b with
    | Outcome.returns (s', calls) =>
      match pulls budget s' bs with
      | Outcome.returns (s'', calls') => Outcome.returns (s'', calls ++ calls')
      | Outcome.fault f => Outcome.fault f
      | Outcome.fuel => Outcome.fuel
    | Outcome.fault f => Outcome.fault f
    | Outcome.fuel => Outcome.fuel

end FileReader

/-- The `readData` calls among a list of calls, as pairs (offset, count). -/
def readsOf : List Effect → List (Int × Int)
  | [] => []
  | Effect.readData o c :: rest => (o, c) :: readsOf rest
  | _ :: rest => readsOf rest

/-- The reads `Fills a reads b` when they are placed back to back from offset
`a` up to offset `b`, each with a positive count. -/
def Fills : Int → List (Int × Int) → Int → Prop
  | a, [], b => a = b
  | a, (o, c) :: rest, b => o = a ∧ 0 < c ∧ Fills (a + c) rest b

instance Fills.instDecidable :
    (a : Int) → (xs : List (Int × Int)) → (b : Int) → Decidable (Fills a xs b)
  | a, [], b => inferInstanceAs (Decidable (a = b))
  | a, (o, c) :: rest, b =>
    have := Fills.instDecidable (a + c) rest b
    inferInstanceAs (Decidable (o = a ∧ 0 < c ∧ Fills (a + c) rest b))

namespace FileReader

/-- The marker part of one loop iteration: the `addEvent` call made when
`count % iterationsPerSecond == 0`, for the values the iteration computes
before it reads. -/
def markerOf (s : FileReader) (samplesToRead : Int) : List Effect :=
  let iterationsPerSecond := floatToInt (getDefaultSampleRate s / (samplesToRead : ℚ))
  if Int.tmod (s.count + 1) iterationsPerSecond = 0 then
    [Effect.addEvent (floatToInt
      (getDefaultSampleRate s - ((iterationsPerSecond * samplesToRead : Int) : ℚ)))]
  else []

/-- Big-step runs of the `while` loop of `process`: `LoopRun N s k s' calls`
says that the loop entered with engine `s` and `samplesRead = k` leaves with
engine `s'` after making `calls`. -/
inductive LoopRun (N : Int) : FileReader → Int → FileReader → List Effect → Prop where
  | done (s : FileReader) (k : Int) (h : ¬ k < N) : LoopRun N s k s []
  | step (s s1 s' : FileReader) (k k1 : Int) (c1 c' : List Effect) (h : k < N)
      (hb : processBody s N k = .ok (s1, k1, c1)) (hr : LoopRun N s1 k1 s' c') :
      LoopRun N s k s' (c1 ++ c')

end FileReader

/-- The value a returning run produced, if it returned. -/
def Outcome.result? {α : Type} : Outcome α → Option α
  | Outcome.returns a => some a
  | Outcome.fault _ => none
  | Outcome.fuel => none

/-- Calls that the `while` loop of `process` makes: reads, seeks, markers. -/
def Effect.inLoop : Effect → Bool
  | Effect.readData _ _ => true
  | Effect.seekTo _ => true
  | Effect.addEvent _ => true
  | _ => false

/-- The `seekTo` calls among a list of calls. -/
def seeksOf : List Effect → List Int
  | [] => []
  | Effect.seekTo x :: rest => x :: seeksOf rest
  | _ :: rest => seeksOf rest

/-- The `readData` and `seekTo` calls among a list of calls, in call order. -/
def backendCalls (calls : List Effect) : List Effect :=
  calls.filter (fun e => match e with
    | Effect.readData _ _ => true
    | Effect.seekTo _ => true
    | _ => false)

namespace FileReader

/-- The method `updateSettings`: the calibration it applies to the data
channels `0 .. currentNumChannels - 1`, in order; nothing without an input. -/
def updateSettings (s : FileReader) : List RecordedChannelInfo :=
  match s.input with
  | none => []
  | some _ =>
    (List.range s.currentNumChannels.toNat).map (fun i => s.channelInfo.getD i ⟨"", 0⟩)

/-- The clamping invariant of the specification (§3, §8):
`0 <= startSample <= stopSample <= totalSamples`. -/
def clampingInvariant (s : FileReader) : Prop :=
  0 ≤ s.startSample ∧ s.startSample ≤ s.stopSample ∧ s.stopSample ≤ s.currentNumSamples

instance (s : FileReader) : Decidable (clampingInvariant s) := by
  unfold clampingInvariant
  infer_instance

/-- The engine as the constructor leaves it, for a given extension map and a
given content of the member `count`, which the constructor does not set. -/
def constructed (supportedExtensions : String → Int) (count : Int) : FileReader where
  input := none
  timestamp := 0
  currentSampleRate := 0
  currentNumChannels := 0
  currentSample := 0
  currentNumSamples := 0
  startSample := 0
  stopSample := 0
  count := count
  channelInfo := []
  supportedExtensions := supportedExtensions

end FileReader

/-- Example backend: opens every path but `bad.kwd`; record 0 has 4 channels
(name `a`, scale 1) and 300000 samples at 30000 Hz, every other record has 2
channels (name `b`, scale `r + 1`) and 10 samples at 44100 Hz. -/
def demoSource : FileSource where
  opens := fun p => p != "bad.kwd"
  fileName := ""
  numRecords := 2
  activeRecord := 0
  numChannels := fun r => if r = 0 then 4 else 2
  numSamples := fun r => if r = 0 then 300000 else 10
  sampleRate := fun r => if r = 0 then 30000 else 44100
  channelInfo := fun r _ => ⟨if r = 0 then "a" else "b", (r : ℚ) + 1⟩
  ready := true

/-- Example backend that opens every path and reports no record. -/
def emptySource : FileSource where
  opens := fun _ => true
  fileName := ""
  numRecords := 0
  activeRecord := 0
  numChannels := fun _ => 0
  numSamples := fun _ => 0
  sampleRate := fun _ => 0
  channelInfo := fun _ _ => ⟨"", 0⟩
  ready := true

/-- Example plugin list: backend 0 is `demoSource`, every other index is
`emptySource`. -/
def demoPlugins : Int → FileSourceInfo :=
  fun i => if i = 0 then ⟨"demo", "kwd", demoSource⟩ else ⟨"empty", "nul", emptySource⟩

/-- Example extension map: `kwd` is backend 0, `nul` is backend 1. -/
def demoExtensions : String → Int :=
  fun e => if e = "kwd" then 1 else if e = "nul" then 2 else 0

/-- Example backend instance after `OpenFile` on `x.kwd`. -/
def demoOpened : FileSource := (demoSource.OpenFile "x.kwd").2

/-- Example engine: freshly constructed, then `setFile` on `x.kwd`. -/
def demoEngine : FileReader :=
  (FileReader.setFile demoPlugins (FileReader.constructed demoExtensions 0) "x.kwd").2.2

/-- Example engine on the short recording: a freshly constructed engine on
which record 1 of `demoSource` (10 samples at 44100 Hz) is selected. -/
def shortEngine : FileReader :=
  FileReader.setActiveRecordingOn (FileReader.constructed demoExtensions 0) demoSource 1


/-- JUCE `StringArray::addTokens` on a non-empty text, as one scan: a break
character outside quotes ends the current token; a quote character opens a
quoted stretch, closed by the same character; the quotes stay in the token. -/
def tokensFrom (breakCharacters quoteCharacters : List Char) :
    Option Char → List Char → List Char → List (List Char)
  | _, [], token => [token.reverse]
  | currentQuoteChar, c :: rest, token =>
    if currentQuoteChar = none ∧ c ∈ breakCharacters then
      token.reverse :: tokensFrom breakCharacters quoteCharacters none rest []
    else
      let quote :=
        if c ∈ quoteCharacters then
          (if currentQuoteChar = none then some c
           else if currentQuoteChar = some c then none else currentQuoteChar)
        else currentQuoteChar
      tokensFrom breakCharacters quoteCharacters quote rest (c :: token)

/-- The call `extensions.addTokens (info.extensions, ";", "\"")` on an empty
array: the tokens of the extension list; an empty text has no token. -/
def addTokens (text : String) : List String :=
  if text.isEmpty then []
  else (tokensFrom [';'] [Char.ofNat 34] none text.toList []).map String.mk

/-- The marker events among a list of calls: how many `addEvent` calls. -/
def markersOf : List Effect → Nat
  | [] => 0
  | Effect.addEvent _ :: rest => markersOf rest + 1
  | _ :: rest => markersOf rest

namespace FileReader

/-- The inner loop of the constructor over the tokens of one backend:
`supportedExtensions.set (extensions[j].toLowerCase(), i + 1)`. -/
def registerExtensions (supportedExtensions : String → Int) (i : Int) :
    List String → String → Int
  | [] => supportedExtensions
  | token :: rest =>
    registerExtensions (fun e => if e = token.toLower then i + 1 else supportedExtensions e) i rest

/-- The outer loop of the constructor over the file sources `i, i + 1, ...` of
the plugin manager. -/
def registerFileSources (supportedExtensions : String → Int) (i : Int) :
    List FileSourceInfo → String → Int
  | [] => supportedExtensions
  | info :: rest =>
    registerFileSources (registerExtensions supportedExtensions i (addTokens info.extensions))
      (i + 1) rest

/-- The constructor `FileReader ()`, given the plugin manager's file sources
and the content of the member `count`, which the constructor does not set. -/
def create (fileSources : List FileSourceInfo) (count : Int) : FileReader :=
  constructed (registerFileSources (fun _ => 0) 0 fileSources) count

/-- The backend calls of one loop iteration, made before the marker test: the
read up to the stop bound (when positive) and the seek back when the remaining
count crosses `stopSample`, else the read of the whole remainder. -/
def iterationCalls (s : FileReader) (samplesNeeded samplesRead : Int) : List Effect :=
  let samplesToRead := samplesNeeded - samplesRead
  if s.currentSample + samplesToRead > s.stopSample then
    let samplesToRead := s.stopSample - s.currentSample
    (if samplesToRead > 0 then [Effect.readData samplesRead samplesToRead] else [])
      ++ [Effect.seekTo s.startSample]
  else
    [Effect.readData samplesRead samplesToRead]

/-- The iterations the `while` loop of `process` enters under a budget: the
engine and the value of `samplesRead` at the start of each, in order, up to
the loop exit, a fault, or the end of the budget. -/
def iterationsOf (samplesNeeded : Int) : Nat → FileReader → Int → List (FileReader × Int)
  | 0, _, _ => []
  | n + 1, s, samplesRead =>
    if samplesRead < samplesNeeded then
      (s, samplesRead) ::
        (match processBody s samplesNeeded samplesRead with
          | .error _ => []
          | .ok (s', samplesRead', _) => iterationsOf samplesNeeded n s' samplesRead')
    else []

/-- The marker test `count % iterationsPerSecond == 0` of the loop iteration
entered with engine `s` after `samplesRead` samples, for the values the
iteration computes before it reads. -/
def markerDue (s : FileReader) (samplesNeeded samplesRead : Int) : Bool :=
  let count := s.count + 1
  let samplesToRead := samplesNeeded - samplesRead
  let iterationsPerSecond := floatToInt (getDefaultSampleRate s / (samplesToRead : ℚ))
  decide (Int.tmod count iterationsPerSecond = 0)

/-- The loop iterations entered by consecutive calls of `process`, one call
per block size of the list, in order: the engine at the start of the
iteration, `samplesNeeded` of its call, and `samplesRead`. -/
def pullIterations (budget : Nat) : FileReader → List Int → List (FileReader × Int × Int)
  | _, [] => []
  | s, b :: bs =>
    (iterationsOf (samplesNeeded s b) budget s 0).map (fun p => (p.1, samplesNeeded s b, p.2))
      ++ (match process budget s b with
          | Outcome.returns (s', _) => pullIterations budget s' bs
          | Outcome.fault _ => []
          | Outcome.fuel => [])

end FileReader

/-- Example plugin list as the plugin manager holds it: backend 0 lists `kwd`
and `KWX`, backend 1 lists `nul` and again `kwd`. -/
def demoFileSources : List FileSourceInfo :=
  [⟨"demo", "kwd;KWX", demoSource⟩, ⟨"empty", "nul;kwd", emptySource⟩]

/-- Example engine with the cursor past the stop bound: `demoEngine` after the
start time 2000 ms and then the stop time 1000 ms. -/
def crossedEngine : FileReader :=
  { demoEngine with startSample := 60000, stopSample := 30000, currentSample := 60000 }

/-- Example engine with an empty loop range: `demoEngine` after the stop time
0 ms. -/
def stoppedEngine : FileReader :=
  { demoEngine with stopSample := 0, currentSample := 0 }

/-- Example engine with a loop of one second: `demoEngine` after the stop time
1000 ms (loop 0 .. 30000, cursor 0). -/
def loopedEngine : FileReader :=
  { demoEngine with stopSample := 30000, currentSample := 0 }

/-- Example backend with one record: 1 channel (name `c`, scale 1) and 300000
samples at the given sample rate. -/
def rateSource (rate : ℚ) : FileSource where
  opens := fun _ => true
  fileName := ""
  numRecords := 1
  activeRecord := 0
  numChannels := fun _ => 1
  numSamples := fun _ => 300000
  sampleRate := fun _ => rate
  channelInfo := fun _ _ => ⟨"c", 1⟩
  ready := true

/-- Example engine at a given sample rate: a freshly constructed engine on
which record 0 of `rateSource rate` is selected. -/
def rateEngine (rate : ℚ) : FileReader :=
  FileReader.setActiveRecordingOn (FileReader.constructed demoExtensions 0) (rateSource rate) 0

/-- The backend `info` lists the extension `ext`: `ext` is the lower-casing of
one of the tokens of its extension list. -/
def listsExtension (info : FileSourceInfo) (ext : String) : Prop :=
  ∃ token ∈ addTokens info.extensions, ext = token.toLower

instance (info : FileSourceInfo) (ext : String) : Decidable (listsExtension info ext) := by
  unfold listsExtension
  infer_instance

/-! ## Lemmas -/

theorem floatToInt_eq_floor {q : ℚ} (hq : 0 ≤ q) : floatToInt q = ⌊q⌋ := by
  have hnum : 0 ≤ q.num := Rat.num_nonneg.mpr hq
  unfold floatToInt
  rw [Int.tdiv_eq_ediv hnum (Int.ofNat_nonneg _)]
  exact (Rat.floor_def' q).symm

theorem floatToInt_nonneg {q : ℚ} (hq : 0 ≤ q) : 0 ≤ floatToInt q := by
  rw [floatToInt_eq_floor hq]
  exact Int.floor_nonneg.mpr hq

theorem floatToInt_intCast (z : Int) : floatToInt (z : ℚ) = z := by
  simp [floatToInt]

theorem floatToInt_pos_of_one_le {q : ℚ} (hq : 1 ≤ q) : 1 ≤ floatToInt q := by
  rw [floatToInt_eq_floor (by linarith)]
  exact Int.le_floor.mpr (by simpa using hq)

theorem log2Fuel_spec :
    ∀ (fuel n : Nat), n ≤ fuel → 0 < n →
      2 ^ log2Fuel fuel n ≤ n ∧ n < 2 ^ (log2Fuel fuel n + 1) := by
  intro fuel
  induction fuel with
  | zero => intro n h1 h2; omega
  | succ fuel ih =>
    intro n hle hpos
    unfold log2Fuel
    by_cases h2 : n < 2
    · rw [if_pos h2]
      constructor
      · simpa using hpos
      · simpa using h2
    · rw [if_neg h2]
      have hhalf := ih (n / 2) (by omega) (by omega)
      obtain ⟨h3, h4⟩ := hhalf
      constructor
      · rw [pow_succ]
        omega
      · rw [pow_succ]
        omega

theorem roundHalfEven_error (a b : Nat) (hb : 0 < b) :
    |((roundHalfEven a b : Nat) : ℚ) - (a : ℚ) / (b : ℚ)| ≤ 1 / 2 := by
  have hbq : (0 : ℚ) < (b : ℚ) := by exact_mod_cast hb
  have hdiv : (a : ℚ) = (b : ℚ) * ((a / b : Nat) : ℚ) + ((a % b : Nat) : ℚ) := by
    exact_mod_cast (Nat.div_add_mod a b).symm
  have hr : a % b < b := Nat.mod_lt a hb
  have hrq : ((a % b : Nat) : ℚ) < (b : ℚ) := by exact_mod_cast hr
  have hr0 : (0 : ℚ) ≤ ((a % b : Nat) : ℚ) := Nat.cast_nonneg _
  have hquot : (a : ℚ) / (b : ℚ) = ((a / b : Nat) : ℚ) + ((a % b : Nat) : ℚ) / (b : ℚ) := by
    rw [div_eq_iff (ne_of_gt hbq), add_mul, div_mul_cancel₀ _ (ne_of_gt hbq)]
    linarith
  have hdown : 2 * (a % b) ≤ b →
      |((a / b : Nat) : ℚ) - (a : ℚ) / (b : ℚ)| ≤ 1 / 2 := by
    intro h
    have hq : (2 : ℚ) * ((a % b : Nat) : ℚ) ≤ (b : ℚ) := by exact_mod_cast h
    rw [hquot, abs_le]
    have h1 : ((a % b : Nat) : ℚ) / (b : ℚ) ≤ 1 / 2 := by
      rw [div_le_iff₀ hbq]; linarith
    have h0 : (0 : ℚ) ≤ ((a % b : Nat) : ℚ) / (b : ℚ) := div_nonneg hr0 (le_of_lt hbq)
    constructor <;> linarith
  have hup : b ≤ 2 * (a % b) →
      |((a / b + 1 : Nat) : ℚ) - (a : ℚ) / (b : ℚ)| ≤ 1 / 2 := by
    intro h
    have hq : (b : ℚ) ≤ (2 : ℚ) * ((a % b : Nat) : ℚ) := by exact_mod_cast h
    rw [hquot, abs_le]
    have h1 : 1 / 2 ≤ ((a % b : Nat) : ℚ) / (b : ℚ) := by
      rw [le_div_iff₀ hbq]; linarith
    have h2 : ((a % b : Nat) : ℚ) / (b : ℚ) < 1 := by
      rw [div_lt_one hbq]; exact hrq
    push_cast
    constructor <;> linarith
  unfold roundHalfEven
  simp only
  split
  · exact hdown (by omega)
  · split
    · exact hup (by omega)
    · split
      · exact hdown (by omega)
      · exact hup (by omega)

theorem zpow_two_split (e : Int) :
    (2 : ℚ) ^ e = (2 : ℚ) ^ e.toNat / (2 : ℚ) ^ (-e).toNat := by
  rcases le_total 0 e with h | h
  · have h1 : (-e).toNat = 0 := by omega
    rw [h1, pow_zero, div_one]
    conv_lhs => rw [← Int.toNat_of_nonneg h]
    exact zpow_natCast 2 e.toNat
  · have h1 : e.toNat = 0 := by omega
    have h2 : e = -(((-e).toNat : Nat) : Int) := by omega
    rw [h1, pow_zero]
    conv_lhs => rw [h2]
    rw [zpow_neg, zpow_natCast, one_div]

theorem exponent2_le (a b : Nat) (ha : 0 < a) (hb : 0 < b) :
    (2 : ℚ) ^ exponent2 a b ≤ (a : ℚ) / (b : ℚ) := by
  have hbq : (0 : ℚ) < (b : ℚ) := by exact_mod_cast hb
  unfold exponent2
  simp only
  split
  · rename_i htest
    rw [zpow_two_split, div_le_div_iff₀ (by positivity) hbq]
    have : ((b * 2 ^ ((log2Fuel a a : Int) - (log2Fuel b b : Int)).toNat : Nat) : ℚ)
        ≤ ((a * 2 ^ (-((log2Fuel a a : Int) - (log2Fuel b b : Int))).toNat : Nat) : ℚ) := by
      exact_mod_cast htest
    push_cast at this
    linarith
  · obtain ⟨ha1, _⟩ := log2Fuel_spec a a le_rfl ha
    obtain ⟨_, hb2⟩ := log2Fuel_spec b b le_rfl hb
    have ha1q : (2 : ℚ) ^ (log2Fuel a a) ≤ (a : ℚ) := by exact_mod_cast ha1
    have hb2q : (b : ℚ) ≤ (2 : ℚ) ^ (log2Fuel b b + 1) := by exact_mod_cast le_of_lt hb2
    have he : (2 : ℚ) ^ ((log2Fuel a a : Int) - (log2Fuel b b : Int) - 1)
        = (2 : ℚ) ^ (log2Fuel a a) / (2 : ℚ) ^ (log2Fuel b b + 1) := by
      have : (log2Fuel a a : Int) - (log2Fuel b b : Int) - 1
          = (log2Fuel a a : Int) - ((log2Fuel b b + 1 : Nat) : Int) := by push_cast; ring
      rw [this, zpow_sub₀ (by norm_num), zpow_natCast, zpow_natCast]
    rw [he, div_le_div_iff₀ (by positivity) hbq]
    calc (2 : ℚ) ^ (log2Fuel a a) * (b : ℚ)
        ≤ (a : ℚ) * (b : ℚ) := mul_le_mul_of_nonneg_right ha1q (le_of_lt hbq)
      _ ≤ (a : ℚ) * (2 : ℚ) ^ (log2Fuel b b + 1) :=
          mul_le_mul_of_nonneg_left hb2q (Nat.cast_nonneg a)

/-- The rounding error of one `float` operation on a positive value is at most
`2 ^ (-24)` of the value. -/
theorem f32_error (x : ℚ) (hx : 0 < x) : |f32 x - x| ≤ x / 2 ^ 24 := by
  have hnum : 0 < x.num := Rat.num_pos.mpr hx
  have ha : 0 < x.num.natAbs := Int.natAbs_pos.mpr (ne_of_gt hnum)
  have hb : 0 < x.den := x.den_pos
  have hbq : (0 : ℚ) < (x.den : ℚ) := by exact_mod_cast hb
  have hxab : x = (x.num.natAbs : ℚ) / (x.den : ℚ) := by
    have h1 : ((x.num.natAbs : Nat) : ℚ) = ((x.num : Int) : ℚ) := by
      have h0 : ((x.num.natAbs : Nat) : Int) = x.num := Int.natAbs_of_nonneg (le_of_lt hnum)
      calc ((x.num.natAbs : Nat) : ℚ) = (((x.num.natAbs : Nat) : Int) : ℚ) := (Int.cast_natCast _).symm
        _ = ((x.num : Int) : ℚ) := by rw [h0]
    rw [h1]
    exact (Rat.num_div_den x).symm
  have hexp := exponent2_le x.num.natAbs x.den ha hb
  rw [← hxab] at hexp
  have hne : ¬ x = 0 := ne_of_gt hx
  have hnlt : ¬ x < 0 := not_lt.mpr (le_of_lt hx)
  unfold f32
  simp only [hne, hnlt, if_false]
  generalize exponent2 x.num.natAbs x.den = e at hexp
  generalize hk : e - 23 = k
  have hround := roundHalfEven_error (x.num.natAbs * 2 ^ (-k).toNat) (x.den * 2 ^ k.toNat)
    (by positivity)
  generalize roundHalfEven (x.num.natAbs * 2 ^ (-k).toNat) (x.den * 2 ^ k.toNat) = m at hround
  have hscale : (0 : ℚ) < (2 : ℚ) ^ k := by positivity
  have hsplit := zpow_two_split k
  have hP : (0 : ℚ) < (2 : ℚ) ^ k.toNat := by positivity
  have hQ : (0 : ℚ) < (2 : ℚ) ^ (-k).toNat := by positivity
  have hy : ((x.num.natAbs * 2 ^ (-k).toNat : Nat) : ℚ) / ((x.den * 2 ^ k.toNat : Nat) : ℚ)
      = x / (2 : ℚ) ^ k := by
    rw [hsplit]
    conv_rhs => rw [hxab]
    push_cast
    field_simp
  have hv : ((m * 2 ^ k.toNat : Nat) : ℚ) / ((2 ^ (-k).toNat : Nat) : ℚ) = (m : ℚ) * (2 : ℚ) ^ k := by
    rw [hsplit]
    push_cast
    field_simp
  rw [hy] at hround
  rw [hv]
  have hdiff : (m : ℚ) * (2 : ℚ) ^ k - x = ((m : ℚ) - x / (2 : ℚ) ^ k) * (2 : ℚ) ^ k := by
    field_simp
  rw [hdiff, abs_mul, abs_of_pos hscale]
  have hk2 : (2 : ℚ) ^ k = (2 : ℚ) ^ e / 2 ^ 23 := by
    rw [← hk, zpow_sub₀ (by norm_num)]
    norm_num
  calc |(m : ℚ) - x / (2 : ℚ) ^ k| * (2 : ℚ) ^ k
      ≤ 1 / 2 * (2 : ℚ) ^ k := mul_le_mul_of_nonneg_right hround (le_of_lt hscale)
    _ = (2 : ℚ) ^ e / 2 ^ 24 := by rw [hk2]; ring
    _ ≤ x / 2 ^ 24 := div_le_div_of_nonneg_right hexp (by positivity)

theorem f32_zero : f32 0 = 0 := by
  unfold f32
  simp

/-- Rounding a non-negative value keeps it within the factor `1 +- 2 ^ (-24)`. -/
theorem f32_bounds (x : ℚ) (hx : 0 ≤ x) :
    x * (1 - 1 / 2 ^ 24) ≤ f32 x ∧ f32 x ≤ x * (1 + 1 / 2 ^ 24) := by
  rcases eq_or_lt_of_le hx with h | h
  · rw [← h, f32_zero]; simp
  · have := f32_error x h
    rw [abs_le] at this
    constructor <;> linarith [this.1, this.2]

theorem f32_nonneg (x : ℚ) (hx : 0 ≤ x) : 0 ≤ f32 x := by
  have h := (f32_bounds x hx).1
  have : (0 : ℚ) ≤ x * (1 - 1 / 2 ^ 24) := mul_nonneg hx (by norm_num)
  linarith

theorem roundHalfEven_exact (c d : Nat) (hd : 0 < d) : roundHalfEven (c * d) d = c := by
  unfold roundHalfEven
  simp only
  have h1 : c * d % d = 0 := Nat.mul_mod_left c d
  have h2 : c * d / d = c := Nat.mul_div_cancel c hd
  rw [h1, h2, if_pos (by omega)]

/-- A value with a significand below `2 ^ 24` is a `float`: rounding leaves it
unchanged. -/
theorem f32_representable (N q : Nat) (hN : N < 2 ^ 24) :
    f32 ((N : ℚ) / 2 ^ q) = (N : ℚ) / 2 ^ q := by
  rcases Nat.eq_zero_or_pos N with h0 | hpos
  · rw [h0]; simp [f32_zero]
  have hx : (0 : ℚ) < (N : ℚ) / 2 ^ q := by positivity
  generalize hxdef : (N : ℚ) / 2 ^ q = x at hx ⊢
  have hnum : 0 < x.num := Rat.num_pos.mpr hx
  have ha : 0 < x.num.natAbs := Int.natAbs_pos.mpr (ne_of_gt hnum)
  have hb : 0 < x.den := x.den_pos
  have hbq : (0 : ℚ) < (x.den : ℚ) := by exact_mod_cast hb
  have hxab : x = (x.num.natAbs : ℚ) / (x.den : ℚ) := by
    have h1 : ((x.num.natAbs : Nat) : ℚ) = ((x.num : Int) : ℚ) := by
      have h0 : ((x.num.natAbs : Nat) : Int) = x.num := Int.natAbs_of_nonneg (le_of_lt hnum)
      calc ((x.num.natAbs : Nat) : ℚ) = (((x.num.natAbs : Nat) : Int) : ℚ) := (Int.cast_natCast _).symm
        _ = ((x.num : Int) : ℚ) := by rw [h0]
    rw [h1]
    exact (Rat.num_div_den x).symm
  -- the denominator is a power of two
  have hden : x.den ∣ 2 ^ q := by
    have h1 : x = Rat.divInt (N : Int) ((2 ^ q : Nat) : Int) := by
      rw [← hxdef, Rat.divInt_eq_div]
      push_cast
      rfl
    have h2 : ((x.den : Nat) : Int) ∣ ((2 ^ q : Nat) : Int) := by
      rw [h1]
      exact Rat.den_dvd _ _
    exact_mod_cast h2
  obtain ⟨q', _, hq'⟩ := (Nat.dvd_prime_pow Nat.prime_two).mp hden
  -- the numerator is below `2 ^ 24`
  have hale : x.num.natAbs < 2 ^ 24 := by
    have h1 : (x.num.natAbs : ℚ) = x * (x.den : ℚ) := by
      rw [Rat.mul_den_eq_num]
      have h0 : ((x.num.natAbs : Nat) : Int) = x.num := Int.natAbs_of_nonneg (le_of_lt hnum)
      calc ((x.num.natAbs : Nat) : ℚ) = (((x.num.natAbs : Nat) : Int) : ℚ) :=
            (Int.cast_natCast _).symm
        _ = ((x.num : Int) : ℚ) := by rw [h0]
    have h2 : (x.den : ℚ) ≤ 2 ^ q := by
      exact_mod_cast Nat.le_of_dvd (by positivity) hden
    have h3 : x * (x.den : ℚ) ≤ x * 2 ^ q := mul_le_mul_of_nonneg_left h2 (le_of_lt hx)
    have h4 : x * 2 ^ q = (N : ℚ) := by
      rw [← hxdef]
      field_simp
    have h5 : (x.num.natAbs : ℚ) < 2 ^ 24 := by
      have : (N : ℚ) < 2 ^ 24 := by exact_mod_cast hN
      linarith
    exact_mod_cast h5
  have hexp := exponent2_le x.num.natAbs x.den ha hb
  have hne : ¬ x = 0 := ne_of_gt hx
  have hnlt : ¬ x < 0 := not_lt.mpr (le_of_lt hx)
  unfold f32
  simp only [hne, hnlt, if_false]
  generalize exponent2 x.num.natAbs x.den = e at hexp
  generalize x.num.natAbs = a at ha hale hexp hxab
  -- `e + q' <= 23`
  have hbound : e + (q' : Int) < 24 := by
    have h1 : (2 : ℚ) ^ e * (2 : ℚ) ^ (q' : Int) ≤ (a : ℚ) := by
      rw [hq'] at hexp
      have hpow : (0 : ℚ) < ((2 ^ q' : Nat) : ℚ) := by positivity
      have := (le_div_iff₀ hpow).mp hexp
      push_cast at this
      rw [zpow_natCast]
      exact this
    rw [← zpow_add₀ (by norm_num : (2 : ℚ) ≠ 0)] at h1
    have h2 : (a : ℚ) < (2 : ℚ) ^ (24 : Int) := by
      rw [show (24 : Int) = ((24 : Nat) : Int) from rfl, zpow_natCast]
      exact_mod_cast hale
    have h3 : (2 : ℚ) ^ (e + (q' : Int)) < (2 : ℚ) ^ (24 : Int) := lt_of_le_of_lt h1 h2
    exact (zpow_lt_zpow_iff_right₀ (by norm_num : (1 : ℚ) < 2)).mp h3
  have hk0 : (e - 23).toNat = 0 := by omega
  obtain ⟨t, ht⟩ : ∃ t : Nat, (-(e - 23)).toNat = q' + t := ⟨(-(e - 23)).toNat - q', by omega⟩
  rw [hk0, ht, hq']
  have hsplit : a * 2 ^ (q' + t) = (a * 2 ^ t) * (2 ^ q' * 2 ^ 0) := by
    rw [pow_add]; ring
  rw [hsplit, roundHalfEven_exact _ _ (by positivity)]
  rw [hxab, hq']
  push_cast
  field_simp
  ring

theorem f32_intCast (k : Int) (h0 : 0 ≤ k) (h : k < 2 ^ 24) : f32 (k : ℚ) = (k : ℚ) := by
  obtain ⟨N, rfl⟩ := Int.eq_ofNat_of_zero_le h0
  have hN : N < 2 ^ 24 := by exact_mod_cast h
  have := f32_representable N 0 hN
  simpa using this

/-- The two `float` expressions of the loop body of `process`, for a sample
rate that is a `float` below `2 ^ 24` (a significand `M < 2 ^ 24` over a power
of two) and a count `0 < samplesToRead < 2 ^ 24`: the rounded quotient
`getDefaultSampleRate () / samplesToRead` truncates to the same integer as the
exact quotient, and the difference
`getDefaultSampleRate () - iterationsPerSecond * samplesToRead` is not rounded
at all. -/
theorem loop_body_float_exact (M q : Nat) (r : Int) (hM : M < 2 ^ 24) (hr : 0 < r)
    (hr24 : r < 2 ^ 24) :
    floatToInt (f32 ((M : ℚ) / 2 ^ q / f32 (r : ℚ))) = floatToInt ((M : ℚ) / 2 ^ q / (r : ℚ)) ∧
    f32 ((M : ℚ) / 2 ^ q - f32 ((floatToInt ((M : ℚ) / 2 ^ q / (r : ℚ)) * r : Int) : ℚ))
      = (M : ℚ) / 2 ^ q - ((floatToInt ((M : ℚ) / 2 ^ q / (r : ℚ)) * r : Int) : ℚ) := by
  have hrq : (0 : ℚ) < (r : ℚ) := by exact_mod_cast hr
  have hMq : (M : ℚ) < 2 ^ 24 := by exact_mod_cast hM
  have hM0 : (0 : ℚ) ≤ (M : ℚ) := Nat.cast_nonneg M
  have hpow : (0 : ℚ) < (2 : ℚ) ^ q := by positivity
  have hpow1 : (1 : ℚ) ≤ (2 : ℚ) ^ q := one_le_pow₀ (by norm_num)
  have hrate0 : (0 : ℚ) ≤ (M : ℚ) / 2 ^ q := by positivity
  have hrateM : (M : ℚ) / 2 ^ q ≤ (M : ℚ) := div_le_self hM0 hpow1
  have hx0 : (0 : ℚ) ≤ (M : ℚ) / 2 ^ q / (r : ℚ) := by positivity
  have hr1 : (1 : ℚ) ≤ (r : ℚ) := by exact_mod_cast hr
  have hxM : (M : ℚ) / 2 ^ q / (r : ℚ) ≤ (M : ℚ) :=
    le_trans (div_le_self hrate0 hr1) hrateM
  have hfloor := floatToInt_eq_floor hx0
  generalize hx : (M : ℚ) / 2 ^ q / (r : ℚ) = x at hx0 hxM hfloor ⊢
  have hxeq : x * ((2 : ℚ) ^ q * (r : ℚ)) = (M : ℚ) := by
    rw [← hx]; field_simp
  have hD : (0 : ℚ) < (2 : ℚ) ^ q * (r : ℚ) := by positivity
  -- the rounding error is below the distance of `x` to any other integer
  have herr : x / 2 ^ 24 < 1 / ((2 : ℚ) ^ q * (r : ℚ)) := by
    rw [div_lt_div_iff₀ (by norm_num) hD]
    linarith
  have hgap : ∀ j : Int, (j : ℚ) < x → 1 / ((2 : ℚ) ^ q * (r : ℚ)) ≤ x - (j : ℚ) := by
    intro j hj
    have h1 : (j : ℚ) * ((2 : ℚ) ^ q * (r : ℚ)) < (M : ℚ) := by
      rw [← hxeq]; exact mul_lt_mul_of_pos_right hj hD
    have h2 : j * (2 ^ q * r) < (M : Int) := by exact_mod_cast h1
    have h3 : j * (2 ^ q * r) + 1 ≤ (M : Int) := by omega
    have h4 : (j : ℚ) * ((2 : ℚ) ^ q * (r : ℚ)) + 1 ≤ (M : ℚ) := by exact_mod_cast h3
    rw [div_le_iff₀ hD, sub_mul, hxeq]
    linarith
  have hgap' : ∀ j : Int, x < (j : ℚ) → 1 / ((2 : ℚ) ^ q * (r : ℚ)) ≤ (j : ℚ) - x := by
    intro j hj
    have h1 : (M : ℚ) < (j : ℚ) * ((2 : ℚ) ^ q * (r : ℚ)) := by
      rw [← hxeq]; exact mul_lt_mul_of_pos_right hj hD
    have h2 : (M : Int) < j * (2 ^ q * r) := by exact_mod_cast h1
    have h3 : (M : Int) + 1 ≤ j * (2 ^ q * r) := by omega
    have h4 : (M : ℚ) + 1 ≤ (j : ℚ) * ((2 : ℚ) ^ q * (r : ℚ)) := by exact_mod_cast h3
    rw [div_le_iff₀ hD, sub_mul, hxeq]
    linarith
  have hk0 : 0 ≤ ⌊x⌋ := Int.floor_nonneg.mpr hx0
  have hkx : ((⌊x⌋ : Int) : ℚ) ≤ x := Int.floor_le x
  have hk24 : ⌊x⌋ < 2 ^ 24 := by
    have : ((⌊x⌋ : Int) : ℚ) < 2 ^ 24 := by linarith
    exact_mod_cast this
  obtain ⟨b1, b2⟩ := f32_bounds x hx0
  rw [f32_intCast r (le_of_lt hr) hr24, hx, hfloor]
  constructor
  · rw [floatToInt_eq_floor (f32_nonneg x hx0), Int.floor_eq_iff]
    constructor
    · rcases eq_or_lt_of_le hkx with heq | hlt
      · have hfx := f32_intCast _ hk0 hk24
        rw [heq] at hfx
        rw [hfx]
        exact hkx
      · have := hgap ⌊x⌋ hlt
        linarith
    · have hlt : x < ((⌊x⌋ + 1 : Int) : ℚ) := by
        push_cast; exact Int.lt_floor_add_one x
      have := hgap' (⌊x⌋ + 1) hlt
      push_cast at this
      linarith
  · -- the product and the difference are representable
    have hP0 : 0 ≤ ⌊x⌋ * r := mul_nonneg hk0 (le_of_lt hr)
    have hPle : ((⌊x⌋ * r : Int) : ℚ) ≤ (M : ℚ) / 2 ^ q := by
      push_cast
      have : ((⌊x⌋ : Int) : ℚ) * (r : ℚ) ≤ x * (r : ℚ) :=
        mul_le_mul_of_nonneg_right hkx (le_of_lt hrq)
      have hxr : x * (r : ℚ) = (M : ℚ) / 2 ^ q := by
        rw [← hx]; field_simp; ring
      linarith
    have hP24 : ⌊x⌋ * r < 2 ^ 24 := by
      have : ((⌊x⌋ * r : Int) : ℚ) < 2 ^ 24 := by linarith
      exact_mod_cast this
    rw [f32_intCast _ hP0 hP24]
    have hN0 : 0 ≤ (M : Int) - ⌊x⌋ * r * 2 ^ q := by
      have h1 : ((⌊x⌋ * r : Int) : ℚ) * (2 : ℚ) ^ q ≤ (M : ℚ) := by
        rw [le_div_iff₀ hpow] at hPle
        exact hPle
      have h2 : ⌊x⌋ * r * 2 ^ q ≤ (M : Int) := by exact_mod_cast h1
      omega
    obtain ⟨N, hN⟩ := Int.eq_ofNat_of_zero_le hN0
    have hNM : N ≤ M := by
      have : (N : Int) ≤ (M : Int) := by
        rw [← hN]
        have : 0 ≤ ⌊x⌋ * r * 2 ^ q := mul_nonneg hP0 (by positivity)
        omega
      exact_mod_cast this
    have hrep := f32_representable N q (lt_of_le_of_lt hNM hM)
    have hval : (N : ℚ) / 2 ^ q = (M : ℚ) / 2 ^ q - ((⌊x⌋ * r : Int) : ℚ) := by
      have : ((N : Int) : ℚ) = (((M : Int) - ⌊x⌋ * r * 2 ^ q : Int) : ℚ) := by rw [hN]
      push_cast at this
      rw [show ((N : ℚ)) = (M : ℚ) - (⌊x⌋ : ℚ) * (r : ℚ) * 2 ^ q from this]
      push_cast
      field_simp
      ring
    rw [← hval]
    exact hrep

namespace FileReader

theorem processLoop_returns_of_not_lt (N : Int) (n : Nat) (s : FileReader) (k : Int)
    (out : List Effect) (h : ¬ k < N) :
    processLoop N n s k out = Outcome.returns (s, out) := by
  cases n <;> simp [processLoop, h]

theorem processLoop_succ_of_body (N : Int) (n : Nat) (s s1 : FileReader) (k k1 : Int)
    (out c1 : List Effect) (h : k < N) (hb : processBody s N k = .ok (s1, k1, c1)) :
    processLoop N (n + 1) s k out = processLoop N n s1 k1 (out ++ c1) := by
  simp [processLoop, h, hb]

/-- A returning run of the budgeted loop is a big-step run. -/
theorem LoopRun_of_processLoop (N : Int) :
    ∀ (n : Nat) (s : FileReader) (k : Int) (out : List Effect) (s' : FileReader)
      (out' : List Effect), processLoop N n s k out = Outcome.returns (s', out') →
      ∃ calls, out' = out ++ calls ∧ LoopRun N s k s' calls := by
  intro n
  induction n with
  | zero =>
    intro s k out s' out' h
    by_cases hk : k < N
    · simp [processLoop, hk] at h
    · simp [processLoop, hk] at h
      obtain ⟨rfl, rfl⟩ := h
      exact ⟨[], by simp, LoopRun.done s k hk⟩
  | succ n ih =>
    intro s k out s' out' h
    by_cases hk : k < N
    · cases hb : processBody s N k with
      | error f => simp [processLoop, hk, hb] at h
      | ok r =>
        obtain ⟨s1, k1, c1⟩ := r
        rw [processLoop_succ_of_body N n s s1 k k1 out c1 hk hb] at h
        obtain ⟨calls, hc, hrun⟩ := ih s1 k1 (out ++ c1) s' out' h
        exact ⟨c1 ++ calls, by simp [hc], LoopRun.step s s1 s' k k1 c1 calls hk hb hrun⟩
    · rw [processLoop_returns_of_not_lt N (n + 1) s k out hk] at h
      simp at h
      obtain ⟨rfl, rfl⟩ := h
      exact ⟨[], by simp, LoopRun.done s k hk⟩

/-- The body on a non-null input, with a non-zero modulus, when the remaining
count fits before the stop bound: one read of the whole remainder. -/
theorem processBody_advance (s : FileReader) (src : FileSource) (N k : Int)
    (hin : s.input = some src)
    (hips : floatToInt (s.currentSampleRate / ((N - k : Int) : ℚ)) ≠ 0)
    (hfit : s.currentSample + (N - k) ≤ s.stopSample) :
    processBody s N k = .ok
      ({ s with count := s.count + 1, currentSample := s.currentSample + (N - k) }, N,
        [Effect.readData k (N - k)] ++ markerOf s (N - k)) := by
  have hnot : ¬ s.stopSample < s.currentSample + (N - k) := not_lt.mpr hfit
  have hips' : ¬ floatToInt (s.currentSampleRate / ((N : ℚ) - (k : ℚ))) = 0 := by
    simpa using hips
  simp only [processBody, markerOf, getDefaultSampleRate, hin]
  simp [hips', hnot]

/-- The body on a non-null input, with a non-zero modulus, when the remaining
count crosses the stop bound: the read up to the bound (when positive), the
seek back, and the cursor on `startSample`. -/
theorem processBody_wrap (s : FileReader) (src : FileSource) (N k : Int)
    (hin : s.input = some src)
    (hips : floatToInt (s.currentSampleRate / ((N - k : Int) : ℚ)) ≠ 0)
    (hcross : s.currentSample + (N - k) > s.stopSample) :
    processBody s N k = .ok
      ({ s with count := s.count + 1, currentSample := s.startSample },
        k + (s.stopSample - s.currentSample),
        (if s.stopSample - s.currentSample > 0
          then [Effect.readData k (s.stopSample - s.currentSample)] else [])
          ++ [Effect.seekTo s.startSample] ++ markerOf s (N - k)) := by
  have hips' : ¬ floatToInt (s.currentSampleRate / ((N : ℚ) - (k : ℚ))) = 0 := by
    simpa using hips
  simp only [processBody, markerOf, getDefaultSampleRate, hin]
  simp [hips', hcross]

end FileReader

theorem readsOf_append (xs ys : List Effect) : readsOf (xs ++ ys) = readsOf xs ++ readsOf ys := by
  induction xs with
  | nil => rfl
  | cons x xs ih => cases x <;> simp [readsOf, ih]

theorem Fills_append (a b c : Int) (xs ys : List (Int × Int)) (h1 : Fills a xs b)
    (h2 : Fills b ys c) : Fills a (xs ++ ys) c := by
  induction xs generalizing a with
  | nil => simp only [Fills] at h1; subst h1; simpa using h2
  | cons x xs ih =>
    obtain ⟨o, n⟩ := x
    simp only [Fills, List.cons_append] at h1 ⊢
    exact ⟨h1.1, h1.2.1, ih _ h1.2.2⟩

theorem Fills_sum (a b : Int) (xs : List (Int × Int)) (h : Fills a xs b) :
    (xs.map Prod.snd).sum = b - a := by
  induction xs generalizing a with
  | nil => simp only [Fills] at h; simp [h]
  | cons x xs ih =>
    obtain ⟨o, n⟩ := x
    simp only [Fills] at h
    simp only [List.map_cons, List.sum_cons, ih _ h.2.2]
    ring

theorem Fills_offset (a b : Int) (xs : List (Int × Int)) (h : Fills a xs b) (i : Nat)
    (hi : i < xs.length) :
    (xs.get ⟨i, hi⟩).1 = a + ((xs.take i).map Prod.snd).sum := by
  induction xs generalizing a i with
  | nil => simp at hi
  | cons x xs ih =>
    obtain ⟨o, n⟩ := x
    simp only [Fills] at h
    cases i with
    | zero => simp [h.1]
    | succ i =>
      have := ih _ h.2.2 i (by simpa using hi)
      simp only [List.get_eq_getElem, List.getElem_cons_succ, List.take_succ_cons, List.map_cons,
        List.sum_cons] at this ⊢
      rw [this]; ring

theorem Fills_pos (a b : Int) (xs : List (Int × Int)) (h : Fills a xs b) :
    ∀ p ∈ xs, 0 < p.2 := by
  induction xs generalizing a with
  | nil => simp
  | cons x xs ih =>
    obtain ⟨o, n⟩ := x
    simp only [Fills] at h
    intro p hp
    rcases List.mem_cons.mp hp with rfl | hp
    · exact h.2.1
    · exact ih _ h.2.2 p hp

namespace FileReader

theorem readsOf_markerOf (s : FileReader) (r : Int) : readsOf (markerOf s r) = [] := by
  unfold markerOf
  simp only
  split <;> rfl

/-- What a successful iteration of the loop did: it ran on a non-null input
with a non-zero modulus, and either advanced by the whole remainder or read up
to the stop bound and went back to `startSample`. -/
theorem processBody_ok_inv (s s1 : FileReader) (N k k1 : Int) (c1 : List Effect)
    (hb : processBody s N k = .ok (s1, k1, c1)) :
    (∃ src, s.input = some src) ∧
    floatToInt (s.currentSampleRate / ((N - k : Int) : ℚ)) ≠ 0 ∧
    ((s.currentSample + (N - k) ≤ s.stopSample ∧
        s1 = { s with count := s.count + 1, currentSample := s.currentSample + (N - k) } ∧
        k1 = N ∧ c1 = [Effect.readData k (N - k)] ++ markerOf s (N - k)) ∨
      (s.currentSample + (N - k) > s.stopSample ∧
        s1 = { s with count := s.count + 1, currentSample := s.startSample } ∧
        k1 = k + (s.stopSample - s.currentSample) ∧
        c1 = (if s.stopSample - s.currentSample > 0
          then [Effect.readData k (s.stopSample - s.currentSample)] else [])
          ++ [Effect.seekTo s.startSample] ++ markerOf s (N - k))) := by
  rcases Option.eq_none_or_eq_some s.input with hin | ⟨src, hin⟩
  · simp [processBody, hin] at hb
  · have hips : floatToInt (s.currentSampleRate / ((N - k : Int) : ℚ)) ≠ 0 := by
      intro h0
      have h0' : floatToInt (s.currentSampleRate / ((N : ℚ) - (k : ℚ))) = 0 := by simpa using h0
      simp [processBody, hin, getDefaultSampleRate, h0'] at hb
    refine ⟨⟨src, hin⟩, hips, ?_⟩
    by_cases hfit : s.currentSample + (N - k) ≤ s.stopSample
    · left
      rw [processBody_advance s src N k hin hips hfit] at hb
      simp only [Except.ok.injEq, Prod.mk.injEq] at hb
      exact ⟨hfit, hb.1.symm, hb.2.1.symm, hb.2.2.symm⟩
    · right
      have hcross : s.currentSample + (N - k) > s.stopSample := not_le.mp hfit
      rw [processBody_wrap s src N k hin hips hcross] at hb
      simp only [Except.ok.injEq, Prod.mk.injEq] at hb
      exact ⟨hcross, hb.1.symm, hb.2.1.symm, hb.2.2.symm⟩

theorem LoopRun_of_not_lt (N : Int) (s : FileReader) (k : Int) (s' : FileReader)
    (calls : List Effect) (hrun : LoopRun N s k s' calls) (h : ¬ k < N) :
    s' = s ∧ calls = [] := by
  cases hrun with
  | done _ _ _ => exact ⟨rfl, rfl⟩
  | step _ s1 _ _ k1 c1 c' h' _ _ => exact absurd h' h

/-- Properties of every returning run of the loop that starts with the cursor
between the bounds: only `count` and `currentSample` change, the cursor stays
between the bounds (strictly above `startSample` once something was read), its
position is congruent modulo the loop length, and the reads fill the read-ahead
region back to back from `samplesRead` up to `samplesNeeded`. -/
theorem LoopRun_spec (N : Int) (s : FileReader) (k : Int) (s' : FileReader) (calls : List Effect)
    (hrun : LoopRun N s k s' calls) (hlo : s.startSample ≤ s.currentSample)
    (hhi : s.currentSample ≤ s.stopSample) (hk : k ≤ N) :
    s' = { s with count := s'.count, currentSample := s'.currentSample } ∧
    s.startSample ≤ s'.currentSample ∧ s'.currentSample ≤ s.stopSample ∧
    (k < N → s.startSample < s'.currentSample) ∧
    (s'.currentSample - s.startSample) ≡ (s.currentSample - s.startSample) + (N - k)
      [ZMOD (s.stopSample - s.startSample)] ∧
    Fills k (readsOf calls) N := by
  induction hrun with
  | done s k h =>
    have hkN : k = _ := le_antisymm hk (not_lt.mp h)
    refine ⟨rfl, hlo, hhi, fun h' => absurd h' h, ?_, ?_⟩
    · subst hkN; simp [Int.ModEq]
    · simpa [readsOf, Fills] using hkN
  | step s s1 s' k k1 c1 c' h hb hr ih =>
    obtain ⟨_, _, hcase⟩ := processBody_ok_inv s s1 _ k k1 c1 hb
    rcases hcase with ⟨hfit, hs1, hk1, hc1⟩ | ⟨hcross, hs1, hk1, hc1⟩
    · subst hk1
      obtain ⟨hs', hc'⟩ := LoopRun_of_not_lt _ s1 _ s' c' hr (lt_irrefl _)
      subst hs' hc' hs1 hc1
      refine ⟨rfl, ?_, hfit, ?_, ?_, ?_⟩
      · simp only; omega
      · intro _; simp only; omega
      · simp only [Int.ModEq]
        congr 1
        ring
      · simp [readsOf_append, readsOf, readsOf_markerOf, Fills]
        omega
    · have hk1N : k1 ≤ N := by omega
      have hs1s : s1.startSample = s.startSample := by rw [hs1]
      have hs1e : s1.stopSample = s.stopSample := by rw [hs1]
      have hs1c : s1.currentSample = s.startSample := by rw [hs1]
      obtain ⟨hf, h1, h2, h3, h4, h5⟩ :=
        ih (by rw [hs1s, hs1c]) (by rw [hs1c, hs1e]; omega) hk1N
      rw [hs1s] at h1 h3 h4
      rw [hs1e] at h2 h4
      rw [hs1c] at h4
      refine ⟨?_, h1, h2, fun _ => h3 (by omega), ?_, ?_⟩
      · rw [hf, hs1]
      · rw [Int.modEq_iff_dvd] at h4 ⊢
        have hrew : s.currentSample - s.startSample + (N - k) - (s'.currentSample - s.startSample)
            = (s.startSample - s.startSample + (N - k1) - (s'.currentSample - s.startSample))
              + (s.stopSample - s.startSample) := by
          rw [hk1]; ring
        rw [hrew]
        exact dvd_add h4 (dvd_refl _)
      · have hreads : readsOf c1 = if s.stopSample - s.currentSample > 0
            then [(k, s.stopSample - s.currentSample)] else [] := by
          subst hc1
          split <;> simp [readsOf_append, readsOf, readsOf_markerOf]
        rw [readsOf_append, hreads]
        by_cases hpos : s.stopSample - s.currentSample > 0
        · rw [if_pos hpos]
          simp only [List.cons_append, List.nil_append, Fills, true_and]
          rw [← hk1]
          exact ⟨hpos, h5⟩
        · have hz : k1 = k := by omega
          rw [if_neg hpos, List.nil_append, ← hz]
          exact h5

end FileReader

namespace FileReader

/-- The modulus of an iteration is at least one when the remaining count is
positive and does not exceed the sample rate. -/
theorem iterationsPerSecond_pos (rate : ℚ) (r : Int) (hr : 0 < r) (hle : (r : ℚ) ≤ rate) :
    1 ≤ floatToInt (rate / (r : ℚ)) := by
  apply floatToInt_pos_of_one_le
  have hr' : (0 : ℚ) < (r : ℚ) := by exact_mod_cast hr
  rw [le_div_iff₀ hr']
  simpa using hle

/-- Termination of the loop: with the cursor between the bounds, a non-empty
loop range, and `samplesNeeded` at most the sample rate, a budget of
`2 * remaining + 1` iterations is enough for the loop to return. -/
theorem processLoop_returns (N : Int) :
    ∀ (n : Nat) (s : FileReader) (k : Int) (out : List Effect),
      (∃ src, s.input = some src) → (N : ℚ) ≤ s.currentSampleRate →
      s.startSample < s.stopSample → s.startSample ≤ s.currentSample →
      s.currentSample ≤ s.stopSample → 0 ≤ k →
      (k < N → 2 * (N - k) + (if s.currentSample = s.stopSample then 1 else 0) ≤ (n : Int)) →
      ∃ s' out', processLoop N n s k out = Outcome.returns (s', out') := by
  intro n
  induction n with
  | zero =>
    intro s k out _ _ _ _ _ _ hm
    have hk : ¬ k < N := by
      intro hk
      have := hm hk
      split at this <;> omega
    exact ⟨s, out, processLoop_returns_of_not_lt N 0 s k out hk⟩
  | succ n ih =>
    intro s k out hin hrate hL hlo hhi hk0 hm
    by_cases hk : k < N
    · obtain ⟨src, hsrc⟩ := hin
      have hm' := hm hk
      have hips : floatToInt (s.currentSampleRate / ((N - k : Int) : ℚ)) ≠ 0 := by
        have hle : ((N - k : Int) : ℚ) ≤ s.currentSampleRate := by
          have : ((N - k : Int) : ℚ) ≤ (N : ℚ) := by exact_mod_cast (by omega : N - k ≤ N)
          linarith
        have := iterationsPerSecond_pos s.currentSampleRate (N - k) (by omega) hle
        omega
      by_cases hfit : s.currentSample + (N - k) ≤ s.stopSample
      · rw [processLoop_succ_of_body N n s _ k _ out _ hk
          (processBody_advance s src N k hsrc hips hfit)]
        exact ⟨_, _, processLoop_returns_of_not_lt N n _ N _ (lt_irrefl _)⟩
      · have hcross : s.currentSample + (N - k) > s.stopSample := not_le.mp hfit
        rw [processLoop_succ_of_body N n s _ k _ out _ hk
          (processBody_wrap s src N k hsrc hips hcross)]
        apply ih
        · exact ⟨src, hsrc⟩
        · exact hrate
        · exact hL
        · exact le_rfl
        · exact le_of_lt hL
        · omega
        · intro _
          have hne : ¬ s.startSample = s.stopSample := ne_of_lt hL
          simp only [hne, if_false]
          split at hm' <;> push_cast at hm' ⊢ <;> omega
    · exact ⟨s, out, processLoop_returns_of_not_lt N (n + 1) s k out hk⟩

end FileReader

namespace FileReader

theorem samplesNeeded_nonneg (s : FileReader) (b : Int) (hb : 0 ≤ b)
    (hrate : 0 ≤ getDefaultSampleRate s) : 0 ≤ samplesNeeded s b := by
  unfold samplesNeeded
  apply floatToInt_nonneg
  have hbq : (0 : ℚ) ≤ (b : ℚ) := by exact_mod_cast hb
  exact f32_nonneg _ (mul_nonneg (f32_nonneg _ hbq) (f32_nonneg _ (by positivity)))

theorem inLoop_markerOf (s : FileReader) (r : Int) : ∀ e ∈ markerOf s r, e.inLoop = true := by
  unfold markerOf
  simp only
  split
  · intro e he
    rw [List.mem_singleton.mp he]
    rfl
  · intro e he
    simp at he

/-- Every call made inside the loop is a read, a seek or a marker. -/
theorem LoopRun_inLoop (N : Int) (s : FileReader) (k : Int) (s' : FileReader)
    (calls : List Effect) (hrun : LoopRun N s k s' calls) : ∀ e ∈ calls, e.inLoop = true := by
  induction hrun with
  | done s k h => intro e he; simp at he
  | step s s1 s' k k1 c1 c' h hb hr ih =>
    obtain ⟨_, _, hcase⟩ := processBody_ok_inv s s1 _ k k1 c1 hb
    intro e he
    rcases List.mem_append.mp he with h1 | h2
    · rcases hcase with ⟨_, _, _, hc1⟩ | ⟨_, _, _, hc1⟩
      · subst hc1
        rcases List.mem_append.mp h1 with h | h
        · rw [List.mem_singleton.mp h]; rfl
        · exact inLoop_markerOf _ _ e h
      · subst hc1
        rcases List.mem_append.mp h1 with h | h
        · rcases List.mem_append.mp h with h | h
          · split at h
            · rw [List.mem_singleton.mp h]; rfl
            · simp at h
          · rw [List.mem_singleton.mp h]; rfl
        · exact inLoop_markerOf _ _ e h
    · exact ih e h2

/-- The method `process`, once its loop has returned on a non-null input. -/
theorem process_of_processLoop (budget : Nat) (s s' : FileReader) (b : Int)
    (calls : List Effect) (src : FileSource) (hin : s'.input = some src)
    (h : processLoop (samplesNeeded s b) budget s 0 [] = Outcome.returns (s', calls)) :
    process budget s b = Outcome.returns
      ({ s' with timestamp := s'.timestamp + samplesNeeded s b },
        calls ++ convertChannels s' (samplesNeeded s b)
          ++ [Effect.setTimestampAndSamples (s'.timestamp + samplesNeeded s b)
                (samplesNeeded s b)]) := by
  simp [process, h, hin]

/-- One pull on a playable state whose `samplesNeeded` does not exceed the
sample rate: the call returns under a budget of `2 * samplesNeeded + 1`
iterations; only `count`, `currentSample` and `timestamp` change; the cursor
stays between the bounds and moves by `samplesNeeded` modulo the loop length;
the reads fill offsets `0 .. samplesNeeded` back to back; then every channel
is converted with count `samplesNeeded` and the time base is published. -/
theorem process_spec (budget : Nat) (s : FileReader) (b : Int) (src : FileSource)
    (hin : s.input = some src) (hL : s.startSample < s.stopSample)
    (hlo : s.startSample ≤ s.currentSample) (hhi : s.currentSample ≤ s.stopSample)
    (hN : 0 ≤ samplesNeeded s b) (hsafe : (samplesNeeded s b : ℚ) ≤ s.currentSampleRate)
    (hbudget : 2 * samplesNeeded s b + 1 ≤ (budget : Int)) :
    ∃ s' calls,
      process budget s b = Outcome.returns
        (s', calls ++ convertChannels s (samplesNeeded s b)
          ++ [Effect.setTimestampAndSamples (s.timestamp + samplesNeeded s b)
                (samplesNeeded s b)]) ∧
      s' = { s with count := s'.count, currentSample := s'.currentSample,
                    timestamp := s.timestamp + samplesNeeded s b } ∧
      s.startSample ≤ s'.currentSample ∧ s'.currentSample ≤ s.stopSample ∧
      (0 < samplesNeeded s b → s.startSample < s'.currentSample) ∧
      (s'.currentSample - s.startSample) ≡ (s.currentSample - s.startSample) + samplesNeeded s b
        [ZMOD (s.stopSample - s.startSample)] ∧
      Fills 0 (readsOf calls) (samplesNeeded s b) ∧
      (samplesNeeded s b = 0 → s'.currentSample = s.currentSample) ∧
      (∀ e ∈ calls, e.inLoop = true) := by
  obtain ⟨t, out, hloop⟩ := processLoop_returns (samplesNeeded s b) budget s 0 [] ⟨src, hin⟩
    hsafe hL hlo hhi le_rfl (by intro _; split <;> omega)
  obtain ⟨calls, hout, hrun⟩ := LoopRun_of_processLoop _ _ _ _ _ _ _ hloop
  simp only [List.nil_append] at hout
  rw [hout] at hloop
  obtain ⟨hf, h1, h2, h3, h4, h5⟩ := LoopRun_spec _ _ _ _ _ hrun hlo hhi hN
  have hin' : t.input = some src := by rw [hf]; exact hin
  have hch : convertChannels t (samplesNeeded s b) = convertChannels s (samplesNeeded s b) := by
    unfold convertChannels; rw [hf]
  have hts : t.timestamp = s.timestamp := by rw [hf]
  refine ⟨{ t with timestamp := t.timestamp + samplesNeeded s b }, calls, ?_, ?_, h1, h2, h3,
    ?_, h5, ?_, LoopRun_inLoop _ _ _ _ _ hrun⟩
  · rw [process_of_processLoop budget s t b calls src hin' hloop, hch, hts]
  · simp only [hts]
    conv_lhs => rw [hf]
  · simpa using h4
  · intro h0
    have hnot : ¬ (0 : Int) < samplesNeeded s b := by omega
    rw [(LoopRun_of_not_lt _ _ _ _ _ hrun hnot).1]

end FileReader

/-- An offset in `1 .. L` that is congruent to `c` modulo `L` is `(c - L) mod L`
when `L` does not divide `c`, and `L` when it does. -/
theorem offset_of_congr (L d c : Int) (hd0 : 0 < d) (hdL : d ≤ L)
    (hmod : d ≡ c [ZMOD L]) :
    (c % L ≠ 0 → d = (c - L) % L) ∧ (c % L = 0 → d = L) := by
  have hmod' : d % L = c % L := hmod
  have hsub : (c - L) % L = c % L := by
    rw [Int.sub_emod, Int.emod_self, sub_zero, Int.emod_emod_of_dvd _ (dvd_refl L)]
  constructor
  · intro hc
    have hne : d ≠ L := by
      intro h
      rw [h, Int.emod_self] at hmod'
      exact hc hmod'.symm
    have hlt : d < L := lt_of_le_of_ne hdL hne
    rw [Int.emod_eq_of_lt (le_of_lt hd0) hlt] at hmod'
    rw [hsub, ← hmod']
  · intro hc
    rw [hc] at hmod'
    by_contra hne
    have hlt : d < L := lt_of_le_of_ne hdL hne
    rw [Int.emod_eq_of_lt (le_of_lt hd0) hlt] at hmod'
    omega

namespace FileReader

theorem samplesNeeded_congr (s s' : FileReader) (b : Int) (h1 : s'.input = s.input)
    (h2 : s'.currentSampleRate = s.currentSampleRate) :
    samplesNeeded s' b = samplesNeeded s b := by
  simp [samplesNeeded, getDefaultSampleRate, h1, h2]

/-- Consecutive pulls on a playable state, each with `samplesNeeded` between
zero and the sample rate: all of them return; only `count`, `currentSample`
and `timestamp` change; the time stamp grows by the samples consumed; the
cursor stays between the bounds, above `startSample` once something was
consumed, and moves by the samples consumed modulo the loop length. -/
theorem pulls_spec (budget : Nat) (bs : List Int) :
    ∀ (s : FileReader) (src : FileSource), s.input = some src →
      s.startSample < s.stopSample → s.startSample ≤ s.currentSample →
      s.currentSample ≤ s.stopSample →
      (∀ b ∈ bs, 0 ≤ samplesNeeded s b ∧ (samplesNeeded s b : ℚ) ≤ s.currentSampleRate ∧
        2 * samplesNeeded s b + 1 ≤ (budget : Int)) →
      ∃ s' calls, pulls budget s bs = Outcome.returns (s', calls) ∧
        s' = { s with count := s'.count, currentSample := s'.currentSample,
                      timestamp := s.timestamp + (bs.map (samplesNeeded s)).sum } ∧
        s.startSample ≤ s'.currentSample ∧ s'.currentSample ≤ s.stopSample ∧
        (0 < (bs.map (samplesNeeded s)).sum → s.startSample < s'.currentSample) ∧
        ((bs.map (samplesNeeded s)).sum = 0 → s'.currentSample = s.currentSample) ∧
        (s'.currentSample - s.startSample) ≡
          (s.currentSample - s.startSample) + (bs.map (samplesNeeded s)).sum
          [ZMOD (s.stopSample - s.startSample)] := by
  induction bs with
  | nil =>
    intro s src _ _ hlo hhi _
    refine ⟨s, [], rfl, by simp, hlo, hhi, by simp, by simp, by simp [Int.ModEq]⟩
  | cons b bs ih =>
    intro s src hin hL hlo hhi hall
    obtain ⟨hN, hsafe, hbud⟩ := hall b (List.mem_cons_self _ _)
    obtain ⟨s1, c1, hp, hf1, h1lo, h1hi, h1pos, h1mod, _, h1z, _⟩ :=
      process_spec budget s b src hin hL hlo hhi hN hsafe hbud
    have e_in : s1.input = s.input := by rw [hf1]
    have e_rate : s1.currentSampleRate = s.currentSampleRate := by rw [hf1]
    have e_start : s1.startSample = s.startSample := by rw [hf1]
    have e_stop : s1.stopSample = s.stopSample := by rw [hf1]
    have e_ts : s1.timestamp = s.timestamp + samplesNeeded s b := by rw [hf1]
    have e_need : ∀ x, samplesNeeded s1 x = samplesNeeded s x :=
      fun x => samplesNeeded_congr s s1 x e_in e_rate
    have e_map : bs.map (samplesNeeded s1) = bs.map (samplesNeeded s) := by
      apply List.map_congr_left
      intro x _
      exact e_need x
    obtain ⟨s2, c2, hp2, hf2, h2lo, h2hi, h2pos, h2z, h2mod⟩ :=
      ih s1 src (by rw [e_in, hin]) (by rw [e_start, e_stop]; exact hL)
        (by rw [e_start]; exact h1lo) (by rw [e_stop]; exact h1hi)
        (by
          intro x hx
          rw [e_need x, e_rate]
          exact hall x (List.mem_cons_of_mem _ hx))
    rw [e_map] at hf2 h2pos h2mod h2z
    rw [e_start] at h2lo h2pos h2mod
    rw [e_stop] at h2hi h2mod
    have hsum_nonneg : 0 ≤ (bs.map (samplesNeeded s)).sum := by
      apply List.sum_nonneg
      intro x hx
      obtain ⟨y, hy, rfl⟩ := List.mem_map.mp hx
      exact (hall y (List.mem_cons_of_mem _ hy)).1
    have hsum_zero : (bs.map (samplesNeeded s)).sum = 0 ∨ 0 < (bs.map (samplesNeeded s)).sum := by
      omega
    refine ⟨s2, (c1 ++ convertChannels s (samplesNeeded s b)
        ++ [Effect.setTimestampAndSamples (s.timestamp + samplesNeeded s b) (samplesNeeded s b)])
        ++ c2, ?_, ?_, h2lo, h2hi, ?_, ?_, ?_⟩
    · simp only [pulls, hp, hp2]
    · rw [hf2, e_ts]
      conv_lhs => rw [hf1]
      simp only [List.map_cons, List.sum_cons, add_assoc]
    · intro hpos
      simp only [List.map_cons, List.sum_cons] at hpos
      rcases hsum_zero with hz0 | hz
      · have hbpos : 0 < samplesNeeded s b := by omega
        have h1 := h1pos hbpos
        rw [h2z hz0]
        exact h1
      · exact h2pos hz
    · intro hz
      simp only [List.map_cons, List.sum_cons] at hz
      have hz0 : (bs.map (samplesNeeded s)).sum = 0 := by omega
      have hb0 : samplesNeeded s b = 0 := by omega
      rw [h2z hz0, h1z hb0]
    · simp only [List.map_cons, List.sum_cons]
      have := h2mod
      rw [Int.modEq_iff_dvd] at h2mod h1mod ⊢
      have hrew : s.currentSample - s.startSample
            + (samplesNeeded s b + (bs.map (samplesNeeded s)).sum)
            - (s2.currentSample - s.startSample)
          = (s1.currentSample - s.startSample + (bs.map (samplesNeeded s)).sum
              - (s2.currentSample - s.startSample))
            + (s.currentSample - s.startSample + samplesNeeded s b
              - (s1.currentSample - s.startSample)) := by ring
      rw [hrew]
      exact dvd_add h2mod h1mod

end FileReader

theorem seeksOf_append (xs ys : List Effect) : seeksOf (xs ++ ys) = seeksOf xs ++ seeksOf ys := by
  induction xs with
  | nil => rfl
  | cons x xs ih => cases x <;> simp [seeksOf, ih]

theorem backendCalls_append (xs ys : List Effect) :
    backendCalls (xs ++ ys) = backendCalls xs ++ backendCalls ys := by
  simp [backendCalls]

namespace FileReader

theorem seeksOf_markerOf (s : FileReader) (r : Int) : seeksOf (markerOf s r) = [] := by
  unfold markerOf
  simp only
  split <;> rfl

theorem backendCalls_markerOf (s : FileReader) (r : Int) : backendCalls (markerOf s r) = [] := by
  unfold markerOf
  simp only
  split <;> rfl

theorem seeksOf_convertChannels (s : FileReader) (n : Int) :
    seeksOf (convertChannels s n) = [] := by
  unfold convertChannels
  induction List.range s.currentNumChannels.toNat with
  | nil => rfl
  | cons x xs ih => simp only [List.map_cons, seeksOf]; exact ih

theorem backendCalls_convertChannels (s : FileReader) (n : Int) :
    backendCalls (convertChannels s n) = [] := by
  unfold convertChannels
  induction List.range s.currentNumChannels.toNat with
  | nil => rfl
  | cons x xs ih =>
    simp only [backendCalls, List.map_cons, List.filter_cons] at ih ⊢
    exact ih

/-- A pull whose samples all lie before the stop bound: one iteration, one
read of `samplesNeeded` samples at offset 0, the cursor advanced by as much. -/
theorem process_advance (budget : Nat) (s : FileReader) (src : FileSource) (b : Int)
    (hin : s.input = some src) (hpos : 0 < samplesNeeded s b)
    (hsafe : (samplesNeeded s b : ℚ) ≤ s.currentSampleRate)
    (hfit : s.currentSample + samplesNeeded s b ≤ s.stopSample) :
    process (budget + 1) s b = Outcome.returns
      ({ s with count := s.count + 1, currentSample := s.currentSample + samplesNeeded s b,
                timestamp := s.timestamp + samplesNeeded s b },
        [Effect.readData 0 (samplesNeeded s b)] ++ markerOf s (samplesNeeded s b)
          ++ convertChannels s (samplesNeeded s b)
          ++ [Effect.setTimestampAndSamples (s.timestamp + samplesNeeded s b)
                (samplesNeeded s b)]) := by
  have hips : floatToInt (s.currentSampleRate / ((samplesNeeded s b - 0 : Int) : ℚ)) ≠ 0 := by
    rw [sub_zero]
    have := iterationsPerSecond_pos s.currentSampleRate (samplesNeeded s b) hpos hsafe
    omega
  have hbody := processBody_advance s src (samplesNeeded s b) 0 hin hips
    (by rw [sub_zero]; exact hfit)
  have hloop := processLoop_succ_of_body (samplesNeeded s b) budget s _ 0 _ [] _ hpos hbody
  rw [processLoop_returns_of_not_lt _ _ _ _ _ (lt_irrefl _)] at hloop
  rw [process_of_processLoop (budget + 1) s _ b _ src (by exact hin) hloop]
  simp [convertChannels]

/-- A pull that crosses the stop bound once: the read up to the bound, the
seek back to `startSample`, and the read of the rest from there. -/
theorem process_wrap_once (budget : Nat) (s : FileReader) (src : FileSource) (b : Int)
    (hin : s.input = some src) (hsafe : (samplesNeeded s b : ℚ) ≤ s.currentSampleRate)
    (hbefore : s.currentSample < s.stopSample)
    (hcross : s.currentSample + samplesNeeded s b > s.stopSample)
    (hfit : s.startSample + (samplesNeeded s b - (s.stopSample - s.currentSample))
      ≤ s.stopSample) :
    process (budget + 2) s b = Outcome.returns
      ({ s with count := s.count + 1 + 1,
                currentSample :=
                  s.startSample + (samplesNeeded s b - (s.stopSample - s.currentSample)),
                timestamp := s.timestamp + samplesNeeded s b },
        [Effect.readData 0 (s.stopSample - s.currentSample), Effect.seekTo s.startSample]
          ++ markerOf s (samplesNeeded s b)
          ++ [Effect.readData (s.stopSample - s.currentSample)
                (samplesNeeded s b - (s.stopSample - s.currentSample))]
          ++ markerOf { s with count := s.count + 1, currentSample := s.startSample }
                (samplesNeeded s b - (s.stopSample - s.currentSample))
          ++ convertChannels s (samplesNeeded s b)
          ++ [Effect.setTimestampAndSamples (s.timestamp + samplesNeeded s b)
                (samplesNeeded s b)]) := by
  have hpos : 0 < samplesNeeded s b := by omega
  have hips : floatToInt (s.currentSampleRate / ((samplesNeeded s b - 0 : Int) : ℚ)) ≠ 0 := by
    rw [sub_zero]
    have := iterationsPerSecond_pos s.currentSampleRate (samplesNeeded s b) hpos hsafe
    omega
  have hbody := processBody_wrap s src (samplesNeeded s b) 0 hin hips
    (by rw [sub_zero]; exact hcross)
  have hloop := processLoop_succ_of_body (samplesNeeded s b) (budget + 1) s _ 0 _ [] _ hpos hbody
  have hd : 0 < s.stopSample - s.currentSample := by omega
  rw [if_pos hd, zero_add] at hloop
  have hle2 : ((samplesNeeded s b - (s.stopSample - s.currentSample) : Int) : ℚ)
      ≤ s.currentSampleRate := by
    have : ((samplesNeeded s b - (s.stopSample - s.currentSample) : Int) : ℚ)
        ≤ (samplesNeeded s b : ℚ) := by exact_mod_cast (by omega)
    linarith
  have hips2 : floatToInt (s.currentSampleRate /
      ((samplesNeeded s b - (s.stopSample - s.currentSample) : Int) : ℚ)) ≠ 0 := by
    have := iterationsPerSecond_pos s.currentSampleRate
      (samplesNeeded s b - (s.stopSample - s.currentSample)) (by omega) hle2
    omega
  have hbody2 := processBody_advance
    { s with count := s.count + 1, currentSample := s.startSample } src (samplesNeeded s b)
    (s.stopSample - s.currentSample) hin hips2 hfit
  rw [processLoop_succ_of_body (samplesNeeded s b) budget _ _ _ _ _ _ (by omega) hbody2,
    processLoop_returns_of_not_lt _ _ _ _ _ (lt_irrefl _)] at hloop
  rw [process_of_processLoop (budget + 2) s _ b _ src (by exact hin) hloop]
  simp [convertChannels]

end FileReader

namespace FileReader

/-- Pulls that stay before the stop bound: `j` pulls of the same block size,
the last of which still ends at or before `stopSample`, each make one read and
no seek, and advance the cursor by `samplesNeeded` each. -/
theorem pulls_advance (budget : Nat) (b : Int) (j : Nat) :
    ∀ (s : FileReader) (src : FileSource), s.input = some src → 0 < samplesNeeded s b →
      (samplesNeeded s b : ℚ) ≤ s.currentSampleRate →
      s.currentSample + samplesNeeded s b * j ≤ s.stopSample →
      ∃ s' calls, pulls (budget + 1) s (List.replicate j b) = Outcome.returns (s', calls) ∧
        seeksOf calls = [] ∧
        s' = { s with count := s.count + j,
                      currentSample := s.currentSample + samplesNeeded s b * j,
                      timestamp := s.timestamp + samplesNeeded s b * j } := by
  induction j with
  | zero =>
    intro s src _ _ _ _
    exact ⟨s, [], rfl, rfl, by simp⟩
  | succ j ih =>
    intro s src hin hpos hsafe hfit
    have hfit1 : s.currentSample + samplesNeeded s b ≤ s.stopSample := by
      have : 0 ≤ samplesNeeded s b * (j : Int) :=
        mul_nonneg (le_of_lt hpos) (Int.ofNat_nonneg j)
      push_cast at hfit
      nlinarith
    have hp := process_advance budget s src b hin hpos hsafe hfit1
    have e_need : samplesNeeded
        { s with count := s.count + 1, currentSample := s.currentSample + samplesNeeded s b,
                 timestamp := s.timestamp + samplesNeeded s b } b = samplesNeeded s b :=
      samplesNeeded_congr s _ b rfl rfl
    obtain ⟨s2, c2, hp2, hseek2, hf2⟩ := ih
      { s with count := s.count + 1, currentSample := s.currentSample + samplesNeeded s b,
               timestamp := s.timestamp + samplesNeeded s b } src hin
      (by rw [e_need]; exact hpos) (by rw [e_need]; exact hsafe)
      (by rw [e_need]; push_cast at hfit ⊢; linarith)
    rw [e_need] at hf2
    refine ⟨s2, ([Effect.readData 0 (samplesNeeded s b)] ++ markerOf s (samplesNeeded s b)
        ++ convertChannels s (samplesNeeded s b)
        ++ [Effect.setTimestampAndSamples (s.timestamp + samplesNeeded s b)
              (samplesNeeded s b)]) ++ c2, ?_, ?_, ?_⟩
    · simp only [List.replicate_succ, pulls, hp, hp2]
    · simp [seeksOf_append, seeksOf, seeksOf_markerOf, seeksOf_convertChannels, hseek2]
    · rw [hf2]
      simp only [FileReader.mk.injEq, true_and, and_true]
      push_cast
      refine ⟨by ring, by ring, by ring⟩

end FileReader

namespace FileReader

/-- Exact fill of one pull whose `samplesNeeded` does not exceed the sample
rate: the call returns; the counts passed to `readData` are positive and sum
to `samplesNeeded`; each read is placed at the offset equal to the sum of the
counts before it; after the reads every channel `0 .. currentNumChannels - 1`
is converted with count `samplesNeeded`, and the time base is published. -/
theorem process_exact_fill (budget : Nat) (s : FileReader) (b : Int) (src : FileSource)
    (hin : s.input = some src) (hL : s.startSample < s.stopSample)
    (hlo : s.startSample ≤ s.currentSample) (hhi : s.currentSample ≤ s.stopSample)
    (hN : 0 ≤ samplesNeeded s b) (hsafe : (samplesNeeded s b : ℚ) ≤ s.currentSampleRate)
    (hbudget : 2 * samplesNeeded s b + 1 ≤ (budget : Int)) :
    ∃ s' calls,
      process budget s b = Outcome.returns
        (s', calls
          ++ (List.range s.currentNumChannels.toNat).map
              (fun i => Effect.processChannelData (i : Int) (samplesNeeded s b))
          ++ [Effect.setTimestampAndSamples (s.timestamp + samplesNeeded s b)
                (samplesNeeded s b)]) ∧
      (∀ e ∈ calls, ∀ c n, e ≠ Effect.processChannelData c n) ∧
      ((readsOf calls).map Prod.snd).sum = samplesNeeded s b ∧
      (∀ (i : Nat) (hi : i < (readsOf calls).length),
        ((readsOf calls).get ⟨i, hi⟩).1 = (((readsOf calls).take i).map Prod.snd).sum) ∧
      (∀ p ∈ readsOf calls, 0 < p.2) := by
  obtain ⟨s', calls, hp, _, _, _, _, _, hfill, _, hloop⟩ :=
    process_spec budget s b src hin hL hlo hhi hN hsafe hbudget
  refine ⟨s', calls, hp, ?_, ?_, ?_, Fills_pos _ _ _ hfill⟩
  · intro e he c n hc
    have := hloop e he
    rw [hc] at this
    simp [Effect.inLoop] at this
  · rw [Fills_sum _ _ _ hfill, sub_zero]
  · intro i hi
    rw [Fills_offset _ _ _ hfill i hi, zero_add]

end FileReader

namespace FileReader

/-- The pulls of the end-to-end scenario, for any engine at 30000 Hz with the
loop `0 .. 150000` and the cursor on 0: a block of 1024 frames needs 696
samples, the first 215 pulls advance without a seek, the next one wraps. -/
theorem scenario_pulls (n : Nat) (t : FileReader) (src : FileSource)
    (hin : t.input = some src) (hrate : t.currentSampleRate = 30000)
    (hstart : t.startSample = 0) (hstop : t.stopSample = 150000)
    (hcur : t.currentSample = 0) :
    samplesNeeded t 1024 = 696 ∧
    (∀ j : Nat, j ≤ 215 → ∃ s3 calls3,
      pulls (n + 2) t (List.replicate j 1024) = Outcome.returns (s3, calls3) ∧
      seeksOf calls3 = [] ∧ s3.currentSample = 696 * (j : Int)) ∧
    (∃ s3 calls3 s4 calls4,
      pulls (n + 2) t (List.replicate 215 1024) = Outcome.returns (s3, calls3) ∧
      s3.currentSample = 149640 ∧
      process (n + 2) s3 1024 = Outcome.returns (s4, calls4) ∧
      backendCalls calls4
        = [Effect.readData 0 360, Effect.seekTo 0, Effect.readData 360 336] ∧
      s4.currentSample = 336 ∧ s4.startSample = 0 ∧ s4.stopSample = 150000) := by
  have h696 : floatToInt (f32 (f32 ((1024 : Int) : ℚ) * f32 ((30000 : ℚ) / 44100))) = 696 := by
    with_unfolding_all rfl
  have hneed : samplesNeeded t 1024 = 696 := by
    simp only [samplesNeeded, getDefaultSampleRate, hin, hrate]
    exact h696
  have hsafe : ∀ u : FileReader, u.currentSampleRate = 30000 → samplesNeeded u 1024 = 696 →
      (samplesNeeded u 1024 : ℚ) ≤ u.currentSampleRate := by
    intro u hu hN
    rw [hu, hN]
    norm_num
  have hadv : ∀ j : Nat, j ≤ 215 → ∃ s3 calls3,
      pulls (n + 2) t (List.replicate j 1024) = Outcome.returns (s3, calls3) ∧
      seeksOf calls3 = [] ∧
      s3 = { t with count := t.count + j, currentSample := 696 * (j : Int),
                    timestamp := t.timestamp + 696 * (j : Int) } := by
    intro j hj
    obtain ⟨s3, calls3, hp, hseek, hf⟩ := pulls_advance (n + 1) 1024 j t src hin
      (by rw [hneed]; norm_num) (hsafe t hrate hneed)
      (by
        rw [hneed, hcur, hstop]
        have : (j : Int) ≤ 215 := by exact_mod_cast hj
        omega)
    refine ⟨s3, calls3, hp, hseek, ?_⟩
    rw [hf, hneed, hcur, zero_add]
  refine ⟨hneed, ?_, ?_⟩
  · intro j hj
    obtain ⟨s3, calls3, hp, hseek, hf⟩ := hadv j hj
    exact ⟨s3, calls3, hp, hseek, by rw [hf]⟩
  · obtain ⟨s3, calls3, hp, _, hf⟩ := hadv 215 le_rfl
    have e3in : s3.input = some src := by rw [hf]; exact hin
    have e3rate : s3.currentSampleRate = 30000 := by rw [hf]; exact hrate
    have e3c : s3.currentSample = 149640 := by rw [hf]; norm_num
    have e3start : s3.startSample = 0 := by rw [hf]; exact hstart
    have e3stop : s3.stopSample = 150000 := by rw [hf]; exact hstop
    have hneed3 : samplesNeeded s3 1024 = 696 := by
      rw [samplesNeeded_congr t s3 1024 (by rw [e3in, hin]) (by rw [e3rate, hrate])]
      exact hneed
    have hw := process_wrap_once n s3 src 1024 e3in
      (hsafe s3 e3rate hneed3) (by rw [e3c, e3stop]; norm_num)
      (by rw [e3c, e3stop, hneed3]; norm_num)
      (by rw [e3c, e3stop, e3start, hneed3]; norm_num)
    rw [hneed3, e3c, e3stop, e3start] at hw
    refine ⟨s3, calls3, _, _, hp, e3c, hw, ?_, ?_, rfl, rfl⟩
    · simp only [backendCalls_append, backendCalls_markerOf, backendCalls_convertChannels]
      norm_num [backendCalls]
    · norm_num

end FileReader


/-- A rounded value stays between the bounds of the exact value, each widened
by the factor of one rounding. -/
theorem f32_between (x y lo hi : ℚ) (hx : 0 ≤ x) (hlo0 : 0 ≤ lo)
    (hlo : x * lo ≤ y) (hhi : y ≤ x * hi) :
    x * (lo * (1 - 1 / 2 ^ 24)) ≤ f32 y ∧ f32 y ≤ x * (hi * (1 + 1 / 2 ^ 24)) := by
  have hy : 0 ≤ y := le_trans (mul_nonneg hx hlo0) hlo
  obtain ⟨h1, h2⟩ := f32_bounds y hy
  constructor
  · calc x * (lo * (1 - 1 / 2 ^ 24)) = (x * lo) * (1 - 1 / 2 ^ 24) := by ring
      _ ≤ y * (1 - 1 / 2 ^ 24) := mul_le_mul_of_nonneg_right hlo (by norm_num)
      _ ≤ f32 y := h1
  · calc f32 y ≤ y * (1 + 1 / 2 ^ 24) := h2
      _ ≤ (x * hi) * (1 + 1 / 2 ^ 24) := mul_le_mul_of_nonneg_right hhi (by norm_num)
      _ = x * (hi * (1 + 1 / 2 ^ 24)) := by ring

/-- Three roundings in a row keep a non-negative value within the factor
`1 +- 2 ^ (-22)`. -/
theorem three_roundings (x f : ℚ) (hx : 0 ≤ x)
    (hlo : x * ((1 - 1 / 2 ^ 24) * (1 - 1 / 2 ^ 24) * (1 - 1 / 2 ^ 24)) ≤ f)
    (hhi : f ≤ x * ((1 + 1 / 2 ^ 24) * (1 + 1 / 2 ^ 24) * (1 + 1 / 2 ^ 24))) :
    x * (1 - 1 / 2 ^ 22) ≤ f ∧ f ≤ x * (1 + 1 / 2 ^ 22) := by
  constructor
  · refine le_trans (mul_le_mul_of_nonneg_left ?_ hx) hlo
    norm_num
  · refine le_trans hhi (mul_le_mul_of_nonneg_left ?_ hx)
    norm_num

/-- An integer `m` with `x * (1 - 2 ^ (-22)) - 1 < m <= x * (1 + 2 ^ (-22))` is
at most one away from `floor x` as long as `x <= 2 ^ 22`. -/
theorem near_floor (x : ℚ) (m : Int) (hx : x ≤ 2 ^ 22)
    (h1 : x * (1 - 1 / 2 ^ 22) - 1 < (m : ℚ)) (h2 : (m : ℚ) ≤ x * (1 + 1 / 2 ^ 22)) :
    |m - ⌊x⌋| ≤ 1 := by
  have hf1 : ((⌊x⌋ : Int) : ℚ) ≤ x := Int.floor_le x
  have hf2 : x < ((⌊x⌋ : Int) : ℚ) + 1 := Int.lt_floor_add_one x
  have hsmall : x * (1 / 2 ^ 22) ≤ 1 := by
    have : x * (1 / 2 ^ 22) ≤ 2 ^ 22 * (1 / 2 ^ 22) :=
      mul_le_mul_of_nonneg_right hx (by norm_num)
    linarith [show (2 : ℚ) ^ 22 * (1 / 2 ^ 22) = 1 by norm_num]
  have hup : (m : ℚ) < ((⌊x⌋ + 2 : Int) : ℚ) := by push_cast; linarith
  have hdn : ((⌊x⌋ - 2 : Int) : ℚ) < (m : ℚ) := by push_cast; linarith
  have hup' : m < ⌊x⌋ + 2 := by exact_mod_cast hup
  have hdn' : ⌊x⌋ - 2 < m := by exact_mod_cast hdn
  rw [abs_le]
  constructor <;> omega

theorem floatToUInt_some (q : ℚ) (k : Nat) (hq : 0 ≤ q) (h : floatToUInt q = some k) :
    (k : Int) = ⌊q⌋ ∧ (k : ℚ) ≤ q ∧ q < (k : ℚ) + 1 := by
  unfold floatToUInt at h
  split at h
  · have hk : (floatToInt q).toNat = k := Option.some.inj h
    have hk2 : (k : Int) = ⌊q⌋ := by
      rw [← hk, Int.toNat_of_nonneg (floatToInt_nonneg hq), floatToInt_eq_floor hq]
    have hkq : (k : ℚ) = ((⌊q⌋ : Int) : ℚ) := by
      rw [← hk2]
      exact (Int.cast_natCast k).symm
    refine ⟨hk2, ?_, ?_⟩
    · rw [hkq]; exact Int.floor_le q
    · rw [hkq]; exact Int.lt_floor_add_one q
  · exact absurd h (by simp)

theorem floatToUInt_defined (q : ℚ) (hq : 0 ≤ q) (h : q < 2 ^ 32) :
    floatToUInt q = some (floatToInt q).toNat := by
  unfold floatToUInt
  rw [if_pos ⟨by linarith, h⟩]

theorem floatToInt64_some (q : ℚ) (k : Int) (hq : 0 ≤ q) (h : floatToInt64 q = some k) :
    k = ⌊q⌋ ∧ (k : ℚ) ≤ q ∧ q < (k : ℚ) + 1 := by
  unfold floatToInt64 at h
  split at h
  · have hk : floatToInt q = k := Option.some.inj h
    have hk2 : k = ⌊q⌋ := by rw [← hk, floatToInt_eq_floor hq]
    refine ⟨hk2, ?_, ?_⟩
    · rw [hk2]; exact Int.floor_le q
    · rw [hk2]; exact Int.lt_floor_add_one q
  · exact absurd h (by simp)

theorem floatToInt64_defined (q : ℚ) (hq : 0 ≤ q) (h : q < 2 ^ 63) :
    floatToInt64 q = some (floatToInt q) := by
  unfold floatToInt64
  rw [if_pos ⟨by linarith, h⟩]

namespace FileReader

/-- The `float` quotient inside `samplesToMilliseconds` for a positive rate and
a non-negative count: within three rounding factors of `1000 * n / rate`. -/
theorem samplesToMilliseconds_cube (rate : ℚ) (n : Int) (hrate : 0 < rate) (hn : 0 ≤ n) :
    1000 * (n : ℚ) / rate * ((1 - 1 / 2 ^ 24) * (1 - 1 / 2 ^ 24) * (1 - 1 / 2 ^ 24))
      ≤ f32 (f32 (1000 * f32 (n : ℚ)) / rate) ∧
    f32 (f32 (1000 * f32 (n : ℚ)) / rate)
      ≤ 1000 * (n : ℚ) / rate * ((1 + 1 / 2 ^ 24) * (1 + 1 / 2 ^ 24) * (1 + 1 / 2 ^ 24)) := by
  have hnq : (0 : ℚ) ≤ (n : ℚ) := by exact_mod_cast hn
  have hx : (0 : ℚ) ≤ 1000 * (n : ℚ) / rate := by positivity
  obtain ⟨a1, a2⟩ := f32_bounds (n : ℚ) hnq
  obtain ⟨b1, b2⟩ := f32_between (1000 * (n : ℚ)) (1000 * f32 (n : ℚ)) (1 - 1 / 2 ^ 24)
    (1 + 1 / 2 ^ 24) (by positivity) (by norm_num) (by linarith) (by linarith)
  obtain ⟨c1, c2⟩ := f32_between (1000 * (n : ℚ) / rate) (f32 (1000 * f32 (n : ℚ)) / rate)
    ((1 - 1 / 2 ^ 24) * (1 - 1 / 2 ^ 24)) ((1 + 1 / 2 ^ 24) * (1 + 1 / 2 ^ 24)) hx (by norm_num)
    (by rw [div_mul_eq_mul_div, div_le_div_iff_of_pos_right hrate]; linarith)
    (by rw [div_mul_eq_mul_div, div_le_div_iff_of_pos_right hrate]; linarith)
  exact ⟨c1, c2⟩

/-- The `float` quotient inside `samplesToMilliseconds` for a positive rate and
a non-negative count: within the factor `1 +- 2 ^ (-22)` of `1000 * n / rate`. -/
theorem samplesToMilliseconds_float (rate : ℚ) (n : Int) (hrate : 0 < rate) (hn : 0 ≤ n) :
    1000 * (n : ℚ) / rate * (1 - 1 / 2 ^ 22) ≤ f32 (f32 (1000 * f32 (n : ℚ)) / rate) ∧
    f32 (f32 (1000 * f32 (n : ℚ)) / rate) ≤ 1000 * (n : ℚ) / rate * (1 + 1 / 2 ^ 22) := by
  have hnq : (0 : ℚ) ≤ (n : ℚ) := by exact_mod_cast hn
  obtain ⟨c1, c2⟩ := samplesToMilliseconds_cube rate n hrate hn
  exact three_roundings _ _ (by positivity) c1 c2

/-- The `float` quotient inside `millisecondsToSamples` for a non-negative
rate: within three rounding factors of `rate * ms / 1000`. -/
theorem millisecondsToSamples_cube (rate : ℚ) (ms : Nat) (hrate : 0 ≤ rate) :
    rate * (ms : ℚ) / 1000 * ((1 - 1 / 2 ^ 24) * (1 - 1 / 2 ^ 24) * (1 - 1 / 2 ^ 24))
      ≤ f32 (f32 (rate * f32 (ms : ℚ)) / 1000) ∧
    f32 (f32 (rate * f32 (ms : ℚ)) / 1000)
      ≤ rate * (ms : ℚ) / 1000 * ((1 + 1 / 2 ^ 24) * (1 + 1 / 2 ^ 24) * (1 + 1 / 2 ^ 24)) := by
  have hmq : (0 : ℚ) ≤ (ms : ℚ) := Nat.cast_nonneg ms
  have hx : (0 : ℚ) ≤ rate * (ms : ℚ) / 1000 := by positivity
  obtain ⟨a1, a2⟩ := f32_bounds (ms : ℚ) hmq
  obtain ⟨b1, b2⟩ := f32_between (rate * (ms : ℚ)) (rate * f32 (ms : ℚ)) (1 - 1 / 2 ^ 24)
    (1 + 1 / 2 ^ 24) (by positivity) (by norm_num)
    (by rw [mul_assoc]; exact mul_le_mul_of_nonneg_left a1 hrate)
    (by rw [mul_assoc]; exact mul_le_mul_of_nonneg_left a2 hrate)
  obtain ⟨c1, c2⟩ := f32_between (rate * (ms : ℚ) / 1000) (f32 (rate * f32 (ms : ℚ)) / 1000)
    ((1 - 1 / 2 ^ 24) * (1 - 1 / 2 ^ 24)) ((1 + 1 / 2 ^ 24) * (1 + 1 / 2 ^ 24)) hx (by norm_num)
    (by rw [div_mul_eq_mul_div, div_le_div_iff_of_pos_right (by norm_num)]; linarith)
    (by rw [div_mul_eq_mul_div, div_le_div_iff_of_pos_right (by norm_num)]; linarith)
  exact ⟨c1, c2⟩

/-- The `float` quotient inside `millisecondsToSamples` for a non-negative
rate: within the factor `1 +- 2 ^ (-22)` of `rate * ms / 1000`. -/
theorem millisecondsToSamples_float (rate : ℚ) (ms : Nat) (hrate : 0 ≤ rate) :
    rate * (ms : ℚ) / 1000 * (1 - 1 / 2 ^ 22) ≤ f32 (f32 (rate * f32 (ms : ℚ)) / 1000) ∧
    f32 (f32 (rate * f32 (ms : ℚ)) / 1000) ≤ rate * (ms : ℚ) / 1000 * (1 + 1 / 2 ^ 22) := by
  have hmq : (0 : ℚ) ≤ (ms : ℚ) := Nat.cast_nonneg ms
  obtain ⟨c1, c2⟩ := millisecondsToSamples_cube rate ms hrate
  exact three_roundings _ _ (by positivity) c1 c2

/-- The `float` product inside `samplesNeeded` for a non-negative block size
and rate: within the factor `1 +- 2 ^ (-22)` of `b * rate / 44100`. -/
theorem samplesNeeded_float (rate : ℚ) (b : Int) (hrate : 0 ≤ rate) (hb : 0 ≤ b) :
    (b : ℚ) * rate / 44100 * (1 - 1 / 2 ^ 22) ≤ f32 (f32 (b : ℚ) * f32 (rate / 44100)) ∧
    f32 (f32 (b : ℚ) * f32 (rate / 44100)) ≤ (b : ℚ) * rate / 44100 * (1 + 1 / 2 ^ 22) := by
  have hbq : (0 : ℚ) ≤ (b : ℚ) := by exact_mod_cast hb
  have hr : (0 : ℚ) ≤ rate / 44100 := by positivity
  have hx : (0 : ℚ) ≤ (b : ℚ) * rate / 44100 := by positivity
  obtain ⟨a1, a2⟩ := f32_bounds (b : ℚ) hbq
  obtain ⟨r1, r2⟩ := f32_bounds (rate / 44100) hr
  have hfb : 0 ≤ f32 (b : ℚ) := f32_nonneg _ hbq
  have hfr : 0 ≤ f32 (rate / 44100) := f32_nonneg _ hr
  have hu : (0 : ℚ) ≤ 1 - 1 / 2 ^ 24 := by norm_num
  have hprod1 : (b : ℚ) * rate / 44100 * ((1 - 1 / 2 ^ 24) * (1 - 1 / 2 ^ 24))
      ≤ f32 (b : ℚ) * f32 (rate / 44100) := by
    calc (b : ℚ) * rate / 44100 * ((1 - 1 / 2 ^ 24) * (1 - 1 / 2 ^ 24))
        = ((b : ℚ) * (1 - 1 / 2 ^ 24)) * (rate / 44100 * (1 - 1 / 2 ^ 24)) := by ring
      _ ≤ f32 (b : ℚ) * f32 (rate / 44100) :=
          mul_le_mul a1 r1 (mul_nonneg hr hu) hfb
  have hprod2 : f32 (b : ℚ) * f32 (rate / 44100)
      ≤ (b : ℚ) * rate / 44100 * ((1 + 1 / 2 ^ 24) * (1 + 1 / 2 ^ 24)) := by
    calc f32 (b : ℚ) * f32 (rate / 44100)
        ≤ ((b : ℚ) * (1 + 1 / 2 ^ 24)) * (rate / 44100 * (1 + 1 / 2 ^ 24)) :=
          mul_le_mul a2 r2 hfr (mul_nonneg hbq (by norm_num))
      _ = (b : ℚ) * rate / 44100 * ((1 + 1 / 2 ^ 24) * (1 + 1 / 2 ^ 24)) := by ring
  obtain ⟨c1, c2⟩ := f32_between ((b : ℚ) * rate / 44100) (f32 (b : ℚ) * f32 (rate / 44100))
    ((1 - 1 / 2 ^ 24) * (1 - 1 / 2 ^ 24)) ((1 + 1 / 2 ^ 24) * (1 + 1 / 2 ^ 24)) hx (by norm_num)
    hprod1 hprod2
  exact three_roundings _ _ hx c1 c2

/-- The method `samplesToMilliseconds` for a positive rate and a non-negative
count: when the conversion is defined, the result is the truncation of the
`float` quotient, within the factor `1 +- 2 ^ (-22)` of `1000 * n / rate`. -/
theorem samplesToMilliseconds_bounds (s : FileReader) (n : Int) (ms : Nat)
    (hrate : 0 < s.currentSampleRate) (hn : 0 ≤ n) (h : samplesToMilliseconds s n = some ms) :
    (ms : Int) = ⌊f32 (f32 (1000 * f32 (n : ℚ)) / s.currentSampleRate)⌋ ∧
    1000 * (n : ℚ) / s.currentSampleRate * (1 - 1 / 2 ^ 22) - 1 < (ms : ℚ) ∧
    (ms : ℚ) ≤ 1000 * (n : ℚ) / s.currentSampleRate * (1 + 1 / 2 ^ 22) := by
  obtain ⟨f1, f2⟩ := samplesToMilliseconds_float s.currentSampleRate n hrate hn
  have hnq : (0 : ℚ) ≤ (n : ℚ) := by exact_mod_cast hn
  have hf0 : 0 ≤ f32 (f32 (1000 * f32 (n : ℚ)) / s.currentSampleRate) :=
    f32_nonneg _ (div_nonneg (f32_nonneg _ (mul_nonneg (by norm_num) (f32_nonneg _ hnq)))
      (le_of_lt hrate))
  unfold samplesToMilliseconds at h
  rw [if_neg (ne_of_gt hrate)] at h
  obtain ⟨k1, k2, k3⟩ := floatToUInt_some _ ms hf0 h
  exact ⟨k1, by linarith, by linarith⟩

/-- The method `samplesToMilliseconds` is defined for a positive rate and a
non-negative count whose time is below `2 ^ 31` ms. -/
theorem samplesToMilliseconds_defined (s : FileReader) (n : Int)
    (hrate : 0 < s.currentSampleRate) (hn : 0 ≤ n)
    (hrange : 1000 * (n : ℚ) / s.currentSampleRate < 2 ^ 31) :
    ∃ ms, samplesToMilliseconds s n = some ms := by
  obtain ⟨f1, f2⟩ := samplesToMilliseconds_float s.currentSampleRate n hrate hn
  have hnq : (0 : ℚ) ≤ (n : ℚ) := by exact_mod_cast hn
  have hf0 : 0 ≤ f32 (f32 (1000 * f32 (n : ℚ)) / s.currentSampleRate) :=
    f32_nonneg _ (div_nonneg (f32_nonneg _ (mul_nonneg (by norm_num) (f32_nonneg _ hnq)))
      (le_of_lt hrate))
  have hlt : f32 (f32 (1000 * f32 (n : ℚ)) / s.currentSampleRate) < 2 ^ 32 := by
    have : 1000 * (n : ℚ) / s.currentSampleRate * (1 + 1 / 2 ^ 22) < 2 ^ 32 := by
      have hx : (0 : ℚ) ≤ 1000 * (n : ℚ) / s.currentSampleRate := by positivity
      nlinarith
    linarith
  refine ⟨(floatToInt (f32 (f32 (1000 * f32 (n : ℚ)) / s.currentSampleRate))).toNat, ?_⟩
  unfold samplesToMilliseconds
  rw [if_neg (ne_of_gt hrate)]
  exact floatToUInt_defined _ hf0 hlt

/-- The method `millisecondsToSamples` for a non-negative rate: when the
conversion is defined, the result is the truncation of the `float` quotient,
within the factor `1 +- 2 ^ (-22)` of `rate * ms / 1000`. -/
theorem millisecondsToSamples_bounds (s : FileReader) (ms : Nat) (m : Int)
    (hrate : 0 ≤ s.currentSampleRate) (h : millisecondsToSamples s ms = some m) :
    m = ⌊f32 (f32 (s.currentSampleRate * f32 (ms : ℚ)) / 1000)⌋ ∧
    s.currentSampleRate * (ms : ℚ) / 1000 * (1 - 1 / 2 ^ 22) - 1 < (m : ℚ) ∧
    (m : ℚ) ≤ s.currentSampleRate * (ms : ℚ) / 1000 * (1 + 1 / 2 ^ 22) := by
  obtain ⟨f1, f2⟩ := millisecondsToSamples_float s.currentSampleRate ms hrate
  have hf0 : 0 ≤ f32 (f32 (s.currentSampleRate * f32 (ms : ℚ)) / 1000) :=
    f32_nonneg _ (div_nonneg (f32_nonneg _ (mul_nonneg hrate (f32_nonneg _ (Nat.cast_nonneg ms))))
      (by norm_num))
  unfold millisecondsToSamples at h
  obtain ⟨k1, k2, k3⟩ := floatToInt64_some _ m hf0 h
  exact ⟨k1, by linarith, by linarith⟩

/-- The method `millisecondsToSamples` is defined for a non-negative rate when
`rate * ms / 1000` is below `2 ^ 62`. -/
theorem millisecondsToSamples_defined (s : FileReader) (ms : Nat)
    (hrate : 0 ≤ s.currentSampleRate)
    (hrange : s.currentSampleRate * (ms : ℚ) / 1000 < 2 ^ 62) :
    ∃ m, millisecondsToSamples s ms = some m := by
  obtain ⟨f1, f2⟩ := millisecondsToSamples_float s.currentSampleRate ms hrate
  have hf0 : 0 ≤ f32 (f32 (s.currentSampleRate * f32 (ms : ℚ)) / 1000) :=
    f32_nonneg _ (div_nonneg (f32_nonneg _ (mul_nonneg hrate (f32_nonneg _ (Nat.cast_nonneg ms))))
      (by norm_num))
  have hlt : f32 (f32 (s.currentSampleRate * f32 (ms : ℚ)) / 1000) < 2 ^ 63 := by
    have : s.currentSampleRate * (ms : ℚ) / 1000 * (1 + 1 / 2 ^ 22) < 2 ^ 63 := by
      have hx : (0 : ℚ) ≤ s.currentSampleRate * (ms : ℚ) / 1000 := by positivity
      nlinarith
    linarith
  refine ⟨floatToInt (f32 (f32 (s.currentSampleRate * f32 (ms : ℚ)) / 1000)), ?_⟩
  unfold millisecondsToSamples
  exact floatToInt64_defined _ hf0 hlt

/-- The count `samplesNeeded` for a non-negative block size and rate: the
truncation of the `float` product, within the factor `1 +- 2 ^ (-22)` of
`blockSize * rate / 44100`. -/
theorem samplesNeeded_bounds (s : FileReader) (b : Int) (hb : 0 ≤ b)
    (hrate : 0 ≤ getDefaultSampleRate s) :
    samplesNeeded s b = ⌊f32 (f32 (b : ℚ) * f32 (getDefaultSampleRate s / 44100))⌋ ∧
    (b : ℚ) * getDefaultSampleRate s / 44100 * (1 - 1 / 2 ^ 22) - 1 < (samplesNeeded s b : ℚ) ∧
    (samplesNeeded s b : ℚ) ≤ (b : ℚ) * getDefaultSampleRate s / 44100 * (1 + 1 / 2 ^ 22) := by
  obtain ⟨f1, f2⟩ := samplesNeeded_float (getDefaultSampleRate s) b hrate hb
  have hbq : (0 : ℚ) ≤ (b : ℚ) := by exact_mod_cast hb
  have hf0 : 0 ≤ f32 (f32 (b : ℚ) * f32 (getDefaultSampleRate s / 44100)) :=
    f32_nonneg _ (mul_nonneg (f32_nonneg _ hbq) (f32_nonneg _ (by positivity)))
  have hfl : samplesNeeded s b = ⌊f32 (f32 (b : ℚ) * f32 (getDefaultSampleRate s / 44100))⌋ := by
    unfold samplesNeeded
    exact floatToInt_eq_floor hf0
  refine ⟨hfl, ?_, ?_⟩
  · have := Int.lt_floor_add_one (f32 (f32 (b : ℚ) * f32 (getDefaultSampleRate s / 44100)))
    rw [hfl]
    linarith
  · have := Int.floor_le (f32 (f32 (b : ℚ) * f32 (getDefaultSampleRate s / 44100)))
    rw [hfl]
    linarith

end FileReader

namespace FileReader

/-- A returning start-time update stores `millisecondsToSamples` of the value
converted to `unsigned int`, in `startSample` and in `currentSample`. -/
theorem setParameter_start (s s2 : FileReader) (v : ℚ) (h : setParameter s 1 v = some s2) :
    ∃ k m, floatToUInt v = some k ∧ millisecondsToSamples s k = some m ∧
      s2 = { s with startSample := m, currentSample := m } := by
  unfold setParameter at h
  rw [if_neg (by decide), if_pos rfl] at h
  cases hk : floatToUInt v with
  | none => simp only [hk] at h; exact absurd h (by simp)
  | some k =>
    cases hm : millisecondsToSamples s k with
    | none => simp only [hk, hm] at h; exact absurd h (by simp)
    | some m =>
      simp only [hk, hm] at h
      exact ⟨k, m, rfl, hm, (Option.some.inj h).symm⟩

/-- A returning stop-time update stores `millisecondsToSamples` of the value
converted to `unsigned int` in `stopSample`, and `startSample` in
`currentSample`. -/
theorem setParameter_stop (s s3 : FileReader) (v : ℚ) (h : setParameter s 2 v = some s3) :
    ∃ k m, floatToUInt v = some k ∧ millisecondsToSamples s k = some m ∧
      s3 = { s with stopSample := m, currentSample := s.startSample } := by
  unfold setParameter at h
  rw [if_neg (by decide), if_neg (by decide), if_pos rfl] at h
  cases hk : floatToUInt v with
  | none => simp only [hk] at h; exact absurd h (by simp)
  | some k =>
    cases hm : millisecondsToSamples s k with
    | none => simp only [hk, hm] at h; exact absurd h (by simp)
    | some m =>
      simp only [hk, hm] at h
      exact ⟨k, m, rfl, hm, (Option.some.inj h).symm⟩

theorem setParameter_start_eq (s : FileReader) (v : ℚ) (k : Nat) (m : Int)
    (hk : floatToUInt v = some k) (hm : millisecondsToSamples s k = some m) :
    setParameter s 1 v = some { s with startSample := m, currentSample := m } := by
  unfold setParameter
  rw [if_neg (by decide), if_pos rfl]
  simp only [hk, hm]

theorem setParameter_stop_eq (s : FileReader) (v : ℚ) (k : Nat) (m : Int)
    (hk : floatToUInt v = some k) (hm : millisecondsToSamples s k = some m) :
    setParameter s 2 v = some { s with stopSample := m, currentSample := s.startSample } := by
  unfold setParameter
  rw [if_neg (by decide), if_neg (by decide), if_pos rfl]
  simp only [hk, hm]

/-- The start-time and stop-time updates return for a non-negative rate and a
value in `0 .. 2 ^ 32` whose sample position is below `2 ^ 62`. -/
theorem setParameter_defined (s : FileReader) (v : ℚ) (hrate : 0 ≤ s.currentSampleRate)
    (hv : 0 ≤ v) (hv32 : v < 2 ^ 32) (hrange : s.currentSampleRate * v / 1000 < 2 ^ 62) :
    ∃ k m, floatToUInt v = some k ∧ millisecondsToSamples s k = some m ∧
      (k : Int) = ⌊v⌋ := by
  have hk := floatToUInt_defined v hv hv32
  obtain ⟨hk1, hk2, _⟩ := floatToUInt_some v _ hv hk
  have hle : s.currentSampleRate * (((floatToInt v).toNat : Nat) : ℚ) / 1000
      ≤ s.currentSampleRate * v / 1000 := by
    apply div_le_div_of_nonneg_right _ (by norm_num)
    exact mul_le_mul_of_nonneg_left hk2 hrate
  obtain ⟨m, hm⟩ := millisecondsToSamples_defined s (floatToInt v).toNat hrate
    (lt_of_le_of_lt hle hrange)
  exact ⟨_, m, hk, hm, hk1⟩

end FileReader

namespace FileReader

/-- Every returning run of the loop changes `count` and `currentSample` only. -/
theorem LoopRun_frame (N : Int) (s : FileReader) (k : Int) (s' : FileReader)
    (calls : List Effect) (hrun : LoopRun N s k s' calls) :
    s' = { s with count := s'.count, currentSample := s'.currentSample } := by
  induction hrun with
  | done s k h => rfl
  | step s s1 s' k k1 c1 c' h hb hr ih =>
    obtain ⟨_, _, hcase⟩ := processBody_ok_inv s s1 _ k k1 c1 hb
    rcases hcase with ⟨_, hs1, _, _⟩ | ⟨_, hs1, _, _⟩ <;>
    · rw [ih, hs1]

/-- What a returning call of `process` did: its loop made a big-step run from
`samplesRead = 0`, then every channel was converted and the time base
published with the time stamp advanced by `samplesNeeded`. -/
theorem process_returns_inv (budget : Nat) (s s' : FileReader) (b : Int) (calls : List Effect)
    (h : process budget s b = Outcome.returns (s', calls)) :
    ∃ t loopCalls, LoopRun (samplesNeeded s b) s 0 t loopCalls ∧
      s' = { t with timestamp := t.timestamp + samplesNeeded s b } ∧
      calls = loopCalls ++ convertChannels t (samplesNeeded s b)
        ++ [Effect.setTimestampAndSamples (t.timestamp + samplesNeeded s b)
              (samplesNeeded s b)] := by
  unfold process at h
  simp only at h
  cases hloop : processLoop (samplesNeeded s b) budget s 0 [] with
  | returns r =>
    obtain ⟨t, out⟩ := r
    rw [hloop] at h
    simp only at h
    split at h
    · exact absurd h (by simp)
    · obtain ⟨loopCalls, hout, hrun⟩ := LoopRun_of_processLoop _ _ _ _ _ _ _ hloop
      simp only [List.nil_append] at hout
      simp only [Outcome.returns.injEq, Prod.mk.injEq] at h
      exact ⟨t, loopCalls, hrun, h.1.symm, by rw [← h.2, hout]⟩
  | fault f => rw [hloop] at h; exact absurd h (by simp)
  | fuel => rw [hloop] at h; exact absurd h (by simp)

/-- A returning call of `process` changes `count`, `currentSample` and
`timestamp` only, and advances `timestamp` by `samplesNeeded`. -/
theorem process_frame (budget : Nat) (s s' : FileReader) (b : Int) (calls : List Effect)
    (h : process budget s b = Outcome.returns (s', calls)) :
    s' = { s with count := s'.count, currentSample := s'.currentSample,
                  timestamp := s.timestamp + samplesNeeded s b } := by
  obtain ⟨t, loopCalls, hrun, hs', _⟩ := process_returns_inv budget s s' b calls h
  have hf := LoopRun_frame _ _ _ _ _ hrun
  rw [hs']
  conv_lhs => rw [hf]

/-- Returning pulls advance the time stamp by the samples they need. -/
theorem pulls_timestamp (budget : Nat) (bs : List Int) :
    ∀ (s s' : FileReader) (calls : List Effect),
      pulls budget s bs = Outcome.returns (s', calls) →
      s'.timestamp = s.timestamp + (bs.map (samplesNeeded s)).sum := by
  induction bs with
  | nil =>
    intro s s' calls h
    simp only [pulls, Outcome.returns.injEq, Prod.mk.injEq] at h
    rw [← h.1]; simp
  | cons b bs ih =>
    intro s s' calls h
    simp only [pulls] at h
    cases hp : process budget s b with
    | returns r =>
      obtain ⟨s1, c1⟩ := r
      rw [hp] at h
      simp only at h
      cases hp2 : pulls budget s1 bs with
      | returns r2 =>
        obtain ⟨s2, c2⟩ := r2
        rw [hp2] at h
        simp only [Outcome.returns.injEq, Prod.mk.injEq] at h
        have hf := process_frame budget s s1 b c1 hp
        have e_in : s1.input = s.input := by rw [hf]
        have e_rate : s1.currentSampleRate = s.currentSampleRate := by rw [hf]
        have e_ts : s1.timestamp = s.timestamp + samplesNeeded s b := by rw [hf]
        have e_map : bs.map (samplesNeeded s1) = bs.map (samplesNeeded s) := by
          apply List.map_congr_left
          intro x _
          exact samplesNeeded_congr s s1 x e_in e_rate
        rw [← h.1, ih s1 s2 c2 hp2, e_map, e_ts]
        simp only [List.map_cons, List.sum_cons, add_assoc]
      | fault f => rw [hp2] at h; exact absurd h (by simp)
      | fuel => rw [hp2] at h; exact absurd h (by simp)
    | fault f => rw [hp] at h; exact absurd h (by simp)
    | fuel => rw [hp] at h; exact absurd h (by simp)

end FileReader

namespace FileReader

/-- Every read of one iteration has a positive count, provided the loop
condition `samplesRead < samplesNeeded` holds on entry. -/
theorem iterationCalls_reads_pos (s : FileReader) (N k : Int) (hk : k < N) :
    ∀ p ∈ readsOf (iterationCalls s N k), 0 < p.2 := by
  unfold iterationCalls
  simp only
  split
  · split
    · rename_i hpos
      intro p hp
      simp only [readsOf, List.singleton_append, List.mem_singleton] at hp
      rw [hp]
      exact hpos
    · intro p hp
      simp [readsOf] at hp
  · intro p hp
    simp only [readsOf, List.mem_singleton] at hp
    rw [hp]
    simp only
    omega

/-- A successful iteration made the calls of `iterationCalls`, then the marker
test. -/
theorem processBody_calls (s s1 : FileReader) (N k k1 : Int) (c1 : List Effect)
    (hb : processBody s N k = .ok (s1, k1, c1)) :
    c1 = iterationCalls s N k ++ markerOf s (N - k) := by
  obtain ⟨_, _, hcase⟩ := processBody_ok_inv s s1 N k k1 c1 hb
  rcases hcase with ⟨hfit, _, _, hc1⟩ | ⟨hcross, _, _, hc1⟩
  · rw [hc1]
    have hnot : ¬ s.currentSample + (N - k) > s.stopSample := not_lt.mpr hfit
    simp only [iterationCalls, hnot, if_false]
  · rw [hc1]
    simp only [iterationCalls, hcross, if_true]

/-- Every read of a returning run of the loop has a positive count. -/
theorem LoopRun_reads_pos (N : Int) (s : FileReader) (k : Int) (s' : FileReader)
    (calls : List Effect) (hrun : LoopRun N s k s' calls) :
    ∀ p ∈ readsOf calls, 0 < p.2 := by
  induction hrun with
  | done s k h => intro p hp; simp [readsOf] at hp
  | step s s1 s' k k1 c1 c' h hb hr ih =>
    intro p hp
    rw [readsOf_append, List.mem_append] at hp
    rcases hp with h1 | h2
    · rw [processBody_calls s s1 _ k k1 c1 hb, readsOf_append, readsOf_markerOf,
        List.append_nil] at h1
      exact iterationCalls_reads_pos s _ k h p h1
    · exact ih p h2

theorem readsOf_convertChannels (s : FileReader) (n : Int) :
    readsOf (convertChannels s n) = [] := by
  unfold convertChannels
  induction List.range s.currentNumChannels.toNat with
  | nil => rfl
  | cons x xs ih => simp only [List.map_cons, readsOf]; exact ih

/-- The iterations listed by `iterationsOf` all satisfy the loop condition. -/
theorem iterationsOf_lt (N : Int) :
    ∀ (n : Nat) (s : FileReader) (k : Int), ∀ p ∈ iterationsOf N n s k, p.2 < N := by
  intro n
  induction n with
  | zero => intro s k p hp; simp [iterationsOf] at hp
  | succ n ih =>
    intro s k p hp
    unfold iterationsOf at hp
    split at hp
    · rename_i hk
      rcases List.mem_cons.mp hp with rfl | hp
      · exact hk
      · cases hb : processBody s N k with
        | error f => rw [hb] at hp; simp at hp
        | ok r =>
          obtain ⟨s1, k1, c1⟩ := r
          rw [hb] at hp
          exact ih s1 k1 p hp
    · simp at hp

/-- On a playable state, with `samplesNeeded` at most the rate, every
iteration the loop enters has `0 <= samplesRead`, keeps the input and the
rate, and has the cursor between the bounds. -/
theorem iterationsOf_inv (N : Int) (s0 : FileReader) :
    ∀ (n : Nat) (s : FileReader) (k : Int),
      s.input = s0.input → s.currentSampleRate = s0.currentSampleRate →
      s.startSample ≤ s.currentSample → s.currentSample ≤ s.stopSample → 0 ≤ k →
      ∀ p ∈ iterationsOf N n s k,
        p.1.input = s0.input ∧ p.1.currentSampleRate = s0.currentSampleRate ∧ 0 ≤ p.2 := by
  intro n
  induction n with
  | zero => intro s k _ _ _ _ _ p hp; simp [iterationsOf] at hp
  | succ n ih =>
    intro s k hin hrate hlo hhi hk0 p hp
    unfold iterationsOf at hp
    split at hp
    · rcases List.mem_cons.mp hp with rfl | hp
      · exact ⟨hin, hrate, hk0⟩
      · cases hb : processBody s N k with
        | error f => rw [hb] at hp; simp at hp
        | ok r =>
          obtain ⟨s1, k1, c1⟩ := r
          rw [hb] at hp
          obtain ⟨_, _, hcase⟩ := processBody_ok_inv s s1 N k k1 c1 hb
          rcases hcase with ⟨hfit, hs1, hk1, _⟩ | ⟨hcross, hs1, hk1, _⟩
          · refine ih s1 k1 ?_ ?_ ?_ ?_ ?_ p hp
            · rw [hs1]; exact hin
            · rw [hs1]; exact hrate
            · rw [hs1]; simp only; omega
            · rw [hs1]; exact hfit
            · omega
          · refine ih s1 k1 ?_ ?_ ?_ ?_ ?_ p hp
            · rw [hs1]; exact hin
            · rw [hs1]; exact hrate
            · rw [hs1]
            · rw [hs1]; simp only; omega
            · omega
    · simp at hp

end FileReader

namespace FileReader

/-- The map after the inner loop of the constructor: a listed extension reads
as `i + 1`, any other as before. -/
theorem registerExtensions_apply (i : Int) (ext : String) :
    ∀ (tokens : List String) (m : String → Int),
      registerExtensions m i tokens ext
        = if (∃ token ∈ tokens, ext = token.toLower) then i + 1 else m ext := by
  intro tokens
  induction tokens with
  | nil => intro m; simp [registerExtensions]
  | cons t rest ih =>
    intro m
    rw [registerExtensions, ih]
    by_cases hrest : ∃ token ∈ rest, ext = token.toLower
    · have hall : ∃ token ∈ t :: rest, ext = token.toLower := by
        obtain ⟨tok, hm, he⟩ := hrest
        exact ⟨tok, List.mem_cons_of_mem _ hm, he⟩
      rw [if_pos hrest, if_pos hall]
    · rw [if_neg hrest]
      by_cases ht : ext = t.toLower
      · have hall : ∃ token ∈ t :: rest, ext = token.toLower := ⟨t, List.mem_cons_self _ _, ht⟩
        rw [if_pos ht, if_pos hall]
      · have hall : ¬ ∃ token ∈ t :: rest, ext = token.toLower := by
          rintro ⟨tok, hm, he⟩
          rcases List.mem_cons.mp hm with rfl | hm
          · exact ht he
          · exact hrest ⟨tok, hm, he⟩
        rw [if_neg ht, if_neg hall]

/-- The map after the outer loop of the constructor: either some backend lists
the extension, and the value is the index of the last one that does, plus one;
or none does and the value is as before. -/
theorem registerFileSources_apply (ext : String) :
    ∀ (sources : List FileSourceInfo) (m : String → Int) (i : Int),
      (∃ (j : Nat) (info : FileSourceInfo), sources[j]? = some info ∧ listsExtension info ext ∧
          (∀ (j' : Nat) (info' : FileSourceInfo), j < j' → sources[j']? = some info' →
            ¬ listsExtension info' ext) ∧
          registerFileSources m i sources ext = i + (j : Int) + 1) ∨
      ((∀ (j : Nat) (info : FileSourceInfo), sources[j]? = some info →
          ¬ listsExtension info ext) ∧
        registerFileSources m i sources ext = m ext) := by
  intro sources
  induction sources with
  | nil =>
    intro m i
    right
    exact ⟨fun j info h => by simp at h, rfl⟩
  | cons info rest ih =>
    intro m i
    rw [registerFileSources]
    rcases ih (registerExtensions m i (addTokens info.extensions)) (i + 1) with
      ⟨j, info1, hj, hl, hlast, hv⟩ | ⟨hnone, hv⟩
    · left
      refine ⟨j + 1, info1, by simpa using hj, hl, ?_, ?_⟩
      · intro j' info' hlt hj'
        cases j' with
        | zero => omega
        | succ j'' => exact hlast j'' info' (by omega) (by simpa using hj')
      · rw [hv]; push_cast; ring
    · rw [registerExtensions_apply] at hv
      by_cases hl : listsExtension info ext
      · left
        refine ⟨0, info, by simp, hl, ?_, ?_⟩
        · intro j' info' hlt hj'
          cases j' with
          | zero => omega
          | succ j'' => exact hnone j'' info' (by simpa using hj')
        · have hl' : ∃ token ∈ addTokens info.extensions, ext = token.toLower := hl
          rw [hv, if_pos hl']; simp
      · right
        refine ⟨?_, ?_⟩
        · intro j info' hj
          cases j with
          | zero =>
            simp only [List.getElem?_cons_zero, Option.some.injEq] at hj
            rw [← hj]; exact hl
          | succ j'' => exact hnone j'' info' (by simpa using hj)
        · have hl' : ¬ ∃ token ∈ addTokens info.extensions, ext = token.toLower := hl
          rw [hv, if_neg hl']

/-- An engine on an empty loop range (`currentSample = startSample =
stopSample`) whose pull needs a positive number of samples, at most the rate:
every iteration takes the wrap branch with nothing to read and leaves
`samplesRead` at 0, so the loop is still running after any number of
iterations. -/
theorem processLoop_empty_range (N : Int) (hN : 0 < N) :
    ∀ (n : Nat) (s : FileReader) (src : FileSource) (out : List Effect),
      s.input = some src → (N : ℚ) ≤ s.currentSampleRate →
      s.currentSample = s.startSample → s.stopSample = s.startSample →
      processLoop N n s 0 out = Outcome.fuel := by
  intro n
  induction n with
  | zero => intro s src out _ _ _ _; simp [processLoop, hN]
  | succ n ih =>
    intro s src out hin hsafe hcur hstop
    have hips : floatToInt (s.currentSampleRate / ((N - 0 : Int) : ℚ)) ≠ 0 := by
      rw [sub_zero]
      have := iterationsPerSecond_pos s.currentSampleRate N hN hsafe
      omega
    have hbody := processBody_wrap s src N 0 hin hips (by rw [hcur, hstop]; omega)
    rw [processLoop_succ_of_body N n s _ 0 _ out _ hN hbody]
    have hk : (0 : Int) + (s.stopSample - s.currentSample) = 0 := by rw [hcur, hstop]; ring
    rw [hk]
    exact ih _ src _ hin hsafe rfl hstop

end FileReader

theorem markersOf_append (xs ys : List Effect) :
    markersOf (xs ++ ys) = markersOf xs + markersOf ys := by
  induction xs with
  | nil => simp [markersOf]
  | cons x xs ih =>
    cases x
    all_goals first
      | exact ih
      | (show markersOf (xs ++ ys) + 1 = markersOf xs + 1 + markersOf ys
         rw [ih]
         omega)

/-- Floor division by a positive number steps by one exactly at its
multiples. -/
theorem ediv_succ (c m : Int) (hm : 0 < m) :
    (c + 1) / m = c / m + (if m ∣ c + 1 then 1 else 0) := by
  have hdiv : m * (c / m) + c % m = c := Int.ediv_add_emod c m
  have h0 : 0 ≤ c % m := Int.emod_nonneg c (ne_of_gt hm)
  have h1 : c % m < m := Int.emod_lt_of_pos c hm
  by_cases hr : c % m + 1 = m
  · have hmul : c + 1 = m * (c / m + 1) := by rw [mul_add, mul_one]; omega
    have hd : m ∣ c + 1 := ⟨c / m + 1, hmul⟩
    rw [if_pos hd]
    conv_lhs => rw [hmul]
    exact Int.mul_ediv_cancel_left _ (ne_of_gt hm)
  · have hu : (c + 1) / m = c / m ∧ (c + 1) % m = c % m + 1 := by
      rw [Int.ediv_emod_unique hm]
      refine ⟨by omega, by omega, by omega⟩
    have hd : ¬ m ∣ c + 1 := by
      intro hd
      have := Int.emod_eq_zero_of_dvd hd
      omega
    rw [if_neg hd, hu.1, add_zero]

namespace FileReader

theorem markersOf_convertChannels (s : FileReader) (n : Int) :
    markersOf (convertChannels s n) = 0 := by
  unfold convertChannels
  induction List.range s.currentNumChannels.toNat with
  | nil => rfl
  | cons x xs ih => simp only [List.map_cons, markersOf]; exact ih

/-- The marker of one iteration on a non-null input: one `addEvent` exactly
when `iterationsPerSecond` divides the incremented tick counter. -/
theorem markersOf_markerOf (s : FileReader) (src : FileSource) (r : Int)
    (hin : s.input = some src) :
    markersOf (markerOf s r)
      = if floatToInt (s.currentSampleRate / (r : ℚ)) ∣ s.count + 1 then 1 else 0 := by
  simp only [markerOf, getDefaultSampleRate, hin]
  by_cases hd : floatToInt (s.currentSampleRate / (r : ℚ)) ∣ s.count + 1
  · rw [if_pos hd, if_pos (Int.dvd_iff_tmod_eq_zero.mp hd)]
    rfl
  · rw [if_neg hd, if_neg (fun h => hd (Int.dvd_iff_tmod_eq_zero.mpr h))]
    rfl

/-- Markers of pulls that stay before the stop bound: over `j` pulls of one
block size the tick counter goes from `count` to `count + j`, and a marker is
emitted at every multiple of `iterationsPerSecond = int (rate / samplesNeeded)`
it passes. -/
theorem pulls_advance_markers (budget : Nat) (b : Int) (j : Nat) :
    ∀ (s : FileReader) (src : FileSource), s.input = some src → 0 < samplesNeeded s b →
      (samplesNeeded s b : ℚ) ≤ s.currentSampleRate →
      s.currentSample + samplesNeeded s b * j ≤ s.stopSample →
      ∃ s' calls, pulls (budget + 1) s (List.replicate j b) = Outcome.returns (s', calls) ∧
        (markersOf calls : Int)
          = (s.count + j) / floatToInt (s.currentSampleRate / (samplesNeeded s b : ℚ))
            - s.count / floatToInt (s.currentSampleRate / (samplesNeeded s b : ℚ)) := by
  induction j with
  | zero =>
    intro s src _ _ _ _
    exact ⟨s, [], rfl, by simp [markersOf]⟩
  | succ j ih =>
    intro s src hin hpos hsafe hfit
    have hfit1 : s.currentSample + samplesNeeded s b ≤ s.stopSample := by
      have : 0 ≤ samplesNeeded s b * (j : Int) :=
        mul_nonneg (le_of_lt hpos) (Int.ofNat_nonneg j)
      push_cast at hfit
      nlinarith
    have hp := process_advance budget s src b hin hpos hsafe hfit1
    have e_need : samplesNeeded
        { s with count := s.count + 1, currentSample := s.currentSample + samplesNeeded s b,
                 timestamp := s.timestamp + samplesNeeded s b } b = samplesNeeded s b :=
      samplesNeeded_congr s _ b rfl rfl
    obtain ⟨s2, c2, hp2, hm2⟩ := ih
      { s with count := s.count + 1, currentSample := s.currentSample + samplesNeeded s b,
               timestamp := s.timestamp + samplesNeeded s b } src hin
      (by rw [e_need]; exact hpos) (by rw [e_need]; exact hsafe)
      (by rw [e_need]; push_cast at hfit ⊢; linarith)
    rw [e_need] at hm2
    simp only at hm2
    have hips := iterationsPerSecond_pos s.currentSampleRate (samplesNeeded s b) hpos hsafe
    refine ⟨s2, ([Effect.readData 0 (samplesNeeded s b)] ++ markerOf s (samplesNeeded s b)
        ++ convertChannels s (samplesNeeded s b)
        ++ [Effect.setTimestampAndSamples (s.timestamp + samplesNeeded s b)
              (samplesNeeded s b)]) ++ c2, ?_, ?_⟩
    · simp only [List.replicate_succ, pulls, hp, hp2]
    · have hr : markersOf [Effect.readData 0 (samplesNeeded s b)] = 0 := rfl
      have ht : markersOf [Effect.setTimestampAndSamples (s.timestamp + samplesNeeded s b)
          (samplesNeeded s b)] = 0 := rfl
      rw [markersOf_append, markersOf_append, markersOf_append, markersOf_append, hr, ht,
        markersOf_convertChannels, markersOf_markerOf s src _ hin]
      push_cast
      rw [hm2, ediv_succ s.count _ (by omega)]
      have e : s.count + 1 + (j : Int) = s.count + ((j : Int) + 1) := by ring
      rw [e]
      split
      · ring
      · ring

end FileReader
namespace FileReader

/-- The marker part of an iteration holds one `addEvent` exactly when the
marker test of the iteration holds. -/
theorem markersOf_markerOf_due (s : FileReader) (N k : Int) :
    markersOf (markerOf s (N - k)) = if markerDue s N k then 1 else 0 := by
  unfold markerOf markerDue
  simp only
  by_cases h : Int.tmod (s.count + 1)
      (floatToInt (getDefaultSampleRate s / ((N - k : Int) : ℚ))) = 0
  · rw [if_pos h, if_pos (by simpa using h)]
    rfl
  · rw [if_neg h, if_neg (by simpa using h)]
    rfl

/-- One iteration increments the tick counter and emits one marker exactly
when its marker test holds. -/
theorem processBody_marker (s s1 : FileReader) (N k k1 : Int) (c1 : List Effect)
    (hb : processBody s N k = .ok (s1, k1, c1)) :
    s1.count = s.count + 1 ∧ markersOf c1 = if markerDue s N k then 1 else 0 := by
  obtain ⟨_, _, hcase⟩ := processBody_ok_inv s s1 N k k1 c1 hb
  rcases hcase with ⟨_, hs1, _, hc1⟩ | ⟨_, hs1, _, hc1⟩
  · refine ⟨by rw [hs1], ?_⟩
    have hr : markersOf [Effect.readData k (N - k)] = 0 := rfl
    rw [hc1, markersOf_append, markersOf_markerOf_due, hr, zero_add]
  · refine ⟨by rw [hs1], ?_⟩
    have hr : markersOf (if s.stopSample - s.currentSample > 0
        then [Effect.readData k (s.stopSample - s.currentSample)] else []) = 0 := by
      split <;> rfl
    have hk : markersOf [Effect.seekTo s.startSample] = 0 := rfl
    rw [hc1, markersOf_append, markersOf_append, markersOf_markerOf_due, hr, hk, zero_add,
      zero_add]

/-- A returning run of the loop: the markers it adds are the entered
iterations whose marker test holds, and the tick counter grows by the number
of entered iterations. -/
theorem processLoop_markers (N : Int) :
    ∀ (n : Nat) (s : FileReader) (k : Int) (out : List Effect) (s' : FileReader)
      (calls : List Effect), processLoop N n s k out = Outcome.returns (s', calls) →
      markersOf calls = markersOf out
        + ((iterationsOf N n s k).filter (fun p => markerDue p.1 N p.2)).length ∧
      s'.count = s.count + ((iterationsOf N n s k).length : Int) := by
  intro n
  induction n with
  | zero =>
    intro s k out s' calls h
    unfold processLoop at h
    split at h
    · exact absurd h (by simp)
    · simp only [Outcome.returns.injEq, Prod.mk.injEq] at h
      rw [← h.1, ← h.2]
      simp [iterationsOf]
  | succ n ih =>
    intro s k out s' calls h
    unfold processLoop at h
    unfold iterationsOf
    split at h
    · rename_i hk
      rw [if_pos hk]
      cases hb : processBody s N k with
      | error f => rw [hb] at h; exact absurd h (by simp)
      | ok r =>
        obtain ⟨s1, k1, c1⟩ := r
        rw [hb] at h
        simp only at h
        obtain ⟨hm, hc⟩ := ih s1 k1 (out ++ c1) s' calls h
        obtain ⟨hc1, hm1⟩ := processBody_marker s s1 N k k1 c1 hb
        simp only [List.filter_cons, List.length_cons]
        rw [hm, hc, hc1, markersOf_append, hm1]
        constructor
        · cases hd : markerDue s N k
          · simp
          · simp only [if_true, List.length_cons]
            omega
        · push_cast
          ring
    · rename_i hk
      rw [if_neg hk]
      simp only [Outcome.returns.injEq, Prod.mk.injEq] at h
      rw [← h.1, ← h.2]
      simp

/-- A returning call of `process`: its markers are the entered iterations
whose marker test holds, and the tick counter grows by the number of entered
iterations. -/
theorem process_markers (budget : Nat) (s s' : FileReader) (b : Int) (calls : List Effect)
    (h : process budget s b = Outcome.returns (s', calls)) :
    markersOf calls
      = ((iterationsOf (samplesNeeded s b) budget s 0).filter
          (fun p => markerDue p.1 (samplesNeeded s b) p.2)).length ∧
    s'.count = s.count + ((iterationsOf (samplesNeeded s b) budget s 0).length : Int) := by
  unfold process at h
  simp only at h
  cases hloop : processLoop (samplesNeeded s b) budget s 0 [] with
  | returns r =>
    obtain ⟨t, out⟩ := r
    rw [hloop] at h
    simp only at h
    split at h
    · exact absurd h (by simp)
    · simp only [Outcome.returns.injEq, Prod.mk.injEq] at h
      obtain ⟨hm, hc⟩ := processLoop_markers _ _ _ _ _ _ _ hloop
      have ht : markersOf [Effect.setTimestampAndSamples (t.timestamp + samplesNeeded s b)
          (samplesNeeded s b)] = 0 := rfl
      refine ⟨?_, by rw [← h.1]; exact hc⟩
      rw [← h.2, markersOf_append, markersOf_append, markersOf_convertChannels, ht, hm]
      simp [markersOf]
  | fault f => rw [hloop] at h; exact absurd h (by simp)
  | fuel => rw [hloop] at h; exact absurd h (by simp)

/-- The tick counter at the start of the iterations of one run of the loop:
it goes up by one from iteration to iteration. -/
theorem iterationsOf_counts (N : Int) :
    ∀ (n : Nat) (s : FileReader) (k : Int),
      (iterationsOf N n s k).map (fun p => p.1.count)
        = (List.range (iterationsOf N n s k).length).map (fun (i : Nat) => s.count + (i : Int)) := by
  intro n
  induction n with
  | zero => intro s k; simp [iterationsOf]
  | succ n ih =>
    intro s k
    unfold iterationsOf
    split
    · cases hb : processBody s N k with
      | error f => simp [List.range_succ]
      | ok r =>
        obtain ⟨s1, k1, c1⟩ := r
        obtain ⟨hc1, _⟩ := processBody_marker s s1 N k k1 c1 hb
        simp only [List.map_cons, List.length_cons]
        rw [ih s1 k1, List.range_succ_eq_map, List.map_cons, List.map_map, hc1]
        congr 1
        · simp
        · apply List.map_congr_left
          intro i _
          simp only [Function.comp]
          push_cast
          ring
    · simp

/-- Returning pulls: the markers are the entered iterations whose marker test
holds, the tick counter grows by the number of entered iterations, and it goes
up by one from iteration to iteration. -/
theorem pulls_markers (budget : Nat) (bs : List Int) :
    ∀ (s s' : FileReader) (calls : List Effect),
      pulls budget s bs = Outcome.returns (s', calls) →
      markersOf calls = ((pullIterations budget s bs).filter
        (fun it => markerDue it.1 it.2.1 it.2.2)).length ∧
      s'.count = s.count + ((pullIterations budget s bs).length : Int) ∧
      (pullIterations budget s bs).map (fun it => it.1.count)
        = (List.range (pullIterations budget s bs).length).map
            (fun (i : Nat) => s.count + (i : Int)) := by
  induction bs with
  | nil =>
    intro s s' calls h
    simp only [pulls, Outcome.returns.injEq, Prod.mk.injEq] at h
    rw [← h.1, ← h.2]
    simp [pullIterations, markersOf]
  | cons b bs ih =>
    intro s s' calls h
    simp only [pulls] at h
    cases hp : process budget s b with
    | returns r =>
      obtain ⟨s1, c1⟩ := r
      rw [hp] at h
      simp only at h
      cases hp2 : pulls budget s1 bs with
      | returns r2 =>
        obtain ⟨s2, c2⟩ := r2
        rw [hp2] at h
        simp only [Outcome.returns.injEq, Prod.mk.injEq] at h
        obtain ⟨hm1, hc1⟩ := process_markers budget s s1 b c1 hp
        obtain ⟨hm2, hc2, hk2⟩ := ih s1 s2 c2 hp2
        have hiter : pullIterations budget s (b :: bs)
            = (iterationsOf (samplesNeeded s b) budget s 0).map
                (fun p => (p.1, samplesNeeded s b, p.2)) ++ pullIterations budget s1 bs := by
          simp only [pullIterations, hp]
        rw [hiter, ← h.1, ← h.2]
        refine ⟨?_, ?_, ?_⟩
        · rw [markersOf_append, List.filter_append, List.length_append, List.filter_map,
            List.length_map, hm1, hm2]
          rfl
        · rw [hc2, hc1, List.length_append, List.length_map]
          push_cast
          ring
        · rw [List.map_append, List.map_map, List.length_append, List.length_map,
            List.range_add, List.map_append, List.map_map, hk2, hc1]
          congr 1
          · exact iterationsOf_counts _ budget s 0
          · apply List.map_congr_left
            intro i _
            simp only [Function.comp]
            push_cast
            ring
      | fault f => rw [hp2] at h; exact absurd h (by simp)
      | fuel => rw [hp2] at h; exact absurd h (by simp)
    | fault f => rw [hp] at h; exact absurd h (by simp)
    | fuel => rw [hp] at h; exact absurd h (by simp)

/-- Every returning pull that needs at least one sample enters the loop at
least once: over `j` such pulls the tick counter grows by at least `j`. -/
theorem pulls_count_ge (budget : Nat) (b : Int) (j : Nat) :
    ∀ (s s' : FileReader) (calls : List Effect), 0 < samplesNeeded s b → 1 ≤ budget →
      pulls budget s (List.replicate j b) = Outcome.returns (s', calls) →
      s.count + (j : Int) ≤ s'.count := by
  induction j with
  | zero =>
    intro s s' calls _ _ h
    simp only [List.replicate, pulls, Outcome.returns.injEq, Prod.mk.injEq] at h
    rw [← h.1]
    simp
  | succ j ih =>
    intro s s' calls hpos hbud h
    simp only [List.replicate_succ, pulls] at h
    cases hp : process budget s b with
    | returns r =>
      obtain ⟨s1, c1⟩ := r
      rw [hp] at h
      simp only at h
      cases hp2 : pulls budget s1 (List.replicate j b) with
      | returns r2 =>
        obtain ⟨s2, c2⟩ := r2
        rw [hp2] at h
        simp only [Outcome.returns.injEq, Prod.mk.injEq] at h
        obtain ⟨_, hc1⟩ := process_markers budget s s1 b c1 hp
        have hf := process_frame budget s s1 b c1 hp
        have e_in : s1.input = s.input := by rw [hf]
        have e_rate : s1.currentSampleRate = s.currentSampleRate := by rw [hf]
        have e_need : samplesNeeded s1 b = samplesNeeded s b :=
          samplesNeeded_congr s s1 b e_in e_rate
        have h2 := ih s1 s2 c2 (by rw [e_need]; exact hpos) hbud hp2
        have hlen : 1 ≤ (iterationsOf (samplesNeeded s b) budget s 0).length := by
          obtain ⟨n, rfl⟩ : ∃ n, budget = n + 1 := ⟨budget - 1, by omega⟩
          unfold iterationsOf
          rw [if_pos hpos]
          simp
        rw [← h.1]
        push_cast
        have hlen' : (1 : Int) ≤ ((iterationsOf (samplesNeeded s b) budget s 0).length : Int) := by
          exact_mod_cast hlen
        omega
      | fault f => rw [hp2] at h; exact absurd h (by simp)
      | fuel => rw [hp2] at h; exact absurd h (by simp)
    | fault f => rw [hp] at h; exact absurd h (by simp)
    | fuel => rw [hp] at h; exact absurd h (by simp)

end FileReader

namespace FileReader

/-- Arithmetic of the marker cadence for `j` iterations of `N` samples at a
rate of at least `N`: with `ips = int (rate / N)`, the count `floor (j / ips)`
is never below `floor (N * j / rate)` and equals it when `ips * N = rate`. -/
theorem cadence_arith (rate : ℚ) (N : Int) (j : Nat) (hpos : 0 < N) (hsafe : (N : ℚ) ≤ rate) :
    floatToInt (rate / (N : ℚ)) = ⌊rate / (N : ℚ)⌋ ∧
    ⌊((N * j : Int) : ℚ) / rate⌋ ≤ (j : Int) / floatToInt (rate / (N : ℚ)) ∧
    (((floatToInt (rate / (N : ℚ)) * N : Int) : ℚ) = rate →
      (j : Int) / floatToInt (rate / (N : ℚ)) = ⌊((N * j : Int) : ℚ) / rate⌋) := by
  have hNq : (0 : ℚ) < (N : ℚ) := by exact_mod_cast hpos
  have hrate : 0 < rate := lt_of_lt_of_le hNq hsafe
  have hipsfloor : floatToInt (rate / (N : ℚ)) = ⌊rate / (N : ℚ)⌋ :=
    floatToInt_eq_floor (le_of_lt (div_pos hrate hNq))
  have hips := iterationsPerSecond_pos rate N hpos hsafe
  generalize floatToInt (rate / (N : ℚ)) = ips at hipsfloor hips ⊢
  have hipsq : (0 : ℚ) < (ips : ℚ) := by exact_mod_cast (by omega : 0 < ips)
  have hle : (ips : ℚ) * (N : ℚ) ≤ rate := by
    have : (ips : ℚ) ≤ rate / (N : ℚ) := by
      rw [hipsfloor]; exact Int.floor_le _
    rwa [le_div_iff₀ hNq] at this
  have hjq : (0 : ℚ) ≤ (j : ℚ) := Nat.cast_nonneg j
  have hx0 : (0 : ℚ) ≤ ((N * j : Int) : ℚ) / rate := by
    apply div_nonneg _ (le_of_lt hrate)
    push_cast
    positivity
  have hlower : ⌊((N * j : Int) : ℚ) / rate⌋ ≤ (j : Int) / ips := by
    rw [Int.le_ediv_iff_mul_le (by omega)]
    have hfl : ((⌊((N * j : Int) : ℚ) / rate⌋ : Int) : ℚ)
        ≤ ((N * j : Int) : ℚ) / rate := Int.floor_le _
    have hq : ((⌊((N * j : Int) : ℚ) / rate⌋ : Int) : ℚ) * (ips : ℚ) ≤ (j : ℚ) := by
      calc ((⌊((N * j : Int) : ℚ) / rate⌋ : Int) : ℚ) * (ips : ℚ)
          ≤ (((N * j : Int) : ℚ) / rate) * (ips : ℚ) :=
            mul_le_mul_of_nonneg_right hfl (le_of_lt hipsq)
        _ = (j : ℚ) * ((ips : ℚ) * (N : ℚ)) / rate := by push_cast; ring
        _ ≤ (j : ℚ) * rate / rate := by
            apply div_le_div_of_nonneg_right _ (le_of_lt hrate)
            exact mul_le_mul_of_nonneg_left hle hjq
        _ = (j : ℚ) := by field_simp
    exact_mod_cast hq
  refine ⟨hipsfloor, hlower, ?_⟩
  intro hexact
  apply le_antisymm _ hlower
  rw [Int.le_floor]
  have hmul : ((j : Int) / ips) * ips ≤ (j : Int) := Int.ediv_mul_le _ (by omega)
  have hmulq : (((j : Int) / ips : Int) : ℚ) * (ips : ℚ) ≤ (j : ℚ) := by exact_mod_cast hmul
  rw [le_div_iff₀ hrate, ← hexact]
  push_cast
  nlinarith [hmulq, hNq]

end FileReader

namespace FileReader

/-- The modulus is safe whenever the pull needs at most `sourceRate` samples:
on a state with the cursor between the bounds, in every iteration the loop
enters the remaining count `samplesToRead` satisfies
`0 < samplesToRead <= sourceRate`, so `iterationsPerSecond >= 1` and the
iteration does not end in the modulus by zero. -/
theorem iterations_modulus_safe (budget : Nat) (s : FileReader) (src : FileSource) (b : Int)
    (hin : s.input = some src) (hlo : s.startSample ≤ s.currentSample)
    (hhi : s.currentSample ≤ s.stopSample)
    (hsafe : (samplesNeeded s b : ℚ) ≤ s.currentSampleRate) :
    ∀ p ∈ iterationsOf (samplesNeeded s b) budget s 0,
      0 < samplesNeeded s b - p.2 ∧
      ((samplesNeeded s b - p.2 : Int) : ℚ) ≤ getDefaultSampleRate p.1 ∧
      getDefaultSampleRate p.1 = s.currentSampleRate ∧
      1 ≤ floatToInt (getDefaultSampleRate p.1 / ((samplesNeeded s b - p.2 : Int) : ℚ)) ∧
      (∃ r, processBody p.1 (samplesNeeded s b) p.2 = .ok r) := by
  intro p hp
  have hk := iterationsOf_lt _ budget s 0 p hp
  obtain ⟨hpin, hprate, hk0⟩ := iterationsOf_inv _ s budget s 0 rfl rfl hlo hhi le_rfl p hp
  have hpdr : getDefaultSampleRate p.1 = s.currentSampleRate := by
    simp only [getDefaultSampleRate, hpin, hin, hprate]
  have hle : ((samplesNeeded s b - p.2 : Int) : ℚ) ≤ s.currentSampleRate := by
    have : ((samplesNeeded s b - p.2 : Int) : ℚ) ≤ (samplesNeeded s b : ℚ) := by
      exact_mod_cast (by omega : samplesNeeded s b - p.2 ≤ samplesNeeded s b)
    linarith
  have hips := iterationsPerSecond_pos s.currentSampleRate (samplesNeeded s b - p.2)
    (by omega) hle
  refine ⟨by omega, by rw [hpdr]; exact hle, hpdr, by rw [hpdr]; exact hips, ?_⟩
  have hne : floatToInt (p.1.currentSampleRate / ((samplesNeeded s b - p.2 : Int) : ℚ)) ≠ 0 := by
    rw [hprate]; omega
  by_cases hfit : p.1.currentSample + (samplesNeeded s b - p.2) ≤ p.1.stopSample
  · exact ⟨_, processBody_advance p.1 src _ _ (by rw [hpin, hin]) hne hfit⟩
  · exact ⟨_, processBody_wrap p.1 src _ _ (by rw [hpin, hin]) hne (not_le.mp hfit)⟩

end FileReader

/-! ## Claims -/

namespace FileReader

/-- C2, the code at the failing input: on the example engine (30000 Hz,
cursor 0 in the range 0 .. 300000) a block of 100000 frames needs 68027
samples, more than the sample rate; the first iteration computes
`iterationsPerSecond = 0` and reaches `count % 0`, so under every budget the
call does not return and the read-ahead region is not filled. -/
theorem C2_process_large_block_faults :
    demoEngine.startSample ≤ demoEngine.currentSample ∧
    demoEngine.currentSample ≤ demoEngine.stopSample ∧
    demoEngine.startSample < demoEngine.stopSample ∧
    0 < demoEngine.currentSampleRate ∧
    samplesNeeded demoEngine 100000 = 68027 ∧
    (∀ budget : Nat, (process budget demoEngine 100000).result? = none) ∧
    (∀ budget : Nat, (process (budget + 1) demoEngine 100000).result? = none ∧
      process (budget + 1) demoEngine 100000 = Outcome.fault Fault.divisionByZero) := by
  have h1 : ∀ budget : Nat,
      process (budget + 1) demoEngine 100000 = Outcome.fault Fault.divisionByZero := by
    intro budget
    with_unfolding_all rfl
  refine ⟨by with_unfolding_all decide, by with_unfolding_all decide,
    by with_unfolding_all decide, by with_unfolding_all decide, by with_unfolding_all rfl, ?_, ?_⟩
  · intro budget
    cases budget with
    | zero => with_unfolding_all rfl
    | succ n => rw [h1 n]; rfl
  · intro budget
    rw [h1 budget]
    exact ⟨rfl, rfl⟩

/-- C3 (looping, amended): from `currentSample = startSample`, with loop
length `L = stopSample - startSample > 0`, after a sequence of pulls of
non-negative block sizes, each needing at most `sampleRate` samples, that
consume more than `L` samples in total, every pull returns and the cursor is
`startSample + ((consumed - L) mod L)` when `L` does not divide `consumed`,
and `stopSample` when it does (the wrap is left to the next pull). -/
theorem C3_looping_amended (budget : Nat) (s : FileReader) (src : FileSource) (bs : List Int)
    (hin : s.input = some src) (hrate : 0 < s.currentSampleRate)
    (hL : s.startSample < s.stopSample) (hcur : s.currentSample = s.startSample)
    (hall : ∀ b ∈ bs, 0 ≤ b ∧ (samplesNeeded s b : ℚ) ≤ s.currentSampleRate ∧
      2 * samplesNeeded s b + 1 ≤ (budget : Int))
    (hexceeds : s.stopSample - s.startSample < (bs.map (samplesNeeded s)).sum) :
    ∃ s' calls, pulls budget s bs = Outcome.returns (s', calls) ∧
      ((bs.map (samplesNeeded s)).sum % (s.stopSample - s.startSample) ≠ 0 →
        s'.currentSample = s.startSample +
          ((bs.map (samplesNeeded s)).sum - (s.stopSample - s.startSample))
            % (s.stopSample - s.startSample)) ∧
      ((bs.map (samplesNeeded s)).sum % (s.stopSample - s.startSample) = 0 →
        s'.currentSample = s.stopSample) := by
  have hdr : 0 ≤ getDefaultSampleRate s := by
    simp only [getDefaultSampleRate, hin]
    exact le_of_lt hrate
  obtain ⟨s', calls, hp, _, hlo, hhi, hpos, _, hmod⟩ :=
    pulls_spec budget bs s src hin hL (le_of_eq hcur.symm) (by rw [hcur]; exact le_of_lt hL)
      (fun b hb => ⟨samplesNeeded_nonneg s b (hall b hb).1 hdr, (hall b hb).2⟩)
  have hgt := hpos (by omega)
  rw [hcur, sub_self, zero_add] at hmod
  obtain ⟨hA, hB⟩ := offset_of_congr (s.stopSample - s.startSample)
    (s'.currentSample - s.startSample) ((bs.map (samplesNeeded s)).sum)
    (by omega) (by omega) hmod
  refine ⟨s', calls, hp, ?_, ?_⟩
  · intro hc
    rw [← hA hc]
    ring
  · intro hc
    have := hB hc
    omega

theorem C3_looping_amended_witness :
    ∃ s' calls, pulls 15 shortEngine [7, 7] = Outcome.returns (s', calls) ∧
      (([(7 : Int), 7].map (samplesNeeded shortEngine)).sum
          % (shortEngine.stopSample - shortEngine.startSample) ≠ 0 →
        s'.currentSample = shortEngine.startSample +
          (([(7 : Int), 7].map (samplesNeeded shortEngine)).sum
              - (shortEngine.stopSample - shortEngine.startSample))
            % (shortEngine.stopSample - shortEngine.startSample)) ∧
      (([(7 : Int), 7].map (samplesNeeded shortEngine)).sum
          % (shortEngine.stopSample - shortEngine.startSample) = 0 →
        s'.currentSample = shortEngine.stopSample) :=
  C3_looping_amended 15 shortEngine (demoSource.setActiveRecord 1) [7, 7]
    (by with_unfolding_all rfl) (by with_unfolding_all decide) (by with_unfolding_all decide)
    (by with_unfolding_all decide) (by with_unfolding_all decide) (by with_unfolding_all decide)

/-- C3, refuted as stated: on the 10-sample recording at 44100 Hz (loop
0 .. 10, cursor on `startSample`), four pulls of 5 frames consume 20 > 10
samples and leave the cursor on 10, whereas `startSample + ((20 - 10) mod 10)`
is 0. -/
theorem C3_looping_counterexample :
    ∃ s' calls, pulls 3 shortEngine [5, 5, 5, 5] = Outcome.returns (s', calls) ∧
      shortEngine.currentSample = shortEngine.startSample ∧
      shortEngine.stopSample - shortEngine.startSample = 10 ∧
      ([(5 : Int), 5, 5, 5].map (samplesNeeded shortEngine)).sum = 20 ∧
      s'.currentSample = 10 ∧
      s'.currentSample ≠ shortEngine.startSample +
        (([(5 : Int), 5, 5, 5].map (samplesNeeded shortEngine)).sum
            - (shortEngine.stopSample - shortEngine.startSample))
          % (shortEngine.stopSample - shortEngine.startSample) := by
  with_unfolding_all exact ⟨_, _, rfl, by decide, by decide, by decide, by decide, by decide⟩

/-- C4 (end-to-end scenario): on a backend whose selected recording has rate
30000, 300000 samples and 4 channels, selection gives `stopSample = 300000`;
the stop time 5000 ms gives `stopSample = 150000`; a block of 1024 frames
needs 696 samples; the first `j <= 215` pulls return without any seek and
leave the cursor on `696 * j` (149640 after 215, the last count below 150000);
the 216th pull reads 360 samples up to sample 150000, seeks to `startSample`
(0), reads the remaining 336 samples at offset 360, and leaves the cursor on
336. -/
theorem C4_end_to_end (s : FileReader) (src : FileSource) (index : Int) (budget : Nat)
    (hin : s.input = some src) (hrate : src.sampleRate index = 30000)
    (hn : src.numSamples index = 300000) (hc : src.numChannels index = 4)
    (hbudget : 2 ≤ budget) :
    ∃ s1 s2, setActiveRecording s index = some s1 ∧
      s1.currentSampleRate = 30000 ∧ s1.currentNumSamples = 300000 ∧
      s1.currentNumChannels = 4 ∧ s1.stopSample = 300000 ∧
      setParameter s1 2 5000 = some s2 ∧
      s2.stopSample = 150000 ∧ s2.startSample = 0 ∧ s2.currentSample = 0 ∧
      samplesNeeded s2 1024 = 696 ∧
      696 * 215 < (150000 : Int) ∧ (150000 : Int) ≤ 696 * 216 ∧
      (∀ j : Nat, j ≤ 215 → ∃ s3 calls3,
        pulls budget s2 (List.replicate j 1024) = Outcome.returns (s3, calls3) ∧
        seeksOf calls3 = [] ∧ s3.currentSample = 696 * (j : Int)) ∧
      (∃ s3 calls3 s4 calls4,
        pulls budget s2 (List.replicate 215 1024) = Outcome.returns (s3, calls3) ∧
        s3.currentSample = 149640 ∧
        process budget s3 1024 = Outcome.returns (s4, calls4) ∧
        backendCalls calls4
          = [Effect.readData 0 360, Effect.seekTo 0, Effect.readData 360 336] ∧
        s4.currentSample = 336 ∧ s4.startSample = 0 ∧ s4.stopSample = 150000) := by
  obtain ⟨n, rfl⟩ : ∃ n, budget = n + 2 := ⟨budget - 2, by omega⟩
  have hk : floatToUInt 5000 = some 5000 := by with_unfolding_all rfl
  have hms : floatToInt64 (f32 (f32 ((30000 : ℚ) * f32 ((5000 : Nat) : ℚ)) / 1000))
      = some 150000 := by
    with_unfolding_all rfl
  have hm : millisecondsToSamples (setActiveRecordingOn s src index) 5000 = some 150000 := by
    unfold millisecondsToSamples
    have e1rate : (setActiveRecordingOn s src index).currentSampleRate = 30000 := hrate
    rw [e1rate]
    exact hms
  have hs2 : setParameter (setActiveRecordingOn s src index) 2 5000
      = some { setActiveRecordingOn s src index with
                stopSample := 150000
                currentSample := (setActiveRecordingOn s src index).startSample } :=
    setParameter_stop_eq _ 5000 5000 150000 hk hm
  obtain ⟨hneed, hadv, hwrap⟩ := scenario_pulls n
    { setActiveRecordingOn s src index with
        stopSample := 150000
        currentSample := (setActiveRecordingOn s src index).startSample }
    (src.setActiveRecord index) rfl hrate rfl rfl rfl
  exact ⟨_, _, by simp only [setActiveRecording, hin], hrate, hn, hc, hn, hs2, rfl, rfl, rfl,
    hneed, by norm_num, by norm_num, hadv, hwrap⟩

theorem C4_end_to_end_witness :
    ∃ s1 s2, setActiveRecording demoEngine 0 = some s1 ∧
      s1.currentSampleRate = 30000 ∧ s1.currentNumSamples = 300000 ∧
      s1.currentNumChannels = 4 ∧ s1.stopSample = 300000 ∧
      setParameter s1 2 5000 = some s2 ∧
      s2.stopSample = 150000 ∧ s2.startSample = 0 ∧ s2.currentSample = 0 ∧
      samplesNeeded s2 1024 = 696 ∧
      696 * 215 < (150000 : Int) ∧ (150000 : Int) ≤ 696 * 216 ∧
      (∀ j : Nat, j ≤ 215 → ∃ s3 calls3,
        pulls 2 s2 (List.replicate j 1024) = Outcome.returns (s3, calls3) ∧
        seeksOf calls3 = [] ∧ s3.currentSample = 696 * (j : Int)) ∧
      (∃ s3 calls3 s4 calls4,
        pulls 2 s2 (List.replicate 215 1024) = Outcome.returns (s3, calls3) ∧
        s3.currentSample = 149640 ∧
        process 2 s3 1024 = Outcome.returns (s4, calls4) ∧
        backendCalls calls4
          = [Effect.readData 0 360, Effect.seekTo 0, Effect.readData 360 336] ∧
        s4.currentSample = 336 ∧ s4.startSample = 0 ∧ s4.stopSample = 150000) :=
  C4_end_to_end demoEngine demoOpened 0 2 (by with_unfolding_all rfl)
    (by with_unfolding_all rfl) (by with_unfolding_all rfl) (by with_unfolding_all rfl)
    (by decide)

/-- C5 (recording selection): on an engine with a backend, `setActiveRecording
index` returns; the backend's active record is `index`, the channel count,
sample count and sample rate are the values the backend reports for that
record, and the playback state is `currentSample = 0`, `startSample = 0`,
`stopSample = totalSamples`, whatever it was before. -/
theorem C5_setActiveRecording_resets (s : FileReader) (src : FileSource) (index : Int)
    (hin : s.input = some src) :
    ∃ s', setActiveRecording s index = some s' ∧
      s'.input = some (src.setActiveRecord index) ∧
      (src.setActiveRecord index).activeRecord = index ∧
      s'.currentNumChannels = (src.setActiveRecord index).getActiveNumChannels ∧
      s'.currentNumSamples = (src.setActiveRecord index).getActiveNumSamples ∧
      s'.currentSampleRate = (src.setActiveRecord index).getActiveSampleRate ∧
      s'.currentNumChannels = src.numChannels index ∧
      s'.currentNumSamples = src.numSamples index ∧
      s'.currentSampleRate = src.sampleRate index ∧
      s'.currentSample = 0 ∧ s'.startSample = 0 ∧ s'.stopSample = s'.currentNumSamples := by
  refine ⟨setActiveRecordingOn s src index, ?_, rfl, rfl, rfl, rfl, rfl, rfl, rfl, rfl, rfl, rfl, rfl⟩
  simp [setActiveRecording, hin]

theorem C5_setActiveRecording_resets_witness :
    ∃ s', setActiveRecording demoEngine 1 = some s' ∧
      s'.input = some (demoOpened.setActiveRecord 1) ∧
      (demoOpened.setActiveRecord 1).activeRecord = 1 ∧
      s'.currentNumChannels = (demoOpened.setActiveRecord 1).getActiveNumChannels ∧
      s'.currentNumSamples = (demoOpened.setActiveRecord 1).getActiveNumSamples ∧
      s'.currentSampleRate = (demoOpened.setActiveRecord 1).getActiveSampleRate ∧
      s'.currentNumChannels = demoOpened.numChannels 1 ∧
      s'.currentNumSamples = demoOpened.numSamples 1 ∧
      s'.currentSampleRate = demoOpened.sampleRate 1 ∧
      s'.currentSample = 0 ∧ s'.startSample = 0 ∧ s'.stopSample = s'.currentNumSamples :=
  C5_setActiveRecording_resets demoEngine demoOpened 1 (by with_unfolding_all rfl)

/-- C6, the code at the failing input: selecting record 1 (2 channels, scale 2,
name `b`) on the engine that had selected record 0 (4 channels, scale 1, name
`a`) leaves 6 entries in `channelInfo`, entry 0 is still record 0's, and
`updateSettings` applies record 0's calibration to channels 0 and 1, while the
backend's `getChannelInfo (0)` for the selected record is the other one. -/
theorem C6_channelInfo_accumulates :
    ∃ s', setActiveRecording demoEngine 1 = some s' ∧
      s'.currentNumChannels = 2 ∧
      s'.channelInfo.length = 6 ∧
      s'.channelInfo.getD 0 ⟨"", 0⟩ = ⟨"a", 1⟩ ∧
      (s'.input.map (fun input => input.getChannelInfo 0)) = some ⟨"b", 2⟩ ∧
      updateSettings s' = [⟨"a", 1⟩, ⟨"a", 1⟩] := by
  refine ⟨setActiveRecordingOn demoEngine demoOpened 1, ?_, ?_, ?_, ?_, ?_, ?_⟩
  all_goals with_unfolding_all rfl

/-- C7 (activation rejection): when the lower-cased extension of the path is
not supported, `setFile` returns false, sends `File type not supported`, and
the engine (backend, descriptor, playback state) is exactly as before. -/
theorem C7_setFile_unsupported (pm : Int → FileSourceInfo) (s : FileReader) (path : String)
    (h : s.isFileExtensionSupported (lowerCaseExtension path) = false) :
    setFile pm s path = (false, [Effect.sendStatusMessage "File type not supported"], s) := by
  simp only [isFileExtensionSupported] at h
  simp only [setFile, h]
  simp

theorem C7_setFile_unsupported_witness :
    demoEngine.isFileExtensionSupported (lowerCaseExtension "/data/rec.TXT") = false ∧
    setFile demoPlugins demoEngine "/data/rec.TXT"
      = (false, [Effect.sendStatusMessage "File type not supported"], demoEngine) :=
  ⟨by with_unfolding_all decide,
    C7_setFile_unsupported demoPlugins demoEngine "/data/rec.TXT" (by with_unfolding_all decide)⟩

/-- C8 (amended): when the extension is registered and the backend created
for it fails to open the path, `setFile` returns false, sends `Invalid file`,
and leaves the engine without a backend (`input` is null, `isReady` is false):
the previously active backend is dropped; every other member is unchanged. -/
theorem C8_setFile_invalid_amended (pm : Int → FileSourceInfo) (s : FileReader) (path : String)
    (hext : s.isFileExtensionSupported (lowerCaseExtension path) = true)
    (hopen : ((pm (s.supportedExtensions (lowerCaseExtension path) - 1)).creator.OpenFile
      path).1 = false) :
    setFile pm s path
      = (false, [Effect.sendStatusMessage "Invalid file"], { s with input := none }) ∧
    (setFile pm s path).2.2.input = none ∧
    isReady (setFile pm s path).2.2 = false := by
  simp only [isFileExtensionSupported] at hext
  have h : setFile pm s path
      = (false, [Effect.sendStatusMessage "Invalid file"], { s with input := none }) := by
    simp only [setFile, hext]
    simp [hopen]
  rw [h]
  exact ⟨rfl, rfl, rfl⟩

theorem C8_setFile_invalid_amended_witness :
    setFile demoPlugins demoEngine "bad.kwd"
      = (false, [Effect.sendStatusMessage "Invalid file"], { demoEngine with input := none }) ∧
    (setFile demoPlugins demoEngine "bad.kwd").2.2.input = none ∧
    isReady (setFile demoPlugins demoEngine "bad.kwd").2.2 = false :=
  C8_setFile_invalid_amended demoPlugins demoEngine "bad.kwd" (by with_unfolding_all decide)
    (by with_unfolding_all decide)

/-- C8, refuted as stated: the example engine has an active backend and is
ready; `setFile` on `bad.kwd` (registered extension, the backend cannot open
it) returns false and the engine has no backend and is not ready afterwards. -/
theorem C8_setFile_invalid_counterexample :
    demoEngine.input.isSome = true ∧ isReady demoEngine = true ∧
    demoEngine.isFileExtensionSupported (lowerCaseExtension "bad.kwd") = true ∧
    (setFile demoPlugins demoEngine "bad.kwd").1 = false ∧
    (setFile demoPlugins demoEngine "bad.kwd").2.2.input.isSome = false ∧
    isReady (setFile demoPlugins demoEngine "bad.kwd").2.2 = false := by
  refine ⟨?_, ?_, ?_, ?_, ?_, ?_⟩ <;> with_unfolding_all decide

/-- C9 (empty-file rejection): when the extension is registered, the backend
opens the path and reports no record, `setFile` returns false, sends the
empty-file message, selects no recording (every member but `input` is
unchanged), and leaves the engine without input, so `isReady` is false. -/
theorem C9_setFile_empty (pm : Int → FileSourceInfo) (s : FileReader) (path : String)
    (hext : s.isFileExtensionSupported (lowerCaseExtension path) = true)
    (hopen : ((pm (s.supportedExtensions (lowerCaseExtension path) - 1)).creator.OpenFile
      path).1 = true)
    (hempty : ((pm (s.supportedExtensions (lowerCaseExtension path) - 1)).creator.OpenFile
      path).2.getNumRecords = 0) :
    setFile pm s path
      = (false, [Effect.sendStatusMessage "Empty file. Inoring open operation"],
          { s with input := none }) ∧
    (setFile pm s path).2.2.input = none ∧
    isReady (setFile pm s path).2.2 = false := by
  simp only [isFileExtensionSupported] at hext
  have h : setFile pm s path
      = (false, [Effect.sendStatusMessage "Empty file. Inoring open operation"],
          { s with input := none }) := by
    simp only [setFile, hext]
    simp [hopen, hempty]
  rw [h]
  exact ⟨rfl, rfl, rfl⟩

theorem C9_setFile_empty_witness :
    setFile demoPlugins demoEngine "x.nul"
      = (false, [Effect.sendStatusMessage "Empty file. Inoring open operation"],
          { demoEngine with input := none }) ∧
    (setFile demoPlugins demoEngine "x.nul").2.2.input = none ∧
    isReady (setFile demoPlugins demoEngine "x.nul").2.2 = false :=
  C9_setFile_empty demoPlugins demoEngine "x.nul" (by with_unfolding_all decide)
    (by with_unfolding_all decide) (by with_unfolding_all decide)

/-- C10, the code at the failing input: on the example engine (30000 Hz) with
a block of 100000 frames the first loop iteration has `samplesToRead = 68027`,
computes `iterationsPerSecond = int (30000 / 68027) = 0` with no floor of one,
and the iteration ends in the modulus by zero. -/
theorem C10_modulus_zero :
    samplesNeeded demoEngine 100000 = 68027 ∧
    floatToInt (getDefaultSampleRate demoEngine / (((68027 : Int) - 0 : Int) : ℚ)) = 0 ∧
    (processBody demoEngine 68027 0).toOption.isNone = true ∧
    (match processBody demoEngine 68027 0 with
      | .error f => f = Fault.divisionByZero
      | .ok _ => False) := by
  refine ⟨?_, ?_, ?_, ?_⟩
  · with_unfolding_all rfl
  · with_unfolding_all rfl
  · with_unfolding_all rfl
  · with_unfolding_all exact rfl

end FileReader

namespace FileReader

/-- C12 (round trip, amended): for a positive rate and `n >= 0`, whenever both
conversions are defined, the result `m` of converting `n` samples to
milliseconds and back satisfies
`n * (1 - 2 ^ (-21)) - sourceRate / 1000 - 1 < m <= n * (1 + 2 ^ (-21))`:
it falls short of `n` by up to one millisecond of samples and one truncation,
up to the error of six `float` roundings.  For `n < 2 ^ 21` it never exceeds
`n`, and it is within two samples of `n` when the rate is at most 1000 samples
per second.  Both conversions are defined when `n < 2 ^ 61` and the time of
`n` is below `2 ^ 31` ms. -/
theorem C12_round_trip_amended (s : FileReader) (n : Int) (hrate : 0 < s.currentSampleRate)
    (hn : 0 ≤ n) :
    (∀ (ms : Nat) (m : Int), samplesToMilliseconds s n = some ms →
      millisecondsToSamples s ms = some m →
      (n : ℚ) * (1 - 1 / 2 ^ 21) - s.currentSampleRate / 1000 - 1 < (m : ℚ) ∧
      (m : ℚ) ≤ (n : ℚ) * (1 + 1 / 2 ^ 21) ∧
      (n < 2 ^ 21 → m ≤ n) ∧
      (n < 2 ^ 21 → s.currentSampleRate ≤ 1000 → |m - n| ≤ 2)) ∧
    (n < 2 ^ 61 → 1000 * (n : ℚ) / s.currentSampleRate < 2 ^ 31 →
      ∃ (ms : Nat) (m : Int), samplesToMilliseconds s n = some ms ∧
        millisecondsToSamples s ms = some m) := by
  have hnq : (0 : ℚ) ≤ (n : ℚ) := by exact_mod_cast hn
  have hr0 : 0 ≤ s.currentSampleRate := le_of_lt hrate
  have hxn : s.currentSampleRate * (1000 * (n : ℚ) / s.currentSampleRate) / 1000 = (n : ℚ) := by
    field_simp
  have hx0 : (0 : ℚ) ≤ 1000 * (n : ℚ) / s.currentSampleRate := by positivity
  -- the float value of the first conversion and its truncation
  have hfirst : ∀ ms : Nat, samplesToMilliseconds s n = some ms →
      1000 * (n : ℚ) / s.currentSampleRate
          * ((1 - 1 / 2 ^ 24) * (1 - 1 / 2 ^ 24) * (1 - 1 / 2 ^ 24)) - 1 < (ms : ℚ) ∧
      (ms : ℚ) ≤ 1000 * (n : ℚ) / s.currentSampleRate
          * ((1 + 1 / 2 ^ 24) * (1 + 1 / 2 ^ 24) * (1 + 1 / 2 ^ 24)) := by
    intro ms h
    obtain ⟨c1, c2⟩ := samplesToMilliseconds_cube s.currentSampleRate n hrate hn
    have hf0 : 0 ≤ f32 (f32 (1000 * f32 (n : ℚ)) / s.currentSampleRate) :=
      f32_nonneg _ (div_nonneg (f32_nonneg _ (mul_nonneg (by norm_num) (f32_nonneg _ hnq))) hr0)
    unfold samplesToMilliseconds at h
    rw [if_neg (ne_of_gt hrate)] at h
    obtain ⟨_, k2, k3⟩ := floatToUInt_some _ ms hf0 h
    exact ⟨by linarith, by linarith⟩
  have hsecond : ∀ (ms : Nat) (m : Int), millisecondsToSamples s ms = some m →
      s.currentSampleRate * (ms : ℚ) / 1000
          * ((1 - 1 / 2 ^ 24) * (1 - 1 / 2 ^ 24) * (1 - 1 / 2 ^ 24)) - 1 < (m : ℚ) ∧
      (m : ℚ) ≤ s.currentSampleRate * (ms : ℚ) / 1000
          * ((1 + 1 / 2 ^ 24) * (1 + 1 / 2 ^ 24) * (1 + 1 / 2 ^ 24)) := by
    intro ms m h
    obtain ⟨c1, c2⟩ := millisecondsToSamples_cube s.currentSampleRate ms hr0
    have hf0 : 0 ≤ f32 (f32 (s.currentSampleRate * f32 (ms : ℚ)) / 1000) :=
      f32_nonneg _ (div_nonneg (f32_nonneg _ (mul_nonneg hr0 (f32_nonneg _ (Nat.cast_nonneg ms))))
        (by norm_num))
    unfold millisecondsToSamples at h
    obtain ⟨_, k2, k3⟩ := floatToInt64_some _ m hf0 h
    exact ⟨by linarith, by linarith⟩
  constructor
  · intro ms m hms hm
    obtain ⟨a1, a2⟩ := hfirst ms hms
    obtain ⟨b1, b2⟩ := hsecond ms m hm
    generalize 1000 * (n : ℚ) / s.currentSampleRate = x at hxn hx0 a1 a2
    have p1 := mul_le_mul_of_nonneg_left a2 hr0
    have p2 := mul_le_mul_of_nonneg_left (le_of_lt a1) hr0
    have hlow : (n : ℚ) * (1 - 1 / 2 ^ 21) - s.currentSampleRate / 1000 - 1 < (m : ℚ) := by
      have e1 : s.currentSampleRate * x = 1000 * (n : ℚ) := by linarith
      have : (n : ℚ) * (1 - 1 / 2 ^ 21) - s.currentSampleRate / 1000
          ≤ s.currentSampleRate * (ms : ℚ) / 1000
            * ((1 - 1 / 2 ^ 24) * (1 - 1 / 2 ^ 24) * (1 - 1 / 2 ^ 24)) := by
        have q : s.currentSampleRate * (x * ((1 - 1 / 2 ^ 24) * (1 - 1 / 2 ^ 24)
            * (1 - 1 / 2 ^ 24)) - 1) / 1000
              * ((1 - 1 / 2 ^ 24) * (1 - 1 / 2 ^ 24) * (1 - 1 / 2 ^ 24))
            ≤ s.currentSampleRate * (ms : ℚ) / 1000
              * ((1 - 1 / 2 ^ 24) * (1 - 1 / 2 ^ 24) * (1 - 1 / 2 ^ 24)) := by
          apply mul_le_mul_of_nonneg_right _ (by norm_num)
          exact div_le_div_of_nonneg_right p2 (by norm_num)
        have q2 : (n : ℚ) * (1 - 1 / 2 ^ 21) - s.currentSampleRate / 1000
            ≤ s.currentSampleRate * (x * ((1 - 1 / 2 ^ 24) * (1 - 1 / 2 ^ 24)
              * (1 - 1 / 2 ^ 24)) - 1) / 1000
              * ((1 - 1 / 2 ^ 24) * (1 - 1 / 2 ^ 24) * (1 - 1 / 2 ^ 24)) := by
          have e2 : s.currentSampleRate * (x * ((1 - 1 / 2 ^ 24) * (1 - 1 / 2 ^ 24)
              * (1 - 1 / 2 ^ 24)) - 1) / 1000
                * ((1 - 1 / 2 ^ 24) * (1 - 1 / 2 ^ 24) * (1 - 1 / 2 ^ 24))
              = (n : ℚ) * (((1 - 1 / 2 ^ 24) * (1 - 1 / 2 ^ 24) * (1 - 1 / 2 ^ 24))
                  * ((1 - 1 / 2 ^ 24) * (1 - 1 / 2 ^ 24) * (1 - 1 / 2 ^ 24)))
                - s.currentSampleRate / 1000
                  * ((1 - 1 / 2 ^ 24) * (1 - 1 / 2 ^ 24) * (1 - 1 / 2 ^ 24)) := by
            have : s.currentSampleRate * (x * ((1 - 1 / 2 ^ 24) * (1 - 1 / 2 ^ 24)
                * (1 - 1 / 2 ^ 24)) - 1)
                = (s.currentSampleRate * x) * ((1 - 1 / 2 ^ 24) * (1 - 1 / 2 ^ 24)
                  * (1 - 1 / 2 ^ 24)) - s.currentSampleRate := by ring
            rw [this, e1]
            ring
          rw [e2]
          have k1 : (n : ℚ) * (1 - 1 / 2 ^ 21)
              ≤ (n : ℚ) * (((1 - 1 / 2 ^ 24) * (1 - 1 / 2 ^ 24) * (1 - 1 / 2 ^ 24))
                  * ((1 - 1 / 2 ^ 24) * (1 - 1 / 2 ^ 24) * (1 - 1 / 2 ^ 24))) :=
            mul_le_mul_of_nonneg_left (by norm_num) hnq
          have k2 : s.currentSampleRate / 1000
                * ((1 - 1 / 2 ^ 24) * (1 - 1 / 2 ^ 24) * (1 - 1 / 2 ^ 24))
              ≤ s.currentSampleRate / 1000 * 1 :=
            mul_le_mul_of_nonneg_left (by norm_num) (by positivity)
          linarith
        exact le_trans q2 q
      linarith
    have hup : (m : ℚ) ≤ (n : ℚ) * (1 + 1 / 2 ^ 21) := by
      have q : s.currentSampleRate * (ms : ℚ) / 1000
            * ((1 + 1 / 2 ^ 24) * (1 + 1 / 2 ^ 24) * (1 + 1 / 2 ^ 24))
          ≤ s.currentSampleRate * (x * ((1 + 1 / 2 ^ 24) * (1 + 1 / 2 ^ 24)
              * (1 + 1 / 2 ^ 24))) / 1000
            * ((1 + 1 / 2 ^ 24) * (1 + 1 / 2 ^ 24) * (1 + 1 / 2 ^ 24)) := by
        apply mul_le_mul_of_nonneg_right _ (by norm_num)
        exact div_le_div_of_nonneg_right p1 (by norm_num)
      have e2 : s.currentSampleRate * (x * ((1 + 1 / 2 ^ 24) * (1 + 1 / 2 ^ 24)
              * (1 + 1 / 2 ^ 24))) / 1000
            * ((1 + 1 / 2 ^ 24) * (1 + 1 / 2 ^ 24) * (1 + 1 / 2 ^ 24))
          = (n : ℚ) * (((1 + 1 / 2 ^ 24) * (1 + 1 / 2 ^ 24) * (1 + 1 / 2 ^ 24))
              * ((1 + 1 / 2 ^ 24) * (1 + 1 / 2 ^ 24) * (1 + 1 / 2 ^ 24))) := by
        rw [← hxn]
        ring
      have k1 : (n : ℚ) * (((1 + 1 / 2 ^ 24) * (1 + 1 / 2 ^ 24) * (1 + 1 / 2 ^ 24))
              * ((1 + 1 / 2 ^ 24) * (1 + 1 / 2 ^ 24) * (1 + 1 / 2 ^ 24)))
          ≤ (n : ℚ) * (1 + 1 / 2 ^ 21) :=
        mul_le_mul_of_nonneg_left (by norm_num) hnq
      linarith
    have hsmall : n < 2 ^ 21 → (n : ℚ) * (1 / 2 ^ 21) < 1 := by
      intro h
      have hq : (n : ℚ) < 2 ^ 21 := by exact_mod_cast h
      have : (n : ℚ) * (1 / 2 ^ 21) < 2 ^ 21 * (1 / 2 ^ 21) :=
        mul_lt_mul_of_pos_right hq (by norm_num)
      linarith [show (2 : ℚ) ^ 21 * (1 / 2 ^ 21) = 1 by norm_num]
    refine ⟨hlow, hup, ?_, ?_⟩
    · intro h
      have h1 := hsmall h
      have : (m : ℚ) < ((n + 1 : Int) : ℚ) := by push_cast; linarith
      have : m < n + 1 := by exact_mod_cast this
      omega
    · intro h hsmallrate
      have h1 := hsmall h
      have hr1 : s.currentSampleRate / 1000 ≤ 1 := by
        rw [div_le_one (by norm_num)]; exact hsmallrate
      have hu : (m : ℚ) < ((n + 1 : Int) : ℚ) := by push_cast; linarith
      have hd : ((n - 3 : Int) : ℚ) < (m : ℚ) := by push_cast; linarith
      have hu' : m < n + 1 := by exact_mod_cast hu
      have hd' : n - 3 < m := by exact_mod_cast hd
      rw [abs_le]
      constructor <;> omega
  · intro hn61 hrange
    obtain ⟨ms, hms⟩ := samplesToMilliseconds_defined s n hrate hn hrange
    obtain ⟨_, a2⟩ := hfirst ms hms
    have hn61q : (n : ℚ) < 2 ^ 61 := by exact_mod_cast hn61
    have hy : s.currentSampleRate * (ms : ℚ) / 1000 < 2 ^ 62 := by
      have p1 := mul_le_mul_of_nonneg_left a2 hr0
      have q : s.currentSampleRate * (ms : ℚ) / 1000
          ≤ s.currentSampleRate * (1000 * (n : ℚ) / s.currentSampleRate
              * ((1 + 1 / 2 ^ 24) * (1 + 1 / 2 ^ 24) * (1 + 1 / 2 ^ 24))) / 1000 :=
        div_le_div_of_nonneg_right p1 (by norm_num)
      have e2 : s.currentSampleRate * (1000 * (n : ℚ) / s.currentSampleRate
              * ((1 + 1 / 2 ^ 24) * (1 + 1 / 2 ^ 24) * (1 + 1 / 2 ^ 24))) / 1000
          = (n : ℚ) * ((1 + 1 / 2 ^ 24) * (1 + 1 / 2 ^ 24) * (1 + 1 / 2 ^ 24)) := by
        calc s.currentSampleRate * (1000 * (n : ℚ) / s.currentSampleRate
              * ((1 + 1 / 2 ^ 24) * (1 + 1 / 2 ^ 24) * (1 + 1 / 2 ^ 24))) / 1000
            = (s.currentSampleRate * (1000 * (n : ℚ) / s.currentSampleRate) / 1000)
                * ((1 + 1 / 2 ^ 24) * (1 + 1 / 2 ^ 24) * (1 + 1 / 2 ^ 24)) := by ring
          _ = (n : ℚ) * ((1 + 1 / 2 ^ 24) * (1 + 1 / 2 ^ 24) * (1 + 1 / 2 ^ 24)) := by
              rw [hxn]
      have k1 : (n : ℚ) * ((1 + 1 / 2 ^ 24) * (1 + 1 / 2 ^ 24) * (1 + 1 / 2 ^ 24))
          ≤ (n : ℚ) * 2 := mul_le_mul_of_nonneg_left (by norm_num) hnq
      linarith
    obtain ⟨m, hm⟩ := millisecondsToSamples_defined s ms hr0 hy
    exact ⟨ms, m, hms, hm⟩

theorem C12_round_trip_amended_witness :
    ((∀ (ms : Nat) (m : Int), samplesToMilliseconds demoEngine 8591040 = some ms →
      millisecondsToSamples demoEngine ms = some m →
      ((8591040 : Int) : ℚ) * (1 - 1 / 2 ^ 21) - demoEngine.currentSampleRate / 1000 - 1
        < (m : ℚ) ∧
      (m : ℚ) ≤ ((8591040 : Int) : ℚ) * (1 + 1 / 2 ^ 21) ∧
      ((8591040 : Int) < 2 ^ 21 → m ≤ 8591040) ∧
      ((8591040 : Int) < 2 ^ 21 → demoEngine.currentSampleRate ≤ 1000 → |m - 8591040| ≤ 2)) ∧
    ((8591040 : Int) < 2 ^ 61 →
      1000 * ((8591040 : Int) : ℚ) / demoEngine.currentSampleRate < 2 ^ 31 →
      ∃ (ms : Nat) (m : Int), samplesToMilliseconds demoEngine 8591040 = some ms ∧
        millisecondsToSamples demoEngine ms = some m)) ∧
    samplesToMilliseconds demoEngine 8591040 = some 286368 ∧
    millisecondsToSamples demoEngine 286368 = some 8591041 :=
  ⟨C12_round_trip_amended demoEngine 8591040 (by with_unfolding_all decide) (by decide),
    by with_unfolding_all rfl, by with_unfolding_all rfl⟩

/-- C12, refuted as stated: at 30000 Hz with 300000 samples, `n = 29` converts
to 0 ms and back to sample 0, which is 29 samples away from `n`. -/
theorem C12_round_trip_counterexample :
    0 < demoEngine.currentSampleRate ∧ (0 : Int) ≤ 29 ∧ 29 ≤ demoEngine.currentNumSamples ∧
    samplesToMilliseconds demoEngine 29 = some 0 ∧
    millisecondsToSamples demoEngine 0 = some 0 ∧
    ¬ |(0 : Int) - 29| ≤ 1 := by
  refine ⟨?_, ?_, ?_, ?_, ?_, ?_⟩ <;> with_unfolding_all decide

/-- C13 (amended): for a positive rate and `n >= 0`, `samplesToMilliseconds n`,
when its conversion is defined, is the truncation (not the rounding) of the
`float` value of `1000.f * float (n) / sourceRate`; it lies within
`x * (1 - 2 ^ (-22)) - 1 < result <= x * (1 + 2 ^ (-22))` for the exact
quotient `x = 1000 * n / sourceRate`, hence at most one away from `floor x`
as long as `x <= 2 ^ 22`.  It is defined when `x < 2 ^ 31`. -/
theorem C13_samplesToMilliseconds_truncates (s : FileReader) (n : Int)
    (hrate : 0 < s.currentSampleRate) (hn : 0 ≤ n) :
    (∀ ms : Nat, samplesToMilliseconds s n = some ms →
      (ms : Int) = ⌊f32 (f32 (1000 * f32 (n : ℚ)) / s.currentSampleRate)⌋ ∧
      1000 * (n : ℚ) / s.currentSampleRate * (1 - 1 / 2 ^ 22) - 1 < (ms : ℚ) ∧
      (ms : ℚ) ≤ 1000 * (n : ℚ) / s.currentSampleRate * (1 + 1 / 2 ^ 22) ∧
      (1000 * (n : ℚ) / s.currentSampleRate ≤ 2 ^ 22 →
        |(ms : Int) - ⌊1000 * (n : ℚ) / s.currentSampleRate⌋| ≤ 1)) ∧
    (1000 * (n : ℚ) / s.currentSampleRate < 2 ^ 31 →
      ∃ ms : Nat, samplesToMilliseconds s n = some ms) := by
  have hnq : (0 : ℚ) ≤ (n : ℚ) := by exact_mod_cast hn
  constructor
  · intro ms h
    obtain ⟨h1, h2, h3⟩ := samplesToMilliseconds_bounds s n ms hrate hn h
    refine ⟨h1, h2, h3, ?_⟩
    intro hx
    have h2' : 1000 * (n : ℚ) / s.currentSampleRate * (1 - 1 / 2 ^ 22) - 1
        < (((ms : Nat) : Int) : ℚ) := by rw [Int.cast_natCast]; exact h2
    have h3' : (((ms : Nat) : Int) : ℚ)
        ≤ 1000 * (n : ℚ) / s.currentSampleRate * (1 + 1 / 2 ^ 22) := by
      rw [Int.cast_natCast]; exact h3
    exact near_floor _ _ hx h2' h3'
  · intro hrange
    exact samplesToMilliseconds_defined s n hrate hn hrange

theorem C13_samplesToMilliseconds_truncates_witness :
    ((∀ ms : Nat, samplesToMilliseconds demoEngine 268530 = some ms →
      (ms : Int) = ⌊f32 (f32 (1000 * f32 ((268530 : Int) : ℚ)) / demoEngine.currentSampleRate)⌋ ∧
      1000 * ((268530 : Int) : ℚ) / demoEngine.currentSampleRate * (1 - 1 / 2 ^ 22) - 1
        < (ms : ℚ) ∧
      (ms : ℚ) ≤ 1000 * ((268530 : Int) : ℚ) / demoEngine.currentSampleRate * (1 + 1 / 2 ^ 22) ∧
      (1000 * ((268530 : Int) : ℚ) / demoEngine.currentSampleRate ≤ 2 ^ 22 →
        |(ms : Int) - ⌊1000 * ((268530 : Int) : ℚ) / demoEngine.currentSampleRate⌋| ≤ 1)) ∧
    (1000 * ((268530 : Int) : ℚ) / demoEngine.currentSampleRate < 2 ^ 31 →
      ∃ ms : Nat, samplesToMilliseconds demoEngine 268530 = some ms)) ∧
    samplesToMilliseconds demoEngine 268530 = some 8950 ∧
    1000 * ((268530 : Int) : ℚ) / demoEngine.currentSampleRate = 8951 :=
  ⟨C13_samplesToMilliseconds_truncates demoEngine 268530 (by with_unfolding_all decide)
      (by decide),
    by with_unfolding_all rfl, by with_unfolding_all rfl⟩

/-- C13, refuted as stated: at 30000 Hz, 29 samples are 0.9667 ms; the method
returns 0 while the nearest integer is 1. -/
theorem C13_samplesToMilliseconds_counterexample :
    demoEngine.currentSampleRate = 30000 ∧
    samplesToMilliseconds demoEngine 29 = some 0 ∧
    round (1000 * ((29 : Int) : ℚ) / demoEngine.currentSampleRate) = 1 ∧
    samplesToMilliseconds demoEngine 29
      ≠ some (round (1000 * ((29 : Int) : ℚ) / demoEngine.currentSampleRate)).toNat := by
  have hr : demoEngine.currentSampleRate = 30000 := by with_unfolding_all rfl
  have h0 : samplesToMilliseconds demoEngine 29 = some 0 := by with_unfolding_all rfl
  have h1 : round (1000 * ((29 : Int) : ℚ) / demoEngine.currentSampleRate) = 1 := by
    rw [hr, round_eq, Int.floor_eq_iff]
    norm_num
  refine ⟨hr, h0, h1, ?_⟩
  rw [h0, h1]
  decide

/-- C15 (extension registry): in the map the constructor builds from the file
sources `0 .. k - 1`, an extension is supported exactly when it is the
lower-casing of a token of some backend's extension list; its stored value is
the index of the last backend listing it, plus one; an extension that no
backend lists reads as 0 and is unsupported. -/
theorem C15_extension_registry (fileSources : List FileSourceInfo) (count : Int) (ext : String) :
    (isFileExtensionSupported (create fileSources count) ext = true ↔
      ∃ (j : Nat) (info : FileSourceInfo), fileSources[j]? = some info ∧
        ∃ token ∈ addTokens info.extensions, ext = token.toLower) ∧
    (∀ (j : Nat) (info : FileSourceInfo), fileSources[j]? = some info →
      listsExtension info ext →
      (∀ (j' : Nat) (info' : FileSourceInfo), j < j' → fileSources[j']? = some info' →
        ¬ listsExtension info' ext) →
      (create fileSources count).supportedExtensions ext = (j : Int) + 1) ∧
    ((∀ (j : Nat) (info : FileSourceInfo), fileSources[j]? = some info →
        ¬ listsExtension info ext) →
      (create fileSources count).supportedExtensions ext = 0 ∧
      isFileExtensionSupported (create fileSources count) ext = false) := by
  have hmap : (create fileSources count).supportedExtensions
      = registerFileSources (fun _ => 0) 0 fileSources := rfl
  simp only [isFileExtensionSupported, hmap]
  rcases registerFileSources_apply ext fileSources (fun _ => 0) 0 with
    ⟨j, info, hj, hl, hlast, hv⟩ | ⟨hnone, hv⟩
  · refine ⟨?_, ?_, ?_⟩
    · constructor
      · intro _
        exact ⟨j, info, hj, hl⟩
      · intro _
        rw [hv]
        simp only [decide_eq_true_eq]
        omega
    · intro j1 info1 hj1 hl1 hlast1
      have hjj : j1 = j := by
        rcases Nat.lt_trichotomy j1 j with h | h | h
        · exact absurd hl (hlast1 j info h hj)
        · exact h
        · exact absurd hl1 (hlast j1 info1 h hj1)
      rw [hv, hjj]
      ring
    · intro hnone
      exact absurd hl (hnone j info hj)
  · refine ⟨?_, ?_, ?_⟩
    · constructor
      · intro h
        rw [hv] at h
        simp at h
      · rintro ⟨j, info, hj, hl⟩
        exact absurd hl (hnone j info hj)
    · intro j1 info1 hj1 hl1 _
      exact absurd hl1 (hnone j1 info1 hj1)
    · intro _
      rw [hv]
      simp

theorem C15_extension_registry_witness :
    (create demoFileSources 0).supportedExtensions "kwd" = 2 ∧
    (create demoFileSources 0).supportedExtensions "kwx" = 1 ∧
    ((create demoFileSources 0).supportedExtensions "KWX" = 0 ∧
      isFileExtensionSupported (create demoFileSources 0) "KWX" = false) :=
  ⟨(C15_extension_registry demoFileSources 0 "kwd").2.1 1 ⟨"empty", "nul;kwd", emptySource⟩
      (by with_unfolding_all rfl) ⟨"kwd", by with_unfolding_all decide, by with_unfolding_all decide⟩
      (by
        intro j' info' hlt h
        have hnone : demoFileSources[j']? = none := by
          apply List.getElem?_eq_none
          have : demoFileSources.length = 2 := rfl
          omega
        rw [hnone] at h
        exact absurd h (by simp)),
    by with_unfolding_all rfl,
    by with_unfolding_all rfl, by with_unfolding_all rfl⟩

/-- C16 (time-base advance, amended): on an activated engine with a positive
rate and a block size `>= 0`, `samplesNeeded` is the truncation of the `float`
product `float (blockSize) * (sourceRate / 44100.0f)`; it lies within
`z * (1 - 2 ^ (-22)) - 1 < samplesNeeded <= z * (1 + 2 ^ (-22))` for
`z = blockSize * sourceRate / 44100`, hence at most one away from `floor z` as
long as `z <= 2 ^ 22`.  A call of `process` that returns has advanced
`timestamp` by exactly `samplesNeeded` and its last call publishes the pair
(new time stamp, `samplesNeeded`); `n` returning pulls of the same block size
advance `timestamp` by `n * samplesNeeded`. -/
theorem C16_timestamp_advance (budget : Nat) (s s' : FileReader) (src : FileSource) (b : Int)
    (calls : List Effect) (hin : s.input = some src) (hrate : 0 < s.currentSampleRate)
    (hb : 0 ≤ b) (hret : process budget s b = Outcome.returns (s', calls)) :
    samplesNeeded s b = ⌊f32 (f32 (b : ℚ) * f32 (s.currentSampleRate / 44100))⌋ ∧
    (b : ℚ) * s.currentSampleRate / 44100 * (1 - 1 / 2 ^ 22) - 1 < (samplesNeeded s b : ℚ) ∧
    (samplesNeeded s b : ℚ) ≤ (b : ℚ) * s.currentSampleRate / 44100 * (1 + 1 / 2 ^ 22) ∧
    ((b : ℚ) * s.currentSampleRate / 44100 ≤ 2 ^ 22 →
      |samplesNeeded s b - ⌊(b : ℚ) * s.currentSampleRate / 44100⌋| ≤ 1) ∧
    s'.timestamp = s.timestamp + samplesNeeded s b ∧
    calls.getLast? = some (Effect.setTimestampAndSamples s'.timestamp (samplesNeeded s b)) ∧
    (∀ (n : Nat) (s'' : FileReader) (calls'' : List Effect),
      pulls budget s (List.replicate n b) = Outcome.returns (s'', calls'') →
      s''.timestamp = s.timestamp + (n : Int) * samplesNeeded s b) := by
  obtain ⟨t, loopCalls, hrun, hs', hcalls⟩ := process_returns_inv budget s s' b calls hret
  have hf := process_frame budget s s' b calls hret
  have hts : s'.timestamp = s.timestamp + samplesNeeded s b := by rw [hf]
  have htt : t.timestamp = s.timestamp := by rw [LoopRun_frame _ _ _ _ _ hrun]
  have hdr : getDefaultSampleRate s = s.currentSampleRate := by
    simp only [getDefaultSampleRate, hin]
  have hbq : (0 : ℚ) ≤ (b : ℚ) := by exact_mod_cast hb
  obtain ⟨h1, h2, h3⟩ := samplesNeeded_bounds s b hb (by rw [hdr]; exact le_of_lt hrate)
  rw [hdr] at h1 h2 h3
  refine ⟨h1, h2, h3, fun hz => near_floor _ _ hz h2 h3, hts, ?_, ?_⟩
  · rw [hcalls, List.getLast?_append, hts, htt]
    rfl
  · intro n s'' calls'' hp
    rw [pulls_timestamp budget _ s s'' calls'' hp]
    simp [List.map_replicate, List.sum_replicate]

theorem C16_timestamp_advance_witness :
    samplesNeeded demoEngine 1024
      = ⌊f32 (f32 ((1024 : Int) : ℚ) * f32 (demoEngine.currentSampleRate / 44100))⌋ ∧
    ((1024 : Int) : ℚ) * demoEngine.currentSampleRate / 44100 * (1 - 1 / 2 ^ 22) - 1
      < (samplesNeeded demoEngine 1024 : ℚ) ∧
    (samplesNeeded demoEngine 1024 : ℚ)
      ≤ ((1024 : Int) : ℚ) * demoEngine.currentSampleRate / 44100 * (1 + 1 / 2 ^ 22) ∧
    (((1024 : Int) : ℚ) * demoEngine.currentSampleRate / 44100 ≤ 2 ^ 22 →
      |samplesNeeded demoEngine 1024
        - ⌊((1024 : Int) : ℚ) * demoEngine.currentSampleRate / 44100⌋| ≤ 1) ∧
    ({ demoEngine with count := 1, currentSample := 696, timestamp := 696 } : FileReader).timestamp
      = demoEngine.timestamp + samplesNeeded demoEngine 1024 ∧
    [Effect.readData 0 696, Effect.processChannelData 0 696,
      Effect.processChannelData 1 696, Effect.processChannelData 2 696,
      Effect.processChannelData 3 696, Effect.setTimestampAndSamples 696 696].getLast?
      = some (Effect.setTimestampAndSamples
          ({ demoEngine with count := 1, currentSample := 696,
                             timestamp := 696 } : FileReader).timestamp
          (samplesNeeded demoEngine 1024)) ∧
    (∀ (n : Nat) (s'' : FileReader) (calls'' : List Effect),
      pulls 2 demoEngine (List.replicate n 1024) = Outcome.returns (s'', calls'') →
      s''.timestamp = demoEngine.timestamp + (n : Int) * samplesNeeded demoEngine 1024) :=
  C16_timestamp_advance 2 demoEngine
    { demoEngine with count := 1, currentSample := 696, timestamp := 696 } demoOpened 1024
    [Effect.readData 0 696, Effect.processChannelData 0 696,
      Effect.processChannelData 1 696, Effect.processChannelData 2 696,
      Effect.processChannelData 3 696, Effect.setTimestampAndSamples 696 696]
    (by with_unfolding_all rfl) (by with_unfolding_all decide) (by decide)
    (by with_unfolding_all rfl)

/-- C16, refuted as stated: at 25000 Hz a block of 441 frames has
`blockSize * sourceRate / 44100 = 250` exactly, while the `float` quotient
`25000.f / 44100.0f` is rounded down and the product truncates to
`samplesNeeded = 249`; the returning pull advances `timestamp` from 0 to 249
and publishes the pair (249, 249). -/
theorem C16_timestamp_counterexample :
    (rateEngine 25000).input = some (rateSource 25000) ∧
    (rateEngine 25000).currentSampleRate = 25000 ∧ (rateEngine 25000).timestamp = 0 ∧
    ⌊((441 : Int) : ℚ) * (rateEngine 25000).currentSampleRate / 44100⌋ = 250 ∧
    samplesNeeded (rateEngine 25000) 441 = 249 ∧
    (∃ s' calls, process 1 (rateEngine 25000) 441 = Outcome.returns (s', calls) ∧
      s'.timestamp = 249 ∧
      calls.getLast? = some (Effect.setTimestampAndSamples 249 249) ∧
      s'.timestamp ≠ (rateEngine 25000).timestamp
        + ⌊((441 : Int) : ℚ) * (rateEngine 25000).currentSampleRate / 44100⌋) := by
  have hr : (rateEngine 25000).currentSampleRate = 25000 := by with_unfolding_all rfl
  have hfl : ⌊((441 : Int) : ℚ) * (rateEngine 25000).currentSampleRate / 44100⌋ = 250 := by
    rw [hr, Int.floor_eq_iff]
    norm_num
  refine ⟨by with_unfolding_all rfl, hr, by with_unfolding_all rfl, hfl,
    by with_unfolding_all rfl, ?_⟩
  rw [hfl]
  with_unfolding_all exact ⟨_, _, rfl, by decide, by decide, by decide⟩

/-- C17, the code at the failing input: the stop time 0 ms on the example
engine gives `stopSample = 0 = startSample = currentSample`; a pull of 1024
frames needs 696 samples, and every iteration of its loop takes the wrap
branch with `stopSample - currentSample = 0` samples to read, so
`samplesRead` stays 0: under every budget the loop is still running. -/
theorem C17_pull_never_returns :
    setParameter demoEngine 2 0 = some stoppedEngine ∧
    stoppedEngine.startSample = 0 ∧ stoppedEngine.stopSample = 0 ∧
    stoppedEngine.currentSample = 0 ∧
    samplesNeeded stoppedEngine 1024 = 696 ∧
    (∀ budget : Nat, process budget stoppedEngine 1024 = Outcome.fuel) ∧
    (∀ budget : Nat, (process budget stoppedEngine 1024).result? = none) := by
  have hloop : ∀ budget : Nat,
      processLoop (samplesNeeded stoppedEngine 1024) budget stoppedEngine 0 []
        = Outcome.fuel := by
    intro budget
    exact processLoop_empty_range _ (by with_unfolding_all decide) budget stoppedEngine
      demoOpened [] (by with_unfolding_all rfl) (by with_unfolding_all decide)
      (by with_unfolding_all rfl) (by with_unfolding_all rfl)
  have hproc : ∀ budget : Nat, process budget stoppedEngine 1024 = Outcome.fuel := by
    intro budget
    simp only [process, hloop budget]
  refine ⟨by with_unfolding_all rfl, by with_unfolding_all rfl, by with_unfolding_all rfl,
    by with_unfolding_all rfl, by with_unfolding_all rfl, hproc, ?_⟩
  intro budget
  rw [hproc budget]
  rfl

/-- C19 (cursor invariant and congruence of a pull): on a state with
`startSample <= currentSample <= stopSample` and a non-empty loop range, for a
block size `>= 0` and a rate `>= 0`, every returning call of `process` leaves
the cursor between the bounds, leaves `startSample` and `stopSample`
unchanged, and moves the cursor offset by `samplesNeeded` modulo the loop
length; the cursor rests on `stopSample` when the consumed span ends exactly
there; and the call does return whenever `samplesNeeded` is at most the rate. -/
theorem C19_cursor_invariant (s : FileReader) (src : FileSource) (b : Int)
    (hin : s.input = some src) (hlo : s.startSample ≤ s.currentSample)
    (hhi : s.currentSample ≤ s.stopSample) (hL : s.startSample < s.stopSample)
    (hb : 0 ≤ b) (hrate : 0 ≤ s.currentSampleRate) :
    (∀ (budget : Nat) (s' : FileReader) (calls : List Effect),
      process budget s b = Outcome.returns (s', calls) →
      s.startSample ≤ s'.currentSample ∧ s'.currentSample ≤ s.stopSample ∧
      s'.startSample = s.startSample ∧ s'.stopSample = s.stopSample ∧
      (s'.currentSample - s.startSample) ≡ (s.currentSample - s.startSample) + samplesNeeded s b
        [ZMOD (s.stopSample - s.startSample)] ∧
      (0 < samplesNeeded s b → s.currentSample + samplesNeeded s b = s.stopSample →
        s'.currentSample = s.stopSample)) ∧
    ((samplesNeeded s b : ℚ) ≤ s.currentSampleRate → ∀ budget : Nat,
      2 * samplesNeeded s b + 1 ≤ (budget : Int) →
      ∃ s' calls, process budget s b = Outcome.returns (s', calls)) := by
  have hN : 0 ≤ samplesNeeded s b :=
    samplesNeeded_nonneg s b hb (by simp only [getDefaultSampleRate, hin]; exact hrate)
  constructor
  · intro budget s' calls hret
    obtain ⟨t, loopCalls, hrun, hs', _⟩ := process_returns_inv budget s s' b calls hret
    have hf := process_frame budget s s' b calls hret
    obtain ⟨_, h1, h2, _, h4, _⟩ := LoopRun_spec _ _ _ _ _ hrun hlo hhi hN
    have hcur : s'.currentSample = t.currentSample := by rw [hs']
    rw [hcur]
    refine ⟨h1, h2, by rw [hf], by rw [hf], by simpa using h4, ?_⟩
    intro hpos hend
    cases hrun with
    | done _ _ h => exact absurd hpos h
    | step _ s1 _ _ k1 c1 c' h hbody hr =>
      obtain ⟨_, _, hcase⟩ := processBody_ok_inv s s1 _ 0 k1 c1 hbody
      rcases hcase with ⟨_, hs1, hk1, _⟩ | ⟨hcross, _, _, _⟩
      · subst hk1
        obtain ⟨ht, _⟩ := LoopRun_of_not_lt _ s1 _ t c' hr (lt_irrefl _)
        rw [ht, hs1]
        simp only [sub_zero]
        exact hend
      · simp only [sub_zero] at hcross
        omega
  · intro hsafe budget hbudget
    obtain ⟨s', calls, hp, _⟩ := process_spec budget s b src hin hL hlo hhi hN hsafe hbudget
    exact ⟨s', _, hp⟩

theorem C19_cursor_invariant_witness :
    (∀ (budget : Nat) (s' : FileReader) (calls : List Effect),
      process budget shortEngine 10 = Outcome.returns (s', calls) →
      shortEngine.startSample ≤ s'.currentSample ∧ s'.currentSample ≤ shortEngine.stopSample ∧
      s'.startSample = shortEngine.startSample ∧ s'.stopSample = shortEngine.stopSample ∧
      (s'.currentSample - shortEngine.startSample) ≡
        (shortEngine.currentSample - shortEngine.startSample) + samplesNeeded shortEngine 10
        [ZMOD (shortEngine.stopSample - shortEngine.startSample)] ∧
      (0 < samplesNeeded shortEngine 10 →
        shortEngine.currentSample + samplesNeeded shortEngine 10 = shortEngine.stopSample →
        s'.currentSample = shortEngine.stopSample)) ∧
    ((samplesNeeded shortEngine 10 : ℚ) ≤ shortEngine.currentSampleRate → ∀ budget : Nat,
      2 * samplesNeeded shortEngine 10 + 1 ≤ (budget : Int) →
      ∃ s' calls, process budget shortEngine 10 = Outcome.returns (s', calls)) :=
  C19_cursor_invariant shortEngine (demoSource.setActiveRecord 1) 10
    (by with_unfolding_all rfl) (by with_unfolding_all decide) (by with_unfolding_all decide)
    (by with_unfolding_all decide) (by decide) (by with_unfolding_all decide)

/-- C20, the code at the failing input: on an engine at 22052.998046875 Hz
(a `float` value, `11291135 / 512`; cursor 0 in the range 0 .. 300000) a block
of 44100 frames has `blockSize * sourceRate / 44100` below the rate, while the
`float` product `float (44100) * (sourceRate / 44100.0f)` is rounded up to
22053, so `samplesNeeded = 22053`, more than the rate; the first iteration
computes `iterationsPerSecond = int (22052.998 / 22053) = 0` and ends in the
modulus by zero, so the call does not return under any budget. -/
theorem C20_modulus_unsafe :
    (rateEngine (11291135 / 512)).input = some (rateSource (11291135 / 512)) ∧
    (rateEngine (11291135 / 512)).startSample ≤ (rateEngine (11291135 / 512)).currentSample ∧
    (rateEngine (11291135 / 512)).currentSample ≤ (rateEngine (11291135 / 512)).stopSample ∧
    (rateEngine (11291135 / 512)).startSample < (rateEngine (11291135 / 512)).stopSample ∧
    1 ≤ (rateEngine (11291135 / 512)).currentSampleRate ∧
    f32 (rateEngine (11291135 / 512)).currentSampleRate
      = (rateEngine (11291135 / 512)).currentSampleRate ∧
    (0 : Int) ≤ 44100 ∧ (44100 : Int) ≤ 44100 ∧
    ((44100 : Int) : ℚ) * (rateEngine (11291135 / 512)).currentSampleRate / 44100
      ≤ (rateEngine (11291135 / 512)).currentSampleRate ∧
    f32 (f32 ((44100 : Int) : ℚ) * f32 ((rateEngine (11291135 / 512)).currentSampleRate / 44100))
      = 22053 ∧
    samplesNeeded (rateEngine (11291135 / 512)) 44100 = 22053 ∧
    (rateEngine (11291135 / 512)).currentSampleRate < ((22053 : Int) : ℚ) ∧
    floatToInt (getDefaultSampleRate (rateEngine (11291135 / 512))
      / (((22053 : Int) - 0 : Int) : ℚ)) = 0 ∧
    (match processBody (rateEngine (11291135 / 512)) 22053 0 with
      | .error f => f = Fault.divisionByZero
      | .ok _ => False) ∧
    (∀ budget : Nat, (process budget (rateEngine (11291135 / 512)) 44100).result? = none) ∧
    (∀ budget : Nat, process (budget + 1) (rateEngine (11291135 / 512)) 44100
      = Outcome.fault Fault.divisionByZero) := by
  have h1 : ∀ budget : Nat, process (budget + 1) (rateEngine (11291135 / 512)) 44100
      = Outcome.fault Fault.divisionByZero := by
    intro budget
    with_unfolding_all rfl
  refine ⟨by with_unfolding_all rfl, by with_unfolding_all decide, by with_unfolding_all decide,
    by with_unfolding_all decide, by with_unfolding_all decide, by with_unfolding_all rfl,
    by decide, by decide, by with_unfolding_all decide, by with_unfolding_all rfl,
    by with_unfolding_all rfl, by with_unfolding_all decide, by with_unfolding_all rfl,
    by with_unfolding_all exact rfl, ?_, h1⟩
  intro budget
  cases budget with
  | zero => with_unfolding_all rfl
  | succ n => rw [h1 n]; rfl

end FileReader
